import Mathlib

set_option linter.unusedSectionVars false

/-!
# extraDistr kernels: a shallow embedding

The C++ sources under `src/` (beta-binomial, beta-prime, Dirichlet-multinomial,
discrete uniform, mixture of normals, Tukey lambda) are embedded as Lean
functions over an idealised `double`:

* a `double` is `Dbl K`: not-a-number, minus infinity, a finite value of an
  ordered field `K`, or plus infinity.  Arithmetic on finite values is the exact
  arithmetic of `K` (no rounding, no overflow, a single unsigned zero); the
  special values follow IEEE-754 (`inf - inf = nan`, `0/0 = nan`, comparisons
  with `nan` are false, ...).
* `bool& throw_warning` is passed explicitly: a kernel takes the latch and
  returns the pair of its value and the new latch.
* `Rcpp::stop` is `Except.error`; `Rcpp::warning` appends to a list of warnings.
* the functions of Rmath (`R::lgammafn`, `R::beta`, `R::pbeta`, ...) and of
  `<cmath>` (`exp`, `log`, `pow`) are external: they are the fields of a record
  `RMath K` that every kernel takes as a parameter.
* where a statement depends on rounding or overflow, the kernel is also embedded in
  binary64 arithmetic (namespace `F64`): the same code with every arithmetic result
  rounded to the nearest double.
-/

namespace ExtraDistr

/-! ## The idealised double -/

/-- An idealised IEEE double over the ordered field `K`. -/
inductive Dbl (K : Type) where
  | nan : Dbl K
  | ninf : Dbl K
  | fin (v : K) : Dbl K
  | pinf : Dbl K
  deriving DecidableEq, Repr

namespace Dbl

variable {K : Type} [LinearOrderedField K] [FloorRing K]

/-- `ISNAN(x)`. -/
def isnan : Dbl K → Bool
  | nan => true
  | _ => false

/-- `R_FINITE(x)`. -/
def finite : Dbl K → Bool
  | fin _ => true
  | _ => false

/-- IEEE addition. -/
def add : Dbl K → Dbl K → Dbl K
  | nan, _ => nan
  | _, nan => nan
  | pinf, ninf => nan
  | ninf, pinf => nan
  | pinf, _ => pinf
  | _, pinf => pinf
  | ninf, _ => ninf
  | _, ninf => ninf
  | fin a, fin b => fin (a + b)

/-- IEEE negation. -/
def neg : Dbl K → Dbl K
  | nan => nan
  | pinf => ninf
  | ninf => pinf
  | fin a => fin (-a)

/-- IEEE subtraction. -/
def sub (a b : Dbl K) : Dbl K := add a (neg b)

/-- The product of the finite value `s` with an infinity, `+inf` when `positive` and
`-inf` otherwise: `nan` for `s = 0`, else the infinity of the product's sign. -/
def signedInf (s : K) (positive : Bool) : Dbl K :=
  if s = 0 then nan
  else if (0 < s) = positive then pinf else ninf

/-- IEEE multiplication (`inf * 0 = nan`). -/
def mul : Dbl K → Dbl K → Dbl K
  | nan, _ => nan
  | _, nan => nan
  | fin a, fin b => fin (a * b)
  | fin a, pinf => signedInf a true
  | fin a, ninf => signedInf a false
  | pinf, fin b => signedInf b true
  | ninf, fin b => signedInf b false
  | pinf, pinf => pinf
  | ninf, ninf => pinf
  | pinf, ninf => ninf
  | ninf, pinf => ninf

/-- IEEE division with an unsigned (positive) zero: `x/0` is `±inf` by the sign of `x`,
`0/0` and `inf/inf` are `nan`, a finite value over an infinity is `0`. -/
def div : Dbl K → Dbl K → Dbl K
  | nan, _ => nan
  | _, nan => nan
  | fin a, fin b => if b = 0 then signedInf a true else fin (a / b)
  | fin _, pinf => fin 0
  | fin _, ninf => fin 0
  | pinf, fin b => if 0 ≤ b then pinf else ninf
  | ninf, fin b => if 0 ≤ b then ninf else pinf
  | pinf, pinf => nan
  | ninf, ninf => nan
  | pinf, ninf => nan
  | ninf, pinf => nan

instance : Add (Dbl K) := ⟨add⟩
instance : Sub (Dbl K) := ⟨sub⟩
instance : Neg (Dbl K) := ⟨neg⟩
instance : Mul (Dbl K) := ⟨mul⟩
instance : Div (Dbl K) := ⟨div⟩

/-- The comparison `a < b` of C++ (false when either side is `nan`). -/
def lt : Dbl K → Dbl K → Bool
  | nan, _ => false
  | _, nan => false
  | ninf, ninf => false
  | ninf, _ => true
  | _, ninf => false
  | pinf, _ => false
  | fin _, pinf => true
  | fin a, fin b => decide (a < b)

/-- The comparison `a <= b` of C++ (false when either side is `nan`). -/
def le : Dbl K → Dbl K → Bool
  | nan, _ => false
  | _, nan => false
  | ninf, _ => true
  | _, pinf => true
  | pinf, _ => false
  | _, ninf => false
  | fin a, fin b => decide (a ≤ b)

/-- The comparison `a > b` of C++. -/
def gt (a b : Dbl K) : Bool := lt b a

/-- The comparison `a >= b` of C++. -/
def ge (a b : Dbl K) : Bool := le b a

/-- The comparison `a == b` of C++ (`nan` equals nothing). -/
def eq : Dbl K → Dbl K → Bool
  | ninf, ninf => true
  | pinf, pinf => true
  | fin a, fin b => decide (a = b)
  | _, _ => false

/-- The comparison `a != b` of C++. -/
def ne (a b : Dbl K) : Bool := !(eq a b)

/-- `std::floor`. -/
def floor : Dbl K → Dbl K
  | fin a => fin ((Int.floor a : Int) : K)
  | x => x

/-- `std::ceil`. -/
def ceil : Dbl K → Dbl K
  | fin a => fin ((Int.ceil a : Int) : K)
  | x => x

end Dbl

open Dbl

variable {K : Type} [LinearOrderedField K] [FloorRing K]

/-! ## External collaborators -/

/-- The external numerical primitives: `<cmath>` (`exp`, `log`, `pow`) and Rmath
(`R::lgammafn`, `R::beta`, `R::lbeta`, `R::choose`, `R::lchoose`, `R::pbeta`,
`R::qbeta`, `R::dnorm`, `R::pnorm`; the last four with `lower_tail = true`,
`log_p = false` as in every call of the sources). -/
structure RMath (K : Type) where
  exp : Dbl K → Dbl K
  log : Dbl K → Dbl K
  pow : Dbl K → Dbl K → Dbl K
  lgammafn : Dbl K → Dbl K
  beta : Dbl K → Dbl K → Dbl K
  lbeta : Dbl K → Dbl K → Dbl K
  choose : Dbl K → Dbl K → Dbl K
  lchoose : Dbl K → Dbl K → Dbl K
  pbeta : Dbl K → Dbl K → Dbl K → Dbl K
  qbeta : Dbl K → Dbl K → Dbl K → Dbl K
  dnorm : Dbl K → Dbl K → Dbl K → Dbl K
  pnorm : Dbl K → Dbl K → Dbl K → Dbl K

/-- What a vectorised export hands back: the output vector and the warnings it
raised, in order (`Rcpp::warning`). -/
structure Result (K : Type) where
  value : List (Dbl K)
  warnings : List String

/-- A numeric matrix: its dimensions and its entries `m(i, j)`. -/
structure NumericMatrix (K : Type) where
  nrow : Nat
  ncol : Nat
  get : Nat → Nat → Dbl K

/-- What a matrix-valued export hands back: the rows of the output matrix and the
warnings it raised. -/
structure MatResult (K : Type) where
  value : List (List (Dbl K))
  warnings : List String

/-- The shared random-number generator (`R::rgamma`, `R::rbinom`). A sampler is read
as an oracle: its first argument is the number of draws made so far in the call
(the position in the pseudorandom stream), the others are the arguments of the C
function; the value is the outcome of that draw. -/
structure RNG (K : Type) where
  rgamma : Nat → Dbl K → Dbl K → Dbl K
  rbinom : Nat → Dbl K → Dbl K → Dbl K

/-- The finite value of a double (`0` for `nan` and the infinities). -/
def Dbl.toK : Dbl K → K
  | fin v => v
  | _ => 0

/-- `Rcpp::exp(p)` / `Rcpp::log(p)` / `1.0 - p` on a vector: element-wise. -/
def vmap (f : Dbl K → Dbl K) (p : List (Dbl K)) : List (Dbl K) := p.map f

/-- Sum of a vector of doubles, left to right from `0`. -/
def Dbl.sum (p : List (Dbl K)) : Dbl K := p.foldl (fun acc v => acc + v) (fin 0)

/-! ## shared.h -/

/-- Modelled from the spec: `isInteger` of shared.h, which is not among the sources.
The spec asks for "a non-negative integer" / "non-integer size"; the value is an
integer when it equals its truncation toward zero (`nan` is not). The second
argument selects whether a diagnostic is printed and does not change the result. -/
def isInteger (x : Dbl K) (_warn : Bool) : Bool :=
  if x.isnan then false
  else Dbl.eq (if x.lt (fin 0) then x.ceil else x.floor) x

/-- The largest `int`. -/
def INT_MAX : Nat := 2147483647

/-- Modelled from the spec: `is_large_int` of shared.h, which is not among the sources
("inputs exceeding representable integer range"). -/
def is_large_int (x : Dbl K) : Bool := x.gt (fin (INT_MAX : K))

/-- Modelled from the spec: `to_pos_int` of shared.h, which is not among the sources:
the coercion of a non-negative double within the integer range to an `int`
(truncation); anything else stops. -/
def to_pos_int (x : Dbl K) : Except String Nat :=
  if x.lt (fin 0) || x.isnan then .error "value cannot be coerced to integer"
  else if is_large_int x then .error "value out of integer range"
  else match x with
    | fin v => .ok (Int.floor v).toNat
    | _ => .error "value cannot be coerced to integer"

/-- Modelled from the spec: `to_dbl` of shared.h, which is not among the sources. -/
def to_dbl (j : Nat) : Dbl K := fin (j : K)

/-- Modelled from the spec: `finite_max_int` of shared.h, which is not among the
sources: the largest positive entry of the vector that is within the integer
range, `0` when there is none. -/
def finite_max_int (x : List (Dbl K)) : Dbl K :=
  x.foldl (fun m v => if v.gt m && !is_large_int v then v else m) (fin 0)

/-- The macro `GETV(x, i)`: `x[i % x.length()]`. A vector of length zero is
rejected upstream; here its reads give `nan`. -/
def GETV (x : List (Dbl K)) (i : Nat) : Dbl K := x.getD (i % x.length) nan

/-! ## Discrete uniform distribution -/

/-- `pmf_dunif` of discrete-uniform-distribution.cpp. -/
def pmf_dunif (x min max : Dbl K) (throw_warning : Bool) : Dbl K × Bool :=
  if x.isnan || min.isnan || max.isnan then
    (x + min + max, throw_warning)
  else if min.gt max || !min.finite || !max.finite ||
      !isInteger min false || !isInteger max false then
    (nan, true)
  else if x.lt min || x.gt max || !isInteger x true then
    (fin 0, throw_warning)
  else
    (fin 1 / (max - min + fin 1), throw_warning)

/-- `cdf_dunif` of discrete-uniform-distribution.cpp. -/
def cdf_dunif (x min max : Dbl K) (throw_warning : Bool) : Dbl K × Bool :=
  if x.isnan || min.isnan || max.isnan then
    (x + min + max, throw_warning)
  else if min.gt max || !min.finite || !max.finite ||
      !isInteger min false || !isInteger max false then
    (nan, true)
  else if x.lt min then
    (fin 0, throw_warning)
  else if x.ge max then
    (fin 1, throw_warning)
  else
    ((x.floor - min + fin 1) / (max - min + fin 1), throw_warning)

/-- `invcdf_dunif` of discrete-uniform-distribution.cpp. -/
def invcdf_dunif (p min max : Dbl K) (throw_warning : Bool) : Dbl K × Bool :=
  if p.isnan || min.isnan || max.isnan then
    (p + min + max, throw_warning)
  else if min.gt max || !min.finite || !max.finite ||
      !isInteger min false || !isInteger max false ||
      p.lt (fin 0) || p.gt (fin 1) then
    (nan, true)
  else if Dbl.eq p (fin 0) || Dbl.eq min max then
    (min, throw_warning)
  else
    ((p * (max - min + fin 1) + min - fin 1).ceil, throw_warning)

/-! ## Beta-binomial distribution -/

/-- `pmf_bbinom` of beta-binomial-distribution.cpp. -/
def pmf_bbinom (R : RMath K) (k n alpha beta : Dbl K) (throw_warning : Bool) : Dbl K × Bool :=
  if k.isnan || n.isnan || alpha.isnan || beta.isnan then
    (k + n + alpha + beta, throw_warning)
  else if alpha.lt (fin 0) || beta.lt (fin 0) || n.lt (fin 0) || !isInteger n false then
    (nan, true)
  else if !isInteger k true || k.lt (fin 0) || k.gt n then
    (fin 0, throw_warning)
  else
    (R.choose n k * R.beta (k + alpha) (n - k + beta) / R.beta alpha beta, throw_warning)

/-- `logpmf_bbinom` of beta-binomial-distribution.cpp. -/
def logpmf_bbinom (R : RMath K) (k n alpha beta : Dbl K) (throw_warning : Bool) : Dbl K × Bool :=
  if k.isnan || n.isnan || alpha.isnan || beta.isnan then
    (k + n + alpha + beta, throw_warning)
  else if alpha.lt (fin 0) || beta.lt (fin 0) || n.lt (fin 0) || !isInteger n false then
    (nan, true)
  else if !isInteger k true || k.lt (fin 0) || k.gt n then
    (ninf, throw_warning)
  else
    (R.lchoose n k + R.lbeta (k + alpha) (n - k + beta) - R.lbeta alpha beta, throw_warning)

/-- The local variables of the table loop of `cdf_bbinom_table`. -/
structure TabState (K : Type) where
  nck : Dbl K
  gx : Dbl K
  gy : Dbl K
  p_tab : List (Dbl K)

/-- One pass of `for (int j = 2; j <= ik; j++)` in `cdf_bbinom_table`. -/
def cdf_bbinom_table_step (R : RMath K) (n alpha beta gxy bab : Dbl K)
    (s : TabState K) (j : Nat) : TabState K :=
  let dj : Dbl K := to_dbl j
  let nck := s.nck + R.log ((n + fin 1 - dj) / dj)
  let gx := s.gx + R.log (dj + alpha - fin 1)
  let gy := s.gy - R.log (n + beta - dj)
  { nck := nck, gx := gx, gy := gy,
    p_tab := s.p_tab.set j (s.p_tab.getD (j - 1) nan + R.exp (nck + gx + gy - gxy - bab)) }

/-- `cdf_bbinom_table` of beta-binomial-distribution.cpp. The length `ik + 1` of the
table is computed in `int`: at `ik = INT_MAX` the addition overflows (undefined
behaviour, in practice a negative length that the vector constructor rejects), which
is rendered as a stop. -/
def cdf_bbinom_table (R : RMath K) (k n alpha beta : Dbl K) : Except String (List (Dbl K)) :=
  if k.lt (fin 0) || k.gt n || alpha.lt (fin 0) || beta.lt (fin 0) then
    .error "inadmissible values"
  else
    match to_pos_int k with
    | .error e => .error e
    | .ok ik =>
      if INT_MAX < ik + 1 then .error "integer overflow"
      else
      let p_tab : List (Dbl K) := List.replicate (ik + 1) (fin 0)
      let bab := R.lbeta alpha beta
      let gxy := R.lgammafn (alpha + beta + n)
      -- k = 0
      let nck : Dbl K := fin 0
      let gx := R.lgammafn alpha
      let gy := R.lgammafn (beta + n)
      let p_tab := p_tab.set 0 (R.exp (nck + gx + gy - gxy - bab))
      if ik < 1 then .ok p_tab
      else
        -- k < 2
        let nck := nck + R.log n
        let gx := gx + R.log alpha
        let gy := gy - R.log (n + beta - fin 1)
        let p_tab := p_tab.set 1 (p_tab.getD 0 nan + R.exp (nck + gx + gy - gxy - bab))
        if ik < 2 then .ok p_tab
        else
          -- k >= 1
          .ok ((List.range' 2 (ik - 1)).foldl (cdf_bbinom_table_step R n alpha beta gxy bab)
            { nck := nck, gx := gx, gy := gy, p_tab := p_tab }).p_tab

/-- `cpp_dbbinom` of beta-binomial-distribution.cpp. -/
def cpp_dbbinom (R : RMath K) (x size alpha beta : List (Dbl K)) (log_prob : Bool) : Result K :=
  let Nmax := Nat.max (Nat.max x.length size.length) (Nat.max alpha.length beta.length)
  let st := (List.range Nmax).foldl
    (fun (st : List (Dbl K) × Bool) i =>
      let r := logpmf_bbinom R (GETV x i) (GETV size i) (GETV alpha i) (GETV beta i) st.2
      (st.1.set i r.1, r.2))
    (List.replicate Nmax (fin 0), false)
  let p := if !log_prob then vmap R.exp st.1 else st.1
  { value := p, warnings := if st.2 then ["NaNs produced"] else [] }

/-- The key type of `memo` in `cpp_pbbinom`. -/
abbrev MemoKey := Nat × Nat × Nat

/-- The mutable locals of the element loop of `cpp_pbbinom`: the output vector, the
warning latch, the memoised tables (`std::map`, most recent binding first), and the
warnings raised inside the loop. -/
structure PbbinomState (K : Type) where
  p : List (Dbl K)
  throw_warning : Bool
  memo : List (MemoKey × List (Dbl K))
  warnings : List String

/-- The body of `for (int i = 0; i < Nmax; i++)` in `cpp_pbbinom`
(`Rcpp::checkUserInterrupt` only polls for a user interrupt and is left out).
`memo[key]` yields the stored vector, or a fresh empty one; reading `tmp[j]` past
the end of the vector is undefined in C++ and stops the model. -/
def cpp_pbbinom_body (R : RMath K) (x size alpha beta : List (Dbl K)) (mx : Dbl K)
    (s : PbbinomState K) (i : Nat) : Except String (PbbinomState K) :=
  if (GETV x i).isnan || (GETV size i).isnan || (GETV alpha i).isnan || (GETV beta i).isnan then
    .ok { s with p := s.p.set i (GETV x i + GETV size i + GETV alpha i + GETV beta i) }
  else if (GETV alpha i).le (fin 0) || (GETV beta i).le (fin 0) ||
      (GETV size i).lt (fin 0) || !isInteger (GETV size i) false then
    .ok { s with throw_warning := true, p := s.p.set i nan }
  else if (GETV x i).lt (fin 0) then
    .ok { s with p := s.p.set i (fin 0) }
  else if (GETV x i).ge (GETV size i) then
    .ok { s with p := s.p.set i (fin 1) }
  else if is_large_int (GETV x i) then
    .ok { s with p := s.p.set i nan,
                 warnings := s.warnings ++ ["NAs introduced by coercion to integer range"] }
  else
    let key : MemoKey := (i % size.length, i % alpha.length, i % beta.length)
    let tmp0 := (s.memo.lookup key).getD []
    match (if tmp0.length = 0 then
            cdf_bbinom_table R mx (GETV size i) (GETV alpha i) (GETV beta i)
          else .ok tmp0) with
    | .error e => .error e
    | .ok tmp =>
      match to_pos_int (GETV x i) with
      | .error e => .error e
      | .ok j =>
        match tmp.get? j with
        | none => .error "vector index out of range"
        | some v =>
          .ok { s with p := s.p.set i v,
                       memo := if tmp0.length = 0 then (key, tmp) :: s.memo else s.memo }

/-- The element loop of `cpp_pbbinom` over the indices `is`, stopping at the first
`Rcpp::stop`. -/
def cpp_pbbinom_loop (R : RMath K) (x size alpha beta : List (Dbl K)) (mx : Dbl K) :
    List Nat → PbbinomState K → Except String (PbbinomState K)
  | [], s => .ok s
  | i :: is, s =>
    match cpp_pbbinom_body R x size alpha beta mx s i with
    | .error e => .error e
    | .ok s1 => cpp_pbbinom_loop R x size alpha beta mx is s1

/-- `cpp_pbbinom` of beta-binomial-distribution.cpp. -/
def cpp_pbbinom (R : RMath K) (x size alpha beta : List (Dbl K))
    (lower_tail log_prob : Bool) : Except String (Result K) :=
  let Nmax := Nat.max (Nat.max x.length size.length) (Nat.max alpha.length beta.length)
  let mx := if (finite_max_int size).lt (finite_max_int x) then finite_max_int size
            else finite_max_int x
  match cpp_pbbinom_loop R x size alpha beta mx (List.range Nmax)
      { p := List.replicate Nmax (fin 0), throw_warning := false, memo := [], warnings := [] } with
  | .error e => .error e
  | .ok s =>
    let p := if !lower_tail then vmap (fun v => fin 1 - v) s.p else s.p
    let p := if log_prob then vmap R.log p else p
    .ok { value := p,
          warnings := s.warnings ++ (if s.throw_warning then ["NaNs produced"] else []) }

/-! ## Beta prime distribution -/

/-- `cdf_betapr` of beta-prime-distribution.cpp. -/
def cdf_betapr (R : RMath K) (x alpha beta sigma : Dbl K) (throw_warning : Bool) :
    Dbl K × Bool :=
  if x.isnan || alpha.isnan || beta.isnan || sigma.isnan then
    (x + alpha + beta + sigma, throw_warning)
  else if alpha.le (fin 0) || beta.le (fin 0) || sigma.le (fin 0) then
    (nan, true)
  else if x.le (fin 0) then
    (fin 0, throw_warning)
  else if !x.finite then
    (fin 1, throw_warning)
  else
    let z := x / sigma
    (R.pbeta (z / (fin 1 + z)) alpha beta, throw_warning)

/-- `invcdf_betapr` of beta-prime-distribution.cpp. -/
def invcdf_betapr (R : RMath K) (p alpha beta sigma : Dbl K) (throw_warning : Bool) :
    Dbl K × Bool :=
  if p.isnan || alpha.isnan || beta.isnan || sigma.isnan then
    (p + alpha + beta + sigma, throw_warning)
  else if alpha.le (fin 0) || beta.le (fin 0) || sigma.le (fin 0) ||
      p.lt (fin 0) || p.gt (fin 1) then
    (nan, true)
  else if Dbl.eq p (fin 0) then
    (fin 0, throw_warning)
  else if Dbl.eq p (fin 1) then
    (pinf, throw_warning)
  else
    let x := R.qbeta p alpha beta
    (x / (fin 1 - x) * sigma, throw_warning)

/-! ## Dirichlet-multinomial distribution -/

/-- The locals of the first inner loop of `cpp_rdirmnom` (the gamma draws), with the
number of draws made so far. -/
structure GammaScan (K : Type) where
  sum_alpha : Dbl K
  wrong_values : Bool
  pi : List (Dbl K)
  row_sum : Dbl K
  draws : Nat

/-- The loop `for (int j = 0; j < k; j++)` of `cpp_rdirmnom` that draws the gamma
variates, over the remaining indices; it leaves at the `break`. `arow j` is
`alpha(i % dims[0], j)`. -/
def rdirmnom_gammas (G : RNG K) (arow : Nat → Dbl K) : List Nat → GammaScan K → GammaScan K
  | [], s => s
  | j :: js, s =>
    let sum_alpha := s.sum_alpha + arow j
    if (arow j).le (fin 0) then
      { s with sum_alpha := sum_alpha, wrong_values := true }
    else
      let g := G.rgamma s.draws (arow j) (fin 1)
      rdirmnom_gammas G arow js
        { s with sum_alpha := sum_alpha, pi := s.pi.set j g, row_sum := s.row_sum + g,
                 draws := s.draws + 1 }

/-- The locals of the second inner loop of `cpp_rdirmnom` (the binomial draws): the
remaining budget, the remaining mass, row `i` of `x`, the number of draws so far. -/
structure BinomScan (K : Type) where
  size_left : Dbl K
  sum_p : Dbl K
  row : List (Dbl K)
  draws : Nat

/-- One pass of `for (int j = 0; j < k-1; j++)` in `cpp_rdirmnom`. -/
def rdirmnom_binom_step (G : RNG K) (pi : List (Dbl K)) (row_sum : Dbl K)
    (s : BinomScan K) (j : Nat) : BinomScan K :=
  let p_tmp := pi.getD j nan / row_sum
  let xij := G.rbinom s.draws s.size_left (p_tmp / s.sum_p)
  { size_left := s.size_left - xij, sum_p := s.sum_p - p_tmp,
    row := s.row.set j xij, draws := s.draws + 1 }

/-- The body of `for (int i = 0; i < n; i++)` in `cpp_rdirmnom` for one row: from
`size[i % dims[1]]`, row `i % dims[0]` of `alpha`, the number `k` of columns and the
number of draws made so far, the row `x(i, .)`, whether the latch is raised, and
the number of draws afterwards. -/
def rdirmnom_row (G : RNG K) (size_i : Dbl K) (arow : Nat → Dbl K) (k : Nat) (draws : Nat) :
    List (Dbl K) × Bool × Nat :=
  let g := rdirmnom_gammas G arow (List.range k)
    { sum_alpha := fin 0, wrong_values := false, pi := List.replicate k (fin 0),
      row_sum := fin 0, draws := draws }
  if g.wrong_values || (g.sum_alpha + size_i).isnan || size_i.lt (fin 0) ||
      !isInteger size_i false then
    (List.replicate k nan, true, g.draws)
  else if Dbl.eq size_i (fin 0) then
    (List.replicate k (fin 0), false, g.draws)
  else
    let b := (List.range (k - 1)).foldl (rdirmnom_binom_step G g.pi g.row_sum)
      { size_left := size_i, sum_p := fin 1, row := List.replicate k (fin 0), draws := g.draws }
    (b.row.set (k - 1) b.size_left, false, b.draws)

/-- The row loop of `cpp_rdirmnom` over the indices `is`: the rows produced, the
latch and the number of draws made. -/
def cpp_rdirmnom_loop (G : RNG K) (size : List (Dbl K)) (alpha : NumericMatrix K) :
    List Nat → Bool → Nat → List (List (Dbl K)) × Bool
  | [], throw_warning, _ => ([], throw_warning)
  | i :: is, throw_warning, draws =>
    let r := rdirmnom_row G (GETV size i) (fun j => alpha.get (i % alpha.nrow) j) alpha.ncol draws
    let rest := cpp_rdirmnom_loop G size alpha is (throw_warning || r.2.1) r.2.2
    (r.1 :: rest.1, rest.2)

/-- `cpp_rdirmnom` of dirichlet-multinomial-distribution.cpp. -/
def cpp_rdirmnom (G : RNG K) (n : Nat) (size : List (Dbl K)) (alpha : NumericMatrix K) :
    Except String (MatResult K) :=
  let k := alpha.ncol
  if k < 2 then .error "Number of columns in alpha should be >= 2"
  else
    let r := cpp_rdirmnom_loop G size alpha (List.range n) false 0
    .ok { value := r.1, warnings := if r.2 then ["NAs produced"] else [] }

/-! ## Mixture of normal distributions -/

/-- The locals of the first inner loop of `cpp_dmixnorm`. -/
structure MixScan (K : Type) where
  wrong_param : Bool
  alpha_tot : Dbl K
  nans_sum : Dbl K

/-- The first inner loop `for (int j = 0; j < k; j++)` of `cpp_dmixnorm` for the
element whose rows of `mu`, `sigma`, `alpha` are `mrow`, `srow`, `arow`. -/
def dmixnorm_scan (mrow srow arow : Nat → Dbl K) (k : Nat) : MixScan K :=
  (List.range k).foldl
    (fun s j =>
      { wrong_param := if (arow j).lt (fin 0) || (srow j).le (fin 0) then true else s.wrong_param,
        nans_sum := s.nans_sum + (mrow j + srow j),
        alpha_tot := s.alpha_tot + arow j })
    { wrong_param := false, alpha_tot := fin 0, nans_sum := fin 0 }

/-- The body of `for (int i = 0; i < Nmax; i++)` in `cpp_dmixnorm`: the value of
`p[i]` and the new latch. -/
def dmixnorm_elem (R : RMath K) (xi : Dbl K) (mrow srow arow : Nat → Dbl K) (k : Nat)
    (throw_warning : Bool) : Dbl K × Bool :=
  let s := dmixnorm_scan mrow srow arow k
  if (s.nans_sum + s.alpha_tot + xi).isnan then
    (s.nans_sum + s.alpha_tot + xi, throw_warning)
  else if s.wrong_param then
    (nan, true)
  else
    ((List.range k).foldl
      (fun p j => p + (arow j / s.alpha_tot) * R.dnorm xi (mrow j) (srow j)) (fin 0),
     throw_warning)

/-- `cpp_dmixnorm` of mixture-of-normal-distributions.cpp. -/
def cpp_dmixnorm (R : RMath K) (x : List (Dbl K)) (mu sigma alpha : NumericMatrix K)
    (log_prob : Bool) : Except String (Result K) :=
  let Nmax := Nat.max (Nat.max x.length mu.nrow) (Nat.max sigma.nrow alpha.nrow)
  let k := alpha.ncol
  if k ≠ mu.ncol || k ≠ sigma.ncol then .error "sizes of mu, sigma, and alpha do not match"
  else
    let st := (List.range Nmax).foldl
      (fun (st : List (Dbl K) × Bool) i =>
        let r := dmixnorm_elem R (GETV x i) (fun j => mu.get (i % mu.nrow) j)
          (fun j => sigma.get (i % sigma.nrow) j) (fun j => alpha.get (i % alpha.nrow) j) k st.2
        (st.1.set i r.1, r.2))
      (List.replicate Nmax (fin 0), false)
    let p := if log_prob then vmap R.log st.1 else st.1
    .ok { value := p, warnings := if st.2 then ["NaNs produced"] else [] }

/-! ## Vectorised exports of the discrete uniform distribution -/

/-- `cpp_ddunif` of discrete-uniform-distribution.cpp. -/
def cpp_ddunif (R : RMath K) (x min max : List (Dbl K)) (log_prob : Bool) : Result K :=
  let Nmax := Nat.max (Nat.max x.length min.length) max.length
  let st := (List.range Nmax).foldl
    (fun (st : List (Dbl K) × Bool) i =>
      let r := pmf_dunif (GETV x i) (GETV min i) (GETV max i) st.2
      (st.1.set i r.1, r.2))
    (List.replicate Nmax (fin 0), false)
  let p := if log_prob then vmap R.log st.1 else st.1
  { value := p, warnings := if st.2 then ["NaNs produced"] else [] }

/-- `cpp_pdunif` of discrete-uniform-distribution.cpp. -/
def cpp_pdunif (R : RMath K) (x min max : List (Dbl K)) (lower_tail log_prob : Bool) :
    Result K :=
  let Nmax := Nat.max (Nat.max x.length min.length) max.length
  let st := (List.range Nmax).foldl
    (fun (st : List (Dbl K) × Bool) i =>
      let r := cdf_dunif (GETV x i) (GETV min i) (GETV max i) st.2
      (st.1.set i r.1, r.2))
    (List.replicate Nmax (fin 0), false)
  let p := if !lower_tail then vmap (fun v => fin 1 - v) st.1 else st.1
  let p := if log_prob then vmap R.log p else p
  { value := p, warnings := if st.2 then ["NaNs produced"] else [] }

/-- `cpp_qdunif` of discrete-uniform-distribution.cpp. -/
def cpp_qdunif (R : RMath K) (p min max : List (Dbl K)) (lower_tail log_prob : Bool) :
    Result K :=
  let Nmax := Nat.max (Nat.max p.length min.length) max.length
  let pp := if log_prob then vmap R.exp p else p
  let pp := if !lower_tail then vmap (fun v => fin 1 - v) pp else pp
  let st := (List.range Nmax).foldl
    (fun (st : List (Dbl K) × Bool) i =>
      let r := invcdf_dunif (GETV pp i) (GETV min i) (GETV max i) st.2
      (st.1.set i r.1, r.2))
    (List.replicate Nmax (fin 0), false)
  { value := st.1, warnings := if st.2 then ["NaNs produced"] else [] }

/-! ## Beta prime distribution: densities and vectorised exports -/

/-- `pdf_betapr` of beta-prime-distribution.cpp. -/
def pdf_betapr (R : RMath K) (x alpha beta sigma : Dbl K) (throw_warning : Bool) :
    Dbl K × Bool :=
  if x.isnan || alpha.isnan || beta.isnan || sigma.isnan then
    (x + alpha + beta + sigma, throw_warning)
  else if alpha.le (fin 0) || beta.le (fin 0) || sigma.le (fin 0) then
    (nan, true)
  else if x.le (fin 0) || !x.finite then
    (fin 0, throw_warning)
  else
    let z := x / sigma
    (R.pow z (alpha - fin 1) * R.pow (z + fin 1) (-alpha - beta) / R.beta alpha beta / sigma,
     throw_warning)

/-- `logpdf_betapr` of beta-prime-distribution.cpp. -/
def logpdf_betapr (R : RMath K) (x alpha beta sigma : Dbl K) (throw_warning : Bool) :
    Dbl K × Bool :=
  if x.isnan || alpha.isnan || beta.isnan || sigma.isnan then
    (x + alpha + beta + sigma, throw_warning)
  else if alpha.le (fin 0) || beta.le (fin 0) || sigma.le (fin 0) then
    (nan, true)
  else if x.le (fin 0) || !x.finite then
    (ninf, throw_warning)
  else
    let z := x / sigma
    (R.log (R.pow z (alpha - fin 1)) + R.log (R.pow (z + fin 1) (-alpha - beta))
       - R.lbeta alpha beta - R.log sigma,
     throw_warning)

/-- `cpp_dbetapr` of beta-prime-distribution.cpp. -/
def cpp_dbetapr (R : RMath K) (x alpha beta sigma : List (Dbl K)) (log_prob : Bool) :
    Result K :=
  let Nmax := Nat.max (Nat.max (Nat.max x.length alpha.length) beta.length) sigma.length
  let st := (List.range Nmax).foldl
    (fun (st : List (Dbl K) × Bool) i =>
      let r := pdf_betapr R (GETV x i) (GETV alpha i) (GETV beta i) (GETV sigma i) st.2
      (st.1.set i r.1, r.2))
    (List.replicate Nmax (fin 0), false)
  let p := if log_prob then vmap R.log st.1 else st.1
  { value := p, warnings := if st.2 then ["NaNs produced"] else [] }

/-- `cpp_pbetapr` of beta-prime-distribution.cpp. -/
def cpp_pbetapr (R : RMath K) (x alpha beta sigma : List (Dbl K))
    (lower_tail log_prob : Bool) : Result K :=
  let Nmax := Nat.max (Nat.max (Nat.max x.length alpha.length) beta.length) sigma.length
  let st := (List.range Nmax).foldl
    (fun (st : List (Dbl K) × Bool) i =>
      let r := cdf_betapr R (GETV x i) (GETV alpha i) (GETV beta i) (GETV sigma i) st.2
      (st.1.set i r.1, r.2))
    (List.replicate Nmax (fin 0), false)
  let p := if !lower_tail then vmap (fun v => fin 1 - v) st.1 else st.1
  let p := if log_prob then vmap R.log p else p
  { value := p, warnings := if st.2 then ["NaNs produced"] else [] }

/-- `cpp_qbetapr` of beta-prime-distribution.cpp. -/
def cpp_qbetapr (R : RMath K) (p alpha beta sigma : List (Dbl K))
    (lower_tail log_prob : Bool) : Result K :=
  let Nmax := Nat.max (Nat.max (Nat.max p.length alpha.length) beta.length) sigma.length
  let pp := if log_prob then vmap R.exp p else p
  let pp := if !lower_tail then vmap (fun v => fin 1 - v) pp else pp
  let st := (List.range Nmax).foldl
    (fun (st : List (Dbl K) × Bool) i =>
      let r := invcdf_betapr R (GETV pp i) (GETV alpha i) (GETV beta i) (GETV sigma i) st.2
      (st.1.set i r.1, r.2))
    (List.replicate Nmax (fin 0), false)
  { value := st.1, warnings := if st.2 then ["NaNs produced"] else [] }

/-! ## Tukey lambda distribution -/

/-- `invcdf_tlambda` of tuckey-lambda-distribution.cpp: the quantile and the warnings
it raises itself (`Rcpp::warning` is called inside the kernel). -/
def invcdf_tlambda (R : RMath K) (p lambda : Dbl K) : Dbl K × List String :=
  if p.isnan || lambda.isnan then
    (nan, [])
  else if p.lt (fin 0) || p.gt (fin 1) then
    (nan, ["NaNs produced"])
  else if Dbl.eq lambda (fin 0) then
    (R.log p - R.log (fin 1 - p), [])
  else
    ((R.pow p lambda - R.pow (fin 1 - p) lambda) / lambda, [])

/-- `cpp_qtlambda` of tuckey-lambda-distribution.cpp. -/
def cpp_qtlambda (R : RMath K) (p lambda : List (Dbl K)) (lower_tail log_prob : Bool) :
    Result K :=
  let Nmax := Nat.max p.length lambda.length
  let pp := if log_prob then vmap R.exp p else p
  let pp := if !lower_tail then vmap (fun v => fin 1 - v) pp else pp
  let st := (List.range Nmax).foldl
    (fun (st : List (Dbl K) × List String) i =>
      let r := invcdf_tlambda R (GETV pp i) (GETV lambda i)
      (st.1.set i r.1, st.2 ++ r.2))
    (List.replicate Nmax (fin 0), [])
  { value := st.1, warnings := st.2 }

/-! ## Dirichlet-multinomial distribution: the mass function -/

/-- Modelled from the spec: `lfactorial` of shared.h, which is not among the sources:
`log(x!)`, computed as `lgamma(x + 1)`. -/
def lfactorial (R : RMath K) (x : Dbl K) : Dbl K := R.lgammafn (x + fin 1)

/-- The locals of the first inner loop of `cpp_ddirmnom`. -/
structure DirScan (K : Type) where
  wrong_x : Bool
  wrong_param : Bool
  sum_x : Dbl K
  sum_alpha : Dbl K

/-- The first inner loop `for (int j = 0; j < k; j++)` of `cpp_ddirmnom` for the
element whose rows of `x` and `alpha` are `xrow` and `arow`. -/
def ddirmnom_scan (xrow arow : Nat → Dbl K) (k : Nat) : DirScan K :=
  (List.range k).foldl
    (fun s j =>
      { wrong_param := if (arow j).le (fin 0) then true else s.wrong_param,
        wrong_x := if (xrow j).lt (fin 0) || !isInteger (xrow j) true then true else s.wrong_x,
        sum_x := s.sum_x + xrow j,
        sum_alpha := s.sum_alpha + arow j })
    { wrong_x := false, wrong_param := false, sum_x := fin 0, sum_alpha := fin 0 }

/-- The body of `for (int i = 0; i < Nmax; i++)` in `cpp_ddirmnom`: the value of
`p[i]` (a log-probability) and the new latch. -/
def ddirmnom_elem (R : RMath K) (xrow arow : Nat → Dbl K) (size_i : Dbl K) (k : Nat)
    (throw_warning : Bool) : Dbl K × Bool :=
  let s := ddirmnom_scan xrow arow k
  if (s.sum_x + s.sum_alpha + size_i).isnan then
    (s.sum_x + s.sum_alpha + size_i, throw_warning)
  else if s.wrong_param || size_i.lt (fin 0) || !isInteger size_i false then
    (nan, true)
  else if s.sum_x.lt (fin 0) || Dbl.ne s.sum_x size_i || s.wrong_x then
    (ninf, throw_warning)
  else
    let prod_tmp := (List.range k).foldl
      (fun acc j => acc + (R.lgammafn (xrow j + arow j)
                            - (lfactorial R (xrow j) + R.lgammafn (arow j))))
      (fin 0)
    ((lfactorial R size_i + R.lgammafn s.sum_alpha) - R.lgammafn (size_i + s.sum_alpha)
       + prod_tmp,
     throw_warning)

/-- `cpp_ddirmnom` of dirichlet-multinomial-distribution.cpp. -/
def cpp_ddirmnom (R : RMath K) (x : NumericMatrix K) (size : List (Dbl K))
    (alpha : NumericMatrix K) (log_prob : Bool) : Except String (Result K) :=
  let Nmax := Nat.max (Nat.max x.nrow alpha.nrow) size.length
  let m := x.ncol
  let k := alpha.ncol
  let k := Nat.min m k
  if k < 2 then .error "number of columns in alpha should be >= 2"
  else if m ≠ k then .error "number of columns in x does not equal number of columns in alpha"
  else
    let st := (List.range Nmax).foldl
      (fun (st : List (Dbl K) × Bool) i =>
        let r := ddirmnom_elem R (fun j => x.get (i % x.nrow) j)
          (fun j => alpha.get (i % alpha.nrow) j) (GETV size i) k st.2
        (st.1.set i r.1, r.2))
      (List.replicate Nmax (fin 0), false)
    let p := if !log_prob then vmap R.exp st.1 else st.1
    .ok { value := p, warnings := if st.2 then ["NaNs produced"] else [] }

/-! ## Mixture of normal distributions: distribution function and sampler -/

/-- The first inner loop `for (int j = 0; j < k; j++)` of `cpp_pmixnorm` over the
remaining columns; it leaves at the `break`. -/
def pmixnorm_scan (mrow srow arow : Nat → Dbl K) : List Nat → MixScan K → MixScan K
  | [], s => s
  | j :: js, s =>
    if (arow j).lt (fin 0) || (srow j).lt (fin 0) then
      { s with wrong_param := true }
    else
      pmixnorm_scan mrow srow arow js
        { s with nans_sum := s.nans_sum + (mrow j + srow j),
                 alpha_tot := s.alpha_tot + arow j }

/-- The body of `for (int i = 0; i < Nmax; i++)` in `cpp_pmixnorm`: the value of
`p[i]` and the new latch. -/
def pmixnorm_elem (R : RMath K) (xi : Dbl K) (mrow srow arow : Nat → Dbl K) (k : Nat)
    (throw_warning : Bool) : Dbl K × Bool :=
  let s := pmixnorm_scan mrow srow arow (List.range k)
    { wrong_param := false, alpha_tot := fin 0, nans_sum := fin 0 }
  if (s.nans_sum + s.alpha_tot + xi).isnan then
    (s.nans_sum + s.alpha_tot + xi, throw_warning)
  else if s.wrong_param then
    (nan, true)
  else
    ((List.range k).foldl
      (fun p j => p + (arow j / s.alpha_tot) * R.pnorm xi (mrow j) (srow j)) (fin 0),
     throw_warning)

/-- `cpp_pmixnorm` of mixture-of-normal-distributions.cpp. -/
def cpp_pmixnorm (R : RMath K) (x : List (Dbl K)) (mu sigma alpha : NumericMatrix K)
    (lower_tail log_prob : Bool) : Except String (Result K) :=
  let Nmax := Nat.max (Nat.max x.length mu.nrow) (Nat.max sigma.nrow alpha.nrow)
  let k := alpha.ncol
  if k ≠ mu.ncol || k ≠ sigma.ncol then .error "sizes of mu, sigma, and alpha do not match"
  else
    let st := (List.range Nmax).foldl
      (fun (st : List (Dbl K) × Bool) i =>
        let r := pmixnorm_elem R (GETV x i) (fun j => mu.get (i % mu.nrow) j)
          (fun j => sigma.get (i % sigma.nrow) j) (fun j => alpha.get (i % alpha.nrow) j) k st.2
        (st.1.set i r.1, r.2))
      (List.replicate Nmax (fin 0), false)
    let p := if !lower_tail then vmap (fun v => fin 1 - v) st.1 else st.1
    let p := if log_prob then vmap R.log p else p
    .ok { value := p, warnings := if st.2 then ["NaNs produced"] else [] }

/-- The generator used by `cpp_rmixnorm` (`rng_unif`, `R::rnorm`), read as an oracle
indexed by the number of draws made so far in the call. -/
structure NormRNG (K : Type) where
  rng_unif : Nat → Dbl K
  rnorm : Nat → Dbl K → Dbl K → Dbl K

/-- The selection loop `for (int j = k-1; j >= 0; j--)` of `cpp_rmixnorm` over the
remaining columns (in decreasing order), from the running `p_tmp`: the selected
index `jj`, which stays `0` when the loop ends without a `break`. -/
def rmixnorm_walk (arow : Nat → Dbl K) (alpha_tot u : Dbl K) : List Nat → Dbl K → Nat
  | [], _ => 0
  | j :: js, p_tmp =>
    let p_tmp := p_tmp - arow j / alpha_tot
    if u.gt p_tmp then j else rmixnorm_walk arow alpha_tot u js p_tmp

/-- The body of `for (int i = 0; i < n; i++)` in `cpp_rmixnorm`. `nans_sum` is never
initialised in the source and is carried from one element to the next: it is an
input and an output of the body, with the number of draws made so far. The body
returns `x[i]`, whether the latch is raised, the new `nans_sum` and number of draws. -/
def rmixnorm_elem (G : NormRNG K) (mrow srow arow : Nat → Dbl K) (k : Nat)
    (nans_sum : Dbl K) (draws : Nat) : Dbl K × Bool × Dbl K × Nat :=
  let u := G.rng_unif draws
  let s := pmixnorm_scan mrow srow arow (List.range k)
    { wrong_param := false, alpha_tot := fin 0, nans_sum := nans_sum }
  if (s.nans_sum + s.alpha_tot).isnan || s.wrong_param then
    (nan, true, s.nans_sum, draws + 1)
  else
    let jj := rmixnorm_walk arow s.alpha_tot u (List.range k).reverse (fin 1)
    (G.rnorm (draws + 1) (mrow jj) (srow jj), false, s.nans_sum, draws + 2)

/-! ## Discrete uniform sampler -/

/-- The uniform generator `R::runif`, read as an oracle indexed by the number of
draws made so far in the call; the other arguments are the bounds. -/
structure UnifRNG (K : Type) where
  runif : Nat → Dbl K → Dbl K → Dbl K

/-- `rng_dunif` of discrete-uniform-distribution.cpp: the variate, the new latch and
the number of draws made afterwards. -/
def rng_dunif (G : UnifRNG K) (min max : Dbl K) (throw_warning : Bool) (draws : Nat) :
    Dbl K × Bool × Nat :=
  if min.isnan || max.isnan ||
      min.gt max || !min.finite || !max.finite ||
      !isInteger min false || !isInteger max false then
    (nan, true, draws)
  else if Dbl.eq min max then
    (min, throw_warning, draws)
  else
    ((G.runif draws (min - fin 1) max).ceil, throw_warning, draws + 1)

/-! ## A rational stand-in for the external library -/

/-- A stand-in for the external library over the rationals, used to evaluate the
kernels on concrete inputs: `pbeta`, `qbeta` are those of the Beta(1, 1) (uniform)
distribution on `[0, 1]`, `dnorm`/`pnorm` and the transcendental functions are
not rational and answer `nan`. -/
def unifMath : RMath ℚ :=
  { exp := fun _ => nan, log := fun _ => nan, pow := fun _ _ => nan,
    lgammafn := fun _ => nan, beta := fun _ _ => nan, lbeta := fun _ _ => nan,
    choose := fun _ _ => nan, lchoose := fun _ _ => nan,
    pbeta := fun x _ _ => x, qbeta := fun p _ _ => p,
    dnorm := fun _ _ _ => nan, pnorm := fun _ _ _ => nan }

/-- A deterministic stand-in for the generator over the rationals: every gamma
draw is `1` and a binomial draw from `(n, p)` is `floor(n p)`. -/
def floorRNG : RNG ℚ :=
  { rgamma := fun _ _ _ => fin 1
    rbinom := fun _ n p => (n * p).floor }

/-! ## The exact real reading of the external library -/

/-- The Beta function on positive reals, `B(a, b) = Γ(a) Γ(b) / Γ(a + b)`. -/
noncomputable def exactBeta (a b : ℝ) : ℝ :=
  Real.Gamma a * Real.Gamma b / Real.Gamma (a + b)

/-- The external library computes the exact real functions on the arguments the
beta-binomial kernels pass to it: `exp`, `log` of a positive number, `lgammafn` =
log Γ on positive numbers, `beta`/`lbeta` = the Beta function and its logarithm
on positive numbers, `choose`/`lchoose` = the binomial coefficient and its
logarithm on natural numbers. Nothing is assumed outside these arguments. -/
structure ExactSpecial (R : RMath ℝ) : Prop where
  exp_fin : ∀ t : ℝ, R.exp (fin t) = fin (Real.exp t)
  log_fin : ∀ t : ℝ, 0 < t → R.log (fin t) = fin (Real.log t)
  lgammafn_fin : ∀ t : ℝ, 0 < t → R.lgammafn (fin t) = fin (Real.log (Real.Gamma t))
  beta_fin : ∀ a b : ℝ, 0 < a → 0 < b → R.beta (fin a) (fin b) = fin (exactBeta a b)
  lbeta_fin : ∀ a b : ℝ, 0 < a → 0 < b → R.lbeta (fin a) (fin b) = fin (Real.log (exactBeta a b))
  choose_fin : ∀ n k : Nat, R.choose (fin n) (fin k) = fin ((n.choose k : Nat) : ℝ)
  lchoose_fin : ∀ n k : Nat, k ≤ n → R.lchoose (fin n) (fin k) = fin (Real.log ((n.choose k : Nat) : ℝ))

open Classical in
/-- One exact real library: the functions above on their stated arguments, the
normal density `dnorm` for a positive scale, and `nan` elsewhere (`pbeta`, `qbeta`
and `pnorm` are given no exact reading here). -/
noncomputable def exactMath : RMath ℝ :=
  { exp := fun x => match x with
      | fin t => fin (Real.exp t)
      | pinf => pinf
      | ninf => fin 0
      | nan => nan
    log := fun x => match x with
      | fin t => if 0 < t then fin (Real.log t) else if t = 0 then ninf else nan
      | pinf => pinf
      | _ => nan
    pow := fun x y => match x, y with
      | fin a, fin b => if 0 < a then fin (a ^ b) else nan
      | _, _ => nan
    lgammafn := fun x => match x with
      | fin t => if 0 < t then fin (Real.log (Real.Gamma t)) else nan
      | _ => nan
    beta := fun x y => match x, y with
      | fin a, fin b => if 0 < a ∧ 0 < b then fin (exactBeta a b) else nan
      | _, _ => nan
    lbeta := fun x y => match x, y with
      | fin a, fin b => if 0 < a ∧ 0 < b then fin (Real.log (exactBeta a b)) else nan
      | _, _ => nan
    choose := fun x y => match x, y with
      | fin n, fin k =>
        if 0 ≤ n ∧ 0 ≤ k ∧ ((Int.floor n : Int) : ℝ) = n ∧ ((Int.floor k : Int) : ℝ) = k then
          fin (((Int.floor n).toNat.choose (Int.floor k).toNat : Nat) : ℝ)
        else nan
      | _, _ => nan
    lchoose := fun x y => match x, y with
      | fin n, fin k =>
        if 0 ≤ k ∧ k ≤ n ∧ ((Int.floor n : Int) : ℝ) = n ∧ ((Int.floor k : Int) : ℝ) = k then
          fin (Real.log (((Int.floor n).toNat.choose (Int.floor k).toNat : Nat) : ℝ))
        else nan
      | _, _ => nan
    pbeta := fun _ _ _ => nan
    qbeta := fun _ _ _ => nan
    dnorm := fun x mu sigma => match x, mu, sigma with
      | fin x, fin mu, fin sigma =>
        if 0 < sigma then
          fin (Real.exp (-((x - mu) / sigma) ^ 2 / 2) / (sigma * Real.sqrt (2 * Real.pi)))
        else nan
      | _, _, _ => nan
    pnorm := fun _ _ _ => nan }

/-- The exact real reading of `<cmath>` beyond `ExactSpecial`: `pow` of a positive
base is the real power, `log(0) = -inf`, `exp(-inf) = 0`. -/
structure ExactCmath (R : RMath ℝ) : Prop where
  pow_fin : ∀ a b : ℝ, 0 < a → R.pow (fin a) (fin b) = fin (a ^ b)
  log_zero : R.log (fin 0) = ninf
  exp_ninf : R.exp ninf = fin 0


/-! ## Binary64 arithmetic

The kernels above compute on exact values of an ordered field. The definitions of
this section evaluate the same code on doubles: every arithmetic result is rounded
to the nearest binary64 value (ties to even, overflow to an infinity), over the
rationals. Their arguments are meant to be doubles themselves. The names are those of
the sources, in the namespace `F64`. -/

/-- The power `2 ^ e` for an integer exponent. -/
def pow2 (e : Int) : ℚ :=
  if 0 ≤ e then ((2 ^ e.toNat : Nat) : ℚ) else 1 / ((2 ^ (-e).toNat : Nat) : ℚ)

/-- Halving `n` until it is below `2`, at most `fuel` times: the number of halvings. -/
def ilog2Aux : Nat → Nat → Nat
  | 0, _ => 0
  | fuel + 1, n => if 2 ≤ n then ilog2Aux fuel (n / 2) + 1 else 0

/-- `floor(log2 n)` for `n >= 1`. -/
def ilog2 (n : Nat) : Nat := ilog2Aux n n

/-- `floor(log2 (a / b))` for positive `a` and `b`. -/
def qlog2 (a b : Nat) : Int :=
  let e : Int := (ilog2 a : Int) - (ilog2 b : Int)
  if pow2 e ≤ (a : ℚ) / (b : ℚ) then e else e - 1

/-- Rounding to the nearest integer, ties to the even one. -/
def roundEven (q : ℚ) : Int :=
  let f := Int.floor q
  let d := q - (f : ℚ)
  if d < 1 / 2 then f else if 1 / 2 < d then f + 1 else if f % 2 = 0 then f else f + 1

/-- Rounding of a real value to binary64 (53-bit significand, exponents `-1022..1023`,
gradual underflow), to nearest with ties to even; a result of magnitude `2^1024`
overflows to the infinity of its sign. -/
def round64 (v : ℚ) : Dbl ℚ :=
  if v = 0 then fin 0
  else
    let e := max (qlog2 v.num.natAbs v.den) (-1022)
    let u := pow2 (e - 52)
    let r := (roundEven (v / u) : ℚ) * u
    if pow2 1024 ≤ |r| then (if 0 < v then pinf else ninf) else fin r

/-- Rounding of the exact result of an operation: the special values are kept. -/
def Dbl.r64 : Dbl ℚ → Dbl ℚ
  | fin v => round64 v
  | x => x

namespace F64

/-- Binary64 addition. -/
def add (a b : Dbl ℚ) : Dbl ℚ := Dbl.r64 (a + b)
/-- Binary64 subtraction. -/
def sub (a b : Dbl ℚ) : Dbl ℚ := Dbl.r64 (a - b)
/-- Binary64 multiplication. -/
def mul (a b : Dbl ℚ) : Dbl ℚ := Dbl.r64 (a * b)
/-- Binary64 division. -/
def div (a b : Dbl ℚ) : Dbl ℚ := Dbl.r64 (a / b)

/-- `pmf_dunif` of discrete-uniform-distribution.cpp in binary64 arithmetic. -/
def pmf_dunif (x min max : Dbl ℚ) (throw_warning : Bool) : Dbl ℚ × Bool :=
  if x.isnan || min.isnan || max.isnan then
    (add (add x min) max, throw_warning)
  else if min.gt max || !min.finite || !max.finite ||
      !isInteger min false || !isInteger max false then
    (nan, true)
  else if x.lt min || x.gt max || !isInteger x true then
    (fin 0, throw_warning)
  else
    (div (fin 1) (add (sub max min) (fin 1)), throw_warning)

/-- `cdf_dunif` of discrete-uniform-distribution.cpp in binary64 arithmetic. -/
def cdf_dunif (x min max : Dbl ℚ) (throw_warning : Bool) : Dbl ℚ × Bool :=
  if x.isnan || min.isnan || max.isnan then
    (add (add x min) max, throw_warning)
  else if min.gt max || !min.finite || !max.finite ||
      !isInteger min false || !isInteger max false then
    (nan, true)
  else if x.lt min then
    (fin 0, throw_warning)
  else if x.ge max then
    (fin 1, throw_warning)
  else
    (div (add (sub x.floor min) (fin 1)) (add (sub max min) (fin 1)), throw_warning)

/-- `invcdf_dunif` of discrete-uniform-distribution.cpp in binary64 arithmetic. -/
def invcdf_dunif (p min max : Dbl ℚ) (throw_warning : Bool) : Dbl ℚ × Bool :=
  if p.isnan || min.isnan || max.isnan then
    (add (add p min) max, throw_warning)
  else if min.gt max || !min.finite || !max.finite ||
      !isInteger min false || !isInteger max false ||
      p.lt (fin 0) || p.gt (fin 1) then
    (nan, true)
  else if Dbl.eq p (fin 0) || Dbl.eq min max then
    (min, throw_warning)
  else
    ((sub (add (mul p (add (sub max min) (fin 1))) min) (fin 1)).ceil, throw_warning)


/-- `cdf_betapr` of beta-prime-distribution.cpp in binary64 arithmetic. -/
def cdf_betapr (R : RMath ℚ) (x alpha beta sigma : Dbl ℚ) (throw_warning : Bool) :
    Dbl ℚ × Bool :=
  if x.isnan || alpha.isnan || beta.isnan || sigma.isnan then
    (add (add (add x alpha) beta) sigma, throw_warning)
  else if alpha.le (fin 0) || beta.le (fin 0) || sigma.le (fin 0) then
    (nan, true)
  else if x.le (fin 0) then
    (fin 0, throw_warning)
  else if !x.finite then
    (fin 1, throw_warning)
  else
    let z := div x sigma
    (R.pbeta (div z (add (fin 1) z)) alpha beta, throw_warning)

/-- `invcdf_betapr` of beta-prime-distribution.cpp in binary64 arithmetic. -/
def invcdf_betapr (R : RMath ℚ) (p alpha beta sigma : Dbl ℚ) (throw_warning : Bool) :
    Dbl ℚ × Bool :=
  if p.isnan || alpha.isnan || beta.isnan || sigma.isnan then
    (add (add (add p alpha) beta) sigma, throw_warning)
  else if alpha.le (fin 0) || beta.le (fin 0) || sigma.le (fin 0) ||
      p.lt (fin 0) || p.gt (fin 1) then
    (nan, true)
  else if Dbl.eq p (fin 0) then
    (fin 0, throw_warning)
  else if Dbl.eq p (fin 1) then
    (pinf, throw_warning)
  else
    let x := R.qbeta p alpha beta
    (mul (div x (sub (fin 1) x)) sigma, throw_warning)

/-- The first inner loop of `cpp_dmixnorm` in binary64 arithmetic. -/
def dmixnorm_scan (mrow srow arow : Nat → Dbl ℚ) (k : Nat) : MixScan ℚ :=
  (List.range k).foldl
    (fun s j =>
      { wrong_param := if (arow j).lt (fin 0) || (srow j).le (fin 0) then true else s.wrong_param,
        nans_sum := add s.nans_sum (add (mrow j) (srow j)),
        alpha_tot := add s.alpha_tot (arow j) })
    { wrong_param := false, alpha_tot := fin 0, nans_sum := fin 0 }

/-- The body of the element loop of `cpp_dmixnorm` in binary64 arithmetic. -/
def dmixnorm_elem (R : RMath ℚ) (xi : Dbl ℚ) (mrow srow arow : Nat → Dbl ℚ) (k : Nat)
    (throw_warning : Bool) : Dbl ℚ × Bool :=
  let s := dmixnorm_scan mrow srow arow k
  if (add (add s.nans_sum s.alpha_tot) xi).isnan then
    (add (add s.nans_sum s.alpha_tot) xi, throw_warning)
  else if s.wrong_param then
    (nan, true)
  else
    ((List.range k).foldl
      (fun p j => add p (mul (div (arow j) s.alpha_tot) (R.dnorm xi (mrow j) (srow j)))) (fin 0),
     throw_warning)

/-- Modelled from the spec: `lfactorial` of shared.h, which is not among the sources, in
binary64 arithmetic: `lgamma(x + 1)`. -/
def lfactorial (R : RMath ℚ) (x : Dbl ℚ) : Dbl ℚ := R.lgammafn (add x (fin 1))

/-- The first inner loop of `cpp_ddirmnom` in binary64 arithmetic. -/
def ddirmnom_scan (xrow arow : Nat → Dbl ℚ) (k : Nat) : DirScan ℚ :=
  (List.range k).foldl
    (fun s j =>
      { wrong_param := if (arow j).le (fin 0) then true else s.wrong_param,
        wrong_x := if (xrow j).lt (fin 0) || !isInteger (xrow j) true then true else s.wrong_x,
        sum_x := add s.sum_x (xrow j),
        sum_alpha := add s.sum_alpha (arow j) })
    { wrong_x := false, wrong_param := false, sum_x := fin 0, sum_alpha := fin 0 }

/-- The body of the element loop of `cpp_ddirmnom` in binary64 arithmetic. -/
def ddirmnom_elem (R : RMath ℚ) (xrow arow : Nat → Dbl ℚ) (size_i : Dbl ℚ) (k : Nat)
    (throw_warning : Bool) : Dbl ℚ × Bool :=
  let s := ddirmnom_scan xrow arow k
  if (add (add s.sum_x s.sum_alpha) size_i).isnan then
    (add (add s.sum_x s.sum_alpha) size_i, throw_warning)
  else if s.wrong_param || size_i.lt (fin 0) || !isInteger size_i false then
    (nan, true)
  else if s.sum_x.lt (fin 0) || Dbl.ne s.sum_x size_i || s.wrong_x then
    (ninf, throw_warning)
  else
    let prod_tmp := (List.range k).foldl
      (fun acc j => add acc (sub (R.lgammafn (add (xrow j) (arow j)))
                            (add (lfactorial R (xrow j)) (R.lgammafn (arow j)))))
      (fin 0)
    (add (sub (add (lfactorial R size_i) (R.lgammafn s.sum_alpha))
            (R.lgammafn (add size_i s.sum_alpha)))
       prod_tmp,
     throw_warning)

/-- The gamma loop of `cpp_rdirmnom` in binary64 arithmetic. -/
def rdirmnom_gammas (G : RNG ℚ) (arow : Nat → Dbl ℚ) : List Nat → GammaScan ℚ → GammaScan ℚ
  | [], s => s
  | j :: js, s =>
    let sum_alpha := add s.sum_alpha (arow j)
    if (arow j).le (fin 0) then
      { s with sum_alpha := sum_alpha, wrong_values := true }
    else
      let g := G.rgamma s.draws (arow j) (fin 1)
      rdirmnom_gammas G arow js
        { s with sum_alpha := sum_alpha, pi := s.pi.set j g, row_sum := add s.row_sum g,
                 draws := s.draws + 1 }

/-- One pass of the binomial loop of `cpp_rdirmnom` in binary64 arithmetic. -/
def rdirmnom_binom_step (G : RNG ℚ) (pi : List (Dbl ℚ)) (row_sum : Dbl ℚ)
    (s : BinomScan ℚ) (j : Nat) : BinomScan ℚ :=
  let p_tmp := div (pi.getD j nan) row_sum
  let xij := G.rbinom s.draws s.size_left (div p_tmp s.sum_p)
  { size_left := sub s.size_left xij, sum_p := sub s.sum_p p_tmp,
    row := s.row.set j xij, draws := s.draws + 1 }

/-- The body of the row loop of `cpp_rdirmnom` in binary64 arithmetic. -/
def rdirmnom_row (G : RNG ℚ) (size_i : Dbl ℚ) (arow : Nat → Dbl ℚ) (k : Nat) (draws : Nat) :
    List (Dbl ℚ) × Bool × Nat :=
  let g := rdirmnom_gammas G arow (List.range k)
    { sum_alpha := fin 0, wrong_values := false, pi := List.replicate k (fin 0),
      row_sum := fin 0, draws := draws }
  if g.wrong_values || (add g.sum_alpha size_i).isnan || size_i.lt (fin 0) ||
      !isInteger size_i false then
    (List.replicate k nan, true, g.draws)
  else if Dbl.eq size_i (fin 0) then
    (List.replicate k (fin 0), false, g.draws)
  else
    let b := (List.range (k - 1)).foldl (rdirmnom_binom_step G g.pi g.row_sum)
      { size_left := size_i, sum_p := fin 1, row := List.replicate k (fin 0), draws := g.draws }
    (b.row.set (k - 1) b.size_left, false, b.draws)

/-- `invcdf_tlambda` of tuckey-lambda-distribution.cpp in binary64 arithmetic. -/
def invcdf_tlambda (R : RMath ℚ) (p lambda : Dbl ℚ) : Dbl ℚ × List String :=
  if p.isnan || lambda.isnan then
    (nan, [])
  else if p.lt (fin 0) || p.gt (fin 1) then
    (nan, ["NaNs produced"])
  else if Dbl.eq lambda (fin 0) then
    (sub (R.log p) (R.log (sub (fin 1) p)), [])
  else
    (div (sub (R.pow p lambda) (R.pow (sub (fin 1) p) lambda)) lambda, [])

/-- The external `R::runif(a, b)` of Rmath for `a < b`: `a + (b - a) * u` in binary64
arithmetic, where `u` is the draw of `unif_rand()`, strictly between `0` and `1`. -/
def runif (u : ℚ) (a b : Dbl ℚ) : Dbl ℚ := add a (mul (sub b a) (fin u))

end F64

/-- A stand-in for the external library on doubles, at the arguments where the
result is rational: `pow` for integer exponents as `<cmath>` computes it (the power
rounded to binary64, `pow(0, n) = +inf` for `n < 0`), `dnorm` at an infinite `x` with
finite mean and positive scale (the density there is `0`); `pbeta` and `qbeta` are
those of the uniform distribution; everything else answers `nan`. -/
def edgeMath : RMath ℚ :=
  { unifMath with
    pow := fun x y => match x, y with
      | fin a, fin b =>
        if ((Int.floor b : Int) : ℚ) = b then
          if 0 ≤ b then round64 (a ^ (Int.floor b).toNat)
          else if a = 0 then pinf
          else round64 (1 / a ^ (-(Int.floor b)).toNat)
        else nan
      | _, _ => nan
    dnorm := fun x mu sigma => match x, mu, sigma with
      | pinf, fin _, fin s => if 0 < s then fin 0 else nan
      | ninf, fin _, fin s => if 0 < s then fin 0 else nan
      | _, _, _ => nan }

/-- A generator whose gamma draws are the entries of `g` in order, and whose binomial
draw from `(n, p)` is `NaN` when `p` is `NaN` or outside `[0, 1]`, as in `R::rbinom`,
and `floor(n p)` otherwise. -/
def drawsRNG (g : List ℚ) : RNG ℚ :=
  { rgamma := fun d _ _ => fin (g.getD d 0)
    rbinom := fun _ n p =>
      if p.isnan || p.lt (fin 0) || p.gt (fin 1) then nan else (n * p).floor }

/-- A stand-in for the generator in which a gamma draw of shape below `1` has
underflowed to `0` (`R::rgamma` computes it as `exp(log(p) / shape)`), any other gamma
draw is `1`, and a binomial draw from `(n, p)` is `NaN` for a `NaN` probability, as
in `R::rbinom`, and `floor(n p)` otherwise. -/
def underflowRNG : RNG ℚ :=
  { rgamma := fun _ shape _ => if shape.lt (fin 1) then fin 0 else fin 1
    rbinom := fun _ n p => if p.isnan then nan else (n * p).floor }


/-! ## Statements taken from the specification -/

/-- Clamping to the interval `[0, 1]`. -/
def clamp01 (d : Dbl K) : Dbl K :=
  if d.lt (fin 0) then fin 0 else if d.gt (fin 1) then fin 1 else d

/-- The discrete-uniform CDF in the words of the specification:
`(floor(x) - min + 1)/(max - min + 1)` clamped to `[0, 1]`. -/
def cdf_dunif_clamped (x min max : Dbl K) : Dbl K :=
  clamp01 ((x.floor - min + fin 1) / (max - min + fin 1))

/-- The beta-binomial mass in the words of the specification:
`choose(n, k) * Beta(k + alpha, n - k + beta) / Beta(alpha, beta)`. -/
noncomputable def bbinom_mass (n : Nat) (alpha beta : ℝ) (k : Nat) : ℝ :=
  (n.choose k : ℝ) * exactBeta (k + alpha) ((n - k : Nat) + beta) / exactBeta alpha beta

/-- The cumulative sum of the beta-binomial mass over `0..j`. -/
noncomputable def bbinom_cum (n : Nat) (alpha beta : ℝ) (j : Nat) : ℝ :=
  ∑ i ∈ Finset.range (j + 1), bbinom_mass n alpha beta i

/-- The state of the table loop of `cdf_bbinom_table` after the entry `m` has been
written, read exactly: `nck = log choose(n, m)`, `gx = log Γ(alpha + m)`,
`gy = log Γ(beta + n - m)`, the entries `0..m` of the table are the cumulative sums
and the entries `m+1..k` are still `0`. -/
def TabInv (n : Nat) (alpha beta : ℝ) (k m : Nat) (s : TabState ℝ) : Prop :=
  s.nck = fin (Real.log (n.choose m : ℝ)) ∧
  s.gx = fin (Real.log (Real.Gamma (alpha + m))) ∧
  s.gy = fin (Real.log (Real.Gamma (beta + n - m))) ∧
  s.p_tab = (List.range (m + 1)).map (fun j => fin (bbinom_cum n alpha beta j))
              ++ List.replicate (k - m) (fin 0)

/-- The state of the binomial loop of `cpp_rdirmnom` before column `j`, read exactly:
the columns `0..j-1` of the row hold natural numbers `L`, the remaining budget is
the natural number `N - sum L`, the remaining mass is `1 - (g_0 + ... + g_{j-1})/Gt`,
and the columns `j..k-1` are still `0`. -/
def BinomInv (gs : Nat → K) (Gt : K) (N k j : Nat) (s : BinomScan K) : Prop :=
  ∃ (L : List Nat) (r : Nat), L.length = j ∧ s.size_left = fin (r : K) ∧ L.sum + r = N ∧
    s.sum_p = fin (1 - (∑ i ∈ Finset.range j, gs i) / Gt) ∧
    s.row = L.map (fun m : Nat => fin (m : K)) ++ List.replicate (k - j) (fin 0)

/-! # Theorems -/

/-! ## Arithmetic of the idealised double -/

namespace Dbl

@[simp] theorem fin_add_fin (a b : K) : (fin a + fin b : Dbl K) = fin (a + b) := rfl
@[simp] theorem fin_sub_fin (a b : K) : (fin a - fin b : Dbl K) = fin (a - b) := by
  show add (fin a) (neg (fin b)) = _
  simp [add, neg, sub_eq_add_neg]

@[simp] theorem fin_mul_fin (a b : K) : (fin a * fin b : Dbl K) = fin (a * b) := rfl
theorem fin_div_fin (a b : K) (h : b ≠ 0) : (fin a / fin b : Dbl K) = fin (a / b) := by
  show div (fin a) (fin b) = _
  simp [div, h]

@[simp] theorem lt_fin_fin (a b : K) : lt (fin a) (fin b) = decide (a < b) := rfl
@[simp] theorem le_fin_fin (a b : K) : le (fin a) (fin b) = decide (a ≤ b) := rfl
@[simp] theorem gt_fin_fin (a b : K) : gt (fin a) (fin b) = decide (b < a) := rfl
@[simp] theorem ge_fin_fin (a b : K) : ge (fin a) (fin b) = decide (b ≤ a) := rfl
@[simp] theorem eq_fin_fin (a b : K) : Dbl.eq (fin a) (fin b) = decide (a = b) := rfl
@[simp] theorem isnan_fin (a : K) : isnan (fin a) = false := rfl
@[simp] theorem finite_fin (a : K) : finite (fin a) = true := rfl
@[simp] theorem floor_fin (a : K) : floor (fin a) = fin ((Int.floor a : Int) : K) := rfl
@[simp] theorem ceil_fin (a : K) : ceil (fin a) = fin ((Int.ceil a : Int) : K) := rfl
end Dbl

theorem isInteger_fin (v : K) (w : Bool) :
    isInteger (fin v) w = decide (((Int.floor v : Int) : K) = v) := by
  unfold isInteger
  by_cases h : v < 0
  · simp [h]
    by_cases hc : ((Int.ceil v : Int) : K) = v
    · have : ((Int.floor v : Int) : K) = v := by
        rw [← hc]; simp
      simp [hc, this]
    · have : ¬ ((Int.floor v : Int) : K) = v := by
        intro hf; apply hc; rw [← hf]; simp
      simp [hc, this]
  · simp [h]

@[simp] theorem isInteger_intCast (n : Int) (w : Bool) : isInteger (fin (n : K)) w = true := by
  simp [isInteger_fin]

@[simp] theorem isInteger_natCast (n : Nat) (w : Bool) : isInteger (fin (n : K)) w = true := by
  have := isInteger_intCast (K := K) (n : Int) w
  simpa using this

@[simp] theorem isInteger_ofNat (n : Nat) [n.AtLeastTwo] (w : Bool) :
    isInteger (fin (no_index (OfNat.ofNat n) : K)) w = true := by
  rw [← Nat.cast_eq_ofNat]
  exact isInteger_natCast n w

@[simp] theorem isInteger_zero (w : Bool) : isInteger (fin (0 : K)) w = true := by
  simpa using isInteger_natCast (K := K) 0 w

@[simp] theorem isInteger_one (w : Bool) : isInteger (fin (1 : K)) w = true := by
  simpa using isInteger_natCast (K := K) 1 w

namespace Dbl

theorem isnan_of_gt {a b : Dbl K} (h : gt a b = true) : isnan a = false ∧ isnan b = false := by
  cases a <;> cases b <;> simp_all [gt, lt, isnan]

theorem isnan_of_ge {a b : Dbl K} (h : ge a b = true) : isnan a = false ∧ isnan b = false := by
  cases a <;> cases b <;> simp_all [ge, le, isnan]

theorem isnan_of_lt {a b : Dbl K} (h : lt a b = true) : isnan a = false ∧ isnan b = false := by
  cases a <;> cases b <;> simp_all [lt, isnan]

theorem le_false_of_gt {a b : Dbl K} (h : gt a b = true) : le a b = false := by
  cases a <;> cases b <;> simp_all [gt, lt, le]

theorem lt_false_of_ge {a b : Dbl K} (h : ge a b = true) : lt a b = false := by
  cases a <;> cases b <;> simp_all [ge, lt, le]

theorem ge_trans {a b c : Dbl K} (h1 : ge a b = true) (h2 : ge b c = true) : ge a c = true := by
  cases a <;> cases b <;> cases c <;> simp_all [ge, le]
  exact le_trans h2 h1

theorem ge_false_of_lt {a b : Dbl K} (h : lt a b = true) : ge a b = false := by
  cases a <;> cases b <;> simp_all [ge, lt, le]
end Dbl

namespace Dbl
@[simp] theorem isnan_nan : isnan (nan : Dbl K) = true := rfl
@[simp] theorem nan_add (x : Dbl K) : nan + x = nan := by cases x <;> rfl
@[simp] theorem add_nan (x : Dbl K) : x + nan = nan := by cases x <;> rfl
@[simp] theorem nan_sub (x : Dbl K) : nan - x = nan := by cases x <;> rfl
@[simp] theorem sub_nan (x : Dbl K) : x - nan = nan := by cases x <;> rfl
@[simp] theorem nan_mul (x : Dbl K) : nan * x = nan := by cases x <;> rfl
@[simp] theorem mul_nan (x : Dbl K) : x * nan = nan := by cases x <;> rfl
@[simp] theorem nan_div (x : Dbl K) : nan / x = nan := by cases x <;> rfl
@[simp] theorem div_nan (x : Dbl K) : x / nan = nan := by cases x <;> rfl
theorem isnan_iff (x : Dbl K) : isnan x = true ↔ x = nan := by cases x <;> simp [isnan]
end Dbl

namespace Dbl
@[simp] theorem neg_fin (a : K) : (-(fin a) : Dbl K) = fin (-a) := rfl
end Dbl

theorem zero_add_dbl (d : Dbl K) : fin 0 + d = d := by
  cases d <;> first | rfl | (show Dbl.add _ _ = _; simp [Dbl.add])

theorem one_mul_dbl (d : Dbl K) : fin 1 * d = d := by
  cases d <;> first | rfl | (show Dbl.mul _ _ = _; simp [Dbl.mul, signedInf])

/-! ## Binary64 rounding at known values -/

/-- The rounding `round64` at values whose binary64 neighbours are known: `1/3` and `1/10`
(the doubles `0x3FD5555555555555` and `0x3FB999999999999A`), ties to even at
`2^53 + 1` and `2^53 + 3`, the largest double `2^1024 - 2^971`, the overflow threshold
`2^1024 - 2^970`, the smallest subnormal `2^-1074` and underflow to `0` at `2^-1075`. -/
theorem round64_known_values :
    round64 (1 / 3) = fin (6004799503160661 / 18014398509481984) ∧
    round64 (1 / 10) = fin (3602879701896397 / 36028797018963968) ∧
    round64 (2 ^ 53 + 1) = fin (2 ^ 53) ∧
    round64 (2 ^ 53 + 3) = fin (2 ^ 53 + 4) ∧
    round64 (2 ^ 1024 - 2 ^ 971) = fin (2 ^ 1024 - 2 ^ 971) ∧
    round64 (2 ^ 1024 - 2 ^ 970) = pinf ∧
    round64 (-(2 ^ 1024)) = ninf ∧
    round64 (pow2 (-1074)) = fin (pow2 (-1074)) ∧
    round64 (pow2 (-1075)) = fin 0 := by
  decide!

/-! ## Loops that fill a vector, sums of vectors -/

theorem set_prefix_replicate {α : Type} (L : List α) (r : Nat) (d v : α) :
    (L ++ List.replicate (r + 1) d).set L.length v = (L ++ [v]) ++ List.replicate r d := by
  induction L with
  | nil => simp [List.replicate_succ]
  | cons a L ih => simpa using ih

theorem fill_fold_prefix (N : Nat) (d : Dbl K) (f : Nat → Bool → Dbl K × Bool)
    (hval : ∀ i b, (f i b).1 = (f i false).1)
    (hflag : ∀ i b, (f i b).2 = (b || (f i false).2)) (b0 : Bool) :
    ∀ m, m ≤ N →
      (List.range m).foldl (fun (st : List (Dbl K) × Bool) i => ((st.1.set i (f i st.2).1), (f i st.2).2))
        (List.replicate N d, b0)
      = ((List.range m).map (fun i => (f i false).1) ++ List.replicate (N - m) d,
          b0 || (List.range m).any (fun i => (f i false).2)) := by
  intro m
  induction m with
  | zero => intro _; simp
  | succ m ih =>
    intro hm
    rw [List.range_succ, List.foldl_append, ih (Nat.le_of_succ_le hm)]
    simp only [List.foldl_cons, List.foldl_nil, List.map_append, List.map_cons, List.map_nil,
      List.any_append, List.any_cons, List.any_nil, Bool.or_false]
    have hN : N - m = (N - (m + 1)) + 1 := by omega
    have hlen : ((List.range m).map (fun i => (f i false).1)).length = m := by simp
    rw [hN]
    have := set_prefix_replicate ((List.range m).map (fun i => (f i false).1)) (N - (m + 1)) d
      (f m false).1
    rw [hlen] at this
    rw [hval m, this, hflag m, Bool.or_assoc]

theorem fill_fold (N : Nat) (d : Dbl K) (f : Nat → Bool → Dbl K × Bool)
    (hval : ∀ i b, (f i b).1 = (f i false).1)
    (hflag : ∀ i b, (f i b).2 = (b || (f i false).2)) (b0 : Bool) :
    (List.range N).foldl (fun (st : List (Dbl K) × Bool) i => ((st.1.set i (f i st.2).1), (f i st.2).2))
        (List.replicate N d, b0)
      = ((List.range N).map (fun i => (f i false).1),
          b0 || (List.range N).any (fun i => (f i false).2)) := by
  have := fill_fold_prefix N d f hval hflag b0 N (le_refl N)
  simpa using this

theorem sum_foldl_fin (l : List Nat) (g : Nat → K) (c : K) :
    (l.map (fun i => fin (g i))).foldl (fun acc v => acc + v) (fin c)
      = fin (c + (l.map g).sum) := by
  induction l generalizing c with
  | nil => simp
  | cons a l ih => simp [ih, add_assoc]

theorem sum_map_fin (l : List Nat) (g : Nat → K) :
    Dbl.sum (l.map (fun i => fin (g i))) = fin ((l.map g).sum) := by
  unfold Dbl.sum
  rw [sum_foldl_fin]; simp

theorem list_range_sum (n : Nat) (g : Nat → K) :
    ((List.range n).map g).sum = ∑ i ∈ Finset.range n, g i := by
  induction n with
  | zero => simp
  | succ n ih => rw [List.range_succ, List.map_append, List.sum_append, ih, Finset.sum_range_succ]; simp

/-! ## Beta-binomial CDF: control flow -/

/-- C1 (failing input): on `x = (1, 5)`, `size = (3, 10)`, `alpha = beta = 1`, every
element of which is valid, `cpp_pbbinom` stops with "inadmissible values": the table
for element 0 is requested with `k = mx = 5` and `n = size[0] = 3`. -/
theorem cpp_pbbinom_stops (R : RMath K) (lower_tail log_prob : Bool) :
    cpp_pbbinom R [fin 1, fin 5] [fin 3, fin 10] [fin 1] [fin 1] lower_tail log_prob
      = .error "inadmissible values" := by
  have hmx : finite_max_int [fin (1 : K), fin 5] = fin 5 := by
    simp [finite_max_int, is_large_int, INT_MAX]; norm_num
  have hms : finite_max_int [fin (3 : K), fin 10] = fin 10 := by
    simp [finite_max_int, is_large_int, INT_MAX]; norm_num
  simp only [cpp_pbbinom, hmx, hms]
  simp [cpp_pbbinom_loop, cpp_pbbinom_body, GETV, Nat.max, List.range, List.range.loop,
    is_large_int, INT_MAX, cdf_bbinom_table]
  norm_num

/-- C2: in the element loop of `cpp_pbbinom`, an element with `alpha > 0`, `beta > 0` and
`size` a non-negative integer is set to `1` when `x >= size` and to `0` when `x < 0`,
leaving the warning latch, the memo and the warnings as they were; a call on one
such element with `lower_tail = true`, `log_prob = false` returns `1`, respectively
`0`, with no warning. -/
theorem cpp_pbbinom_boundaries (R : RMath K) :
    (∀ (x size alpha beta : List (Dbl K)) (mx : Dbl K) (s : PbbinomState K) (i : Nat),
      (GETV alpha i).gt (fin 0) = true → (GETV beta i).gt (fin 0) = true →
      (GETV size i).ge (fin 0) = true → isInteger (GETV size i) false = true →
      ((GETV x i).ge (GETV size i) = true →
        cpp_pbbinom_body R x size alpha beta mx s i = .ok { s with p := s.p.set i (fin 1) }) ∧
      ((GETV x i).lt (fin 0) = true →
        cpp_pbbinom_body R x size alpha beta mx s i = .ok { s with p := s.p.set i (fin 0) })) ∧
    (∀ x n alpha beta : Dbl K,
      alpha.gt (fin 0) = true → beta.gt (fin 0) = true →
      n.ge (fin 0) = true → isInteger n false = true →
      (x.ge n = true →
        cpp_pbbinom R [x] [n] [alpha] [beta] true false
          = .ok { value := [fin 1], warnings := [] }) ∧
      (x.lt (fin 0) = true →
        cpp_pbbinom R [x] [n] [alpha] [beta] true false
          = .ok { value := [fin 0], warnings := [] })) := by
  have body : ∀ (x size alpha beta : List (Dbl K)) (mx : Dbl K) (s : PbbinomState K) (i : Nat),
      (GETV alpha i).gt (fin 0) = true → (GETV beta i).gt (fin 0) = true →
      (GETV size i).ge (fin 0) = true → isInteger (GETV size i) false = true →
      ((GETV x i).ge (GETV size i) = true →
        cpp_pbbinom_body R x size alpha beta mx s i = .ok { s with p := s.p.set i (fin 1) }) ∧
      ((GETV x i).lt (fin 0) = true →
        cpp_pbbinom_body R x size alpha beta mx s i = .ok { s with p := s.p.set i (fin 0) }) := by
    intro x size alpha beta mx s i ha hb hn hint
    have a1 := (isnan_of_gt ha).1
    have a2 := le_false_of_gt ha
    have b1 := (isnan_of_gt hb).1
    have b2 := le_false_of_gt hb
    have n1 := (isnan_of_ge hn).1
    have n2 := lt_false_of_ge hn
    constructor
    · intro hx
      have x1 := (isnan_of_ge hx).1
      have x2 := lt_false_of_ge (ge_trans hx hn)
      simp [cpp_pbbinom_body, a1, a2, b1, b2, n1, n2, x1, x2, hint, hx]
    · intro hx
      have x1 := (isnan_of_lt hx).1
      simp [cpp_pbbinom_body, a1, a2, b1, b2, n1, n2, x1, hint, hx]
  refine ⟨body, ?_⟩
  intro x n alpha beta ha hb hn hint
  have hG : ∀ v : Dbl K, GETV [v] 0 = v := fun v => by simp [GETV]
  have hb0 := body [x] [n] [alpha] [beta]
    (if (finite_max_int [n]).lt (finite_max_int [x]) then finite_max_int [n] else finite_max_int [x])
    { p := [fin 0], throw_warning := false, memo := [], warnings := [] } 0
    (by rw [hG]; exact ha) (by rw [hG]; exact hb) (by rw [hG]; exact hn) (by rw [hG]; exact hint)
  simp only [hG] at hb0
  constructor
  · intro hx
    have := hb0.1 hx
    simp [cpp_pbbinom, Nat.max, List.range, List.range.loop, cpp_pbbinom_loop, this]
  · intro hx
    have := hb0.2 hx
    simp [cpp_pbbinom, Nat.max, List.range, List.range.loop, cpp_pbbinom_loop, this]

/-- Witness for C2: `x = size = 3` gives `1` and `x = -1` gives `0`, `alpha = beta = 1`. -/
theorem cpp_pbbinom_boundaries_witness :
    cpp_pbbinom unifMath [fin 3] [fin 3] [fin 1] [fin 1] true false
        = .ok { value := [fin 1], warnings := [] } ∧
      cpp_pbbinom unifMath [fin (-1)] [fin 3] [fin 1] [fin 1] true false
        = .ok { value := [fin 0], warnings := [] } :=
  ⟨((cpp_pbbinom_boundaries unifMath).2 (fin 3) (fin 3) (fin 1) (fin 1)
      (by simp) (by simp) (by simp) (by simp)).1 (by simp),
   ((cpp_pbbinom_boundaries unifMath).2 (fin (-1)) (fin 3) (fin 1) (fin 1)
      (by simp) (by simp) (by simp) (by simp)).2 (by simp)⟩

/-! ## Beta-binomial distribution: normalisation of the mass function -/

/-- `exactBeta` is Euler's integral `∫ t in 0..1, t^(a-1) (1-t)^(b-1)`. -/
theorem exactBeta_eq_betaIntegral {a b : ℝ} (ha : 0 < a) (hb : 0 < b) :
    Complex.betaIntegral (a : ℂ) (b : ℂ) = ((exactBeta a b : ℝ) : ℂ) := by
  have h := Complex.Gamma_mul_Gamma_eq_betaIntegral (s := (a : ℂ)) (t := (b : ℂ))
    (by simpa using ha) (by simpa using hb)
  have hab : Real.Gamma (a + b) ≠ 0 := ne_of_gt (Real.Gamma_pos_of_pos (add_pos ha hb))
  have hg : Complex.Gamma ((a : ℂ) + (b : ℂ)) = ((Real.Gamma (a + b) : ℝ) : ℂ) := by
    rw [← Complex.ofReal_add, Complex.Gamma_ofReal]
  rw [Complex.Gamma_ofReal, Complex.Gamma_ofReal, hg] at h
  unfold exactBeta
  push_cast
  rw [h]
  have : ((Real.Gamma (a + b) : ℝ) : ℂ) ≠ 0 := by exact_mod_cast hab
  field_simp

/-- The Beta function is positive on positive arguments. -/
theorem exactBeta_pos {a b : ℝ} (ha : 0 < a) (hb : 0 < b) : 0 < exactBeta a b :=
  div_pos (mul_pos (Real.Gamma_pos_of_pos ha) (Real.Gamma_pos_of_pos hb))
    (Real.Gamma_pos_of_pos (add_pos ha hb))

theorem exactBeta_split {a b : ℝ} (ha : 0 < a) (hb : 0 < b) :
    exactBeta (a + 1) b + exactBeta a (b + 1) = exactBeta a b := by
  unfold exactBeta
  have h1 : Real.Gamma (a + 1) = a * Real.Gamma a := Real.Gamma_add_one (ne_of_gt ha)
  have h2 : Real.Gamma (b + 1) = b * Real.Gamma b := Real.Gamma_add_one (ne_of_gt hb)
  have hab : (0 : ℝ) < a + b := add_pos ha hb
  have h3 : Real.Gamma (a + b + 1) = (a + b) * Real.Gamma (a + b) :=
    Real.Gamma_add_one (ne_of_gt hab)
  have e1 : a + 1 + b = a + b + 1 := by ring
  have e2 : a + (b + 1) = a + b + 1 := by ring
  rw [e1, e2, h1, h2, h3]
  have hg : Real.Gamma (a + b) ≠ 0 := ne_of_gt (Real.Gamma_pos_of_pos hab)
  field_simp
  ring

theorem sum_choose_exactBeta (n : ℕ) : ∀ {a b : ℝ}, 0 < a → 0 < b →
    ∑ i ∈ Finset.range (n + 1), (n.choose i : ℝ) * exactBeta (i + a) ((n - i : ℕ) + b)
      = exactBeta a b := by
  induction n with
  | zero => intro a b _ _; simp
  | succ n ih =>
    intro a b ha hb
    have key := Finset.sum_choose_succ_mul (fun i j : ℕ => exactBeta (i + a) (j + b)) n
    simp only at key
    rw [key]
    have s1 : ∑ i ∈ Finset.range (n + 1),
        (n.choose i : ℝ) * exactBeta (i + a) ((n + 1 - i : ℕ) + b) = exactBeta a (b + 1) := by
      rw [← ih ha (add_pos hb one_pos)]
      apply Finset.sum_congr rfl
      intro i hi
      have hi' : i ≤ n := Nat.lt_succ_iff.mp (Finset.mem_range.mp hi)
      have : ((n + 1 - i : ℕ) : ℝ) + b = ((n - i : ℕ) : ℝ) + (b + 1) := by
        rw [Nat.succ_sub hi']; push_cast; ring
      rw [this]
    have s2 : ∑ i ∈ Finset.range (n + 1),
        (n.choose i : ℝ) * exactBeta ((i + 1 : ℕ) + a) ((n - i : ℕ) + b) = exactBeta (a + 1) b := by
      rw [← ih (add_pos ha one_pos) hb]
      apply Finset.sum_congr rfl
      intro i _
      have : ((i + 1 : ℕ) : ℝ) + a = (i : ℝ) + (a + 1) := by push_cast; ring
      rw [this]
    rw [s1, s2, add_comm]
    exact exactBeta_split ha hb

/-- The library `exactMath` is an exact one. -/
theorem exactMath_exact : ExactSpecial exactMath where
  exp_fin := fun t => rfl
  log_fin := fun t ht => by simp [exactMath, ht]
  lgammafn_fin := fun t ht => by simp [exactMath, ht]
  beta_fin := fun a b ha hb => by simp [exactMath, ha, hb]
  lbeta_fin := fun a b ha hb => by simp [exactMath, ha, hb]
  choose_fin := fun n k => by simp [exactMath]
  lchoose_fin := fun n k h => by simp [exactMath, h]

/-- The probability mass `choose(n, k) * B(k + alpha, n - k + beta) / B(alpha, beta)`. -/
theorem pmf_bbinom_exact (R : RMath ℝ) (hR : ExactSpecial R) (n k : ℕ) (hk : k ≤ n)
    (alpha beta : ℝ) (ha : 0 < alpha) (hb : 0 < beta) (tw : Bool) :
    pmf_bbinom R (fin k) (fin n) (fin alpha) (fin beta) tw
      = (fin ((n.choose k : ℝ) * exactBeta (k + alpha) ((n - k : ℕ) + beta)
            / exactBeta alpha beta), tw) := by
  have hk' : ¬ ((n : ℝ) < k) := by exact_mod_cast not_lt.mpr hk
  have hsub : (n : ℝ) - k = ((n - k : ℕ) : ℝ) := by rw [Nat.cast_sub hk]
  have hka : (0 : ℝ) < k + alpha := by positivity
  have hnb : (0 : ℝ) < ((n - k : ℕ) : ℝ) + beta := by positivity
  simp only [pmf_bbinom]
  simp [not_lt.mpr (le_of_lt ha), not_lt.mpr (le_of_lt hb), hk',
    not_lt.mpr (Nat.cast_nonneg (α := ℝ) n), not_lt.mpr (Nat.cast_nonneg (α := ℝ) k)]
  rw [hsub, hR.choose_fin, hR.beta_fin _ _ hka hnb, hR.beta_fin _ _ ha hb, fin_mul_fin,
    fin_div_fin _ _ (ne_of_gt (exactBeta_pos ha hb))]

theorem logpmf_bbinom_exact (R : RMath ℝ) (hR : ExactSpecial R) (n k : ℕ) (hk : k ≤ n)
    (alpha beta : ℝ) (ha : 0 < alpha) (hb : 0 < beta) (tw : Bool) :
    logpmf_bbinom R (fin k) (fin n) (fin alpha) (fin beta) tw
      = (fin (Real.log ((n.choose k : ℝ) * exactBeta (k + alpha) ((n - k : ℕ) + beta)
            / exactBeta alpha beta)), tw) := by
  have hk' : ¬ ((n : ℝ) < k) := by exact_mod_cast not_lt.mpr hk
  have hsub : (n : ℝ) - k = ((n - k : ℕ) : ℝ) := by rw [Nat.cast_sub hk]
  have hka : (0 : ℝ) < k + alpha := by positivity
  have hnb : (0 : ℝ) < ((n - k : ℕ) : ℝ) + beta := by positivity
  have hc : (0 : ℝ) < (n.choose k : ℝ) := by exact_mod_cast Nat.choose_pos hk
  have hB := exactBeta_pos hka hnb
  have hB0 := exactBeta_pos ha hb
  simp only [logpmf_bbinom]
  simp [not_lt.mpr (le_of_lt ha), not_lt.mpr (le_of_lt hb), hk',
    not_lt.mpr (Nat.cast_nonneg (α := ℝ) n), not_lt.mpr (Nat.cast_nonneg (α := ℝ) k)]
  rw [hsub, hR.lchoose_fin _ _ hk, hR.lbeta_fin _ _ hka hnb, hR.lbeta_fin _ _ ha hb, fin_add_fin,
    fin_sub_fin, Real.log_div (ne_of_gt (mul_pos hc hB)) (ne_of_gt hB0),
    Real.log_mul (ne_of_gt hc) (ne_of_gt hB)]

theorem logpmf_bbinom_latch (R : RMath ℝ) (k n alpha beta : Dbl ℝ) (tw : Bool) :
    (logpmf_bbinom R k n alpha beta tw).1 = (logpmf_bbinom R k n alpha beta false).1 ∧
    (logpmf_bbinom R k n alpha beta tw).2 = (tw || (logpmf_bbinom R k n alpha beta false).2) := by
  unfold logpmf_bbinom
  split_ifs <;> simp

theorem GETV_singleton {K : Type} (v : Dbl K) (i : Nat) : GETV [v] i = v := by
  simp [GETV, Nat.mod_one]

theorem GETV_range_map {K : Type} (N : Nat) (h : Nat → Dbl K) (i : Nat) (hi : i < N) :
    GETV ((List.range N).map h) i = h i := by
  simp [GETV, Nat.mod_eq_of_lt hi, List.getD_eq_getElem?_getD, hi]

/-- C3: with the external functions read as the exact real ones, for every natural `n`
and real `alpha, beta > 0` the values `pmf_bbinom(k, n, alpha, beta)`, `k = 0..n`, sum
to `1`; so do the values `exp(logpmf_bbinom(k, n, alpha, beta))`, and so does the
vector returned by `cpp_dbbinom` on `x = (0, ..., n)`, which raises no warning. -/
theorem bbinom_pmf_normalised (R : RMath ℝ) (hR : ExactSpecial R) (n : ℕ) (alpha beta : ℝ)
    (ha : 0 < alpha) (hb : 0 < beta) :
    Dbl.sum ((List.range (n + 1)).map
      (fun k : ℕ => (pmf_bbinom R (fin k) (fin n) (fin alpha) (fin beta) false).1)) = fin 1 ∧
    Dbl.sum ((List.range (n + 1)).map
      (fun k : ℕ => R.exp (logpmf_bbinom R (fin k) (fin n) (fin alpha) (fin beta) false).1))
      = fin 1 ∧
    (cpp_dbbinom R ((List.range (n + 1)).map (fun k : ℕ => fin (k : ℝ)))
      [fin n] [fin alpha] [fin beta] false).warnings = [] ∧
    Dbl.sum (cpp_dbbinom R ((List.range (n + 1)).map (fun k : ℕ => fin (k : ℝ)))
      [fin n] [fin alpha] [fin beta] false).value = fin 1 := by
  have hB0 := exactBeta_pos ha hb
  -- the exact mass at `k`
  let g : ℕ → ℝ := fun k =>
    (n.choose k : ℝ) * exactBeta (k + alpha) ((n - k : ℕ) + beta) / exactBeta alpha beta
  have hg : ((List.range (n + 1)).map g).sum = 1 := by
    rw [list_range_sum]
    simp only [g]
    rw [← Finset.sum_div, sum_choose_exactBeta n ha hb, div_self (ne_of_gt hB0)]
  have hmem : ∀ k ∈ List.range (n + 1), k ≤ n := fun k hk =>
    Nat.lt_succ_iff.mp (List.mem_range.mp hk)
  have hpmf : (List.range (n + 1)).map
      (fun k : ℕ => (pmf_bbinom R (fin k) (fin n) (fin alpha) (fin beta) false).1)
      = (List.range (n + 1)).map (fun k => fin (g k)) := by
    apply List.map_congr_left
    intro k hk
    rw [pmf_bbinom_exact R hR n k (hmem k hk) alpha beta ha hb]
  have hgpos : ∀ k, k ≤ n → 0 < g k := by
    intro k hk
    have hc : (0 : ℝ) < (n.choose k : ℝ) := by exact_mod_cast Nat.choose_pos hk
    have hka : (0 : ℝ) < k + alpha := by positivity
    have hnb : (0 : ℝ) < ((n - k : ℕ) : ℝ) + beta := by positivity
    exact div_pos (mul_pos hc (exactBeta_pos hka hnb)) hB0
  have hlog : (List.range (n + 1)).map
      (fun k : ℕ => R.exp (logpmf_bbinom R (fin k) (fin n) (fin alpha) (fin beta) false).1)
      = (List.range (n + 1)).map (fun k => fin (g k)) := by
    apply List.map_congr_left
    intro k hk
    rw [logpmf_bbinom_exact R hR n k (hmem k hk) alpha beta ha hb]
    simp only
    rw [hR.exp_fin, Real.exp_log (hgpos k (hmem k hk))]
  refine ⟨by rw [hpmf, sum_map_fin, hg], by rw [hlog, sum_map_fin, hg], ?_⟩
  have hcall : cpp_dbbinom R ((List.range (n + 1)).map (fun k : ℕ => fin (k : ℝ)))
      [fin n] [fin alpha] [fin beta] false
      = { value := (List.range (n + 1)).map (fun k => fin (g k)), warnings := [] } := by
    have hN : Nat.max (Nat.max ((List.range (n + 1)).map (fun k : ℕ => fin (k : ℝ))).length
        [fin (n : ℝ)].length) (Nat.max [fin alpha].length [fin beta].length) = n + 1 := by
      simp [Nat.max]
    have hfold := fill_fold (n + 1) (fin (0 : ℝ))
      (fun i tw => logpmf_bbinom R (GETV ((List.range (n + 1)).map (fun k : ℕ => fin (k : ℝ))) i)
        (GETV [fin (n : ℝ)] i) (GETV [fin alpha] i) (GETV [fin beta] i) tw)
      (fun i b => (logpmf_bbinom_latch R _ _ _ _ b).1)
      (fun i b => (logpmf_bbinom_latch R _ _ _ _ b).2) false
    have hel : ∀ i ∈ List.range (n + 1),
        logpmf_bbinom R (GETV ((List.range (n + 1)).map (fun k : ℕ => fin (k : ℝ))) i)
          (GETV [fin (n : ℝ)] i) (GETV [fin alpha] i) (GETV [fin beta] i) false
        = (fin (Real.log (g i)), false) := by
      intro i hi
      rw [GETV_range_map _ _ _ (List.mem_range.mp hi), GETV_singleton, GETV_singleton,
        GETV_singleton, logpmf_bbinom_exact R hR n i (hmem i hi) alpha beta ha hb]
    have hvals : (List.range (n + 1)).map (fun i =>
        (logpmf_bbinom R (GETV ((List.range (n + 1)).map (fun k : ℕ => fin (k : ℝ))) i)
          (GETV [fin (n : ℝ)] i) (GETV [fin alpha] i) (GETV [fin beta] i) false).1)
        = (List.range (n + 1)).map (fun i => fin (Real.log (g i))) := by
      apply List.map_congr_left
      intro i hi
      rw [hel i hi]
    have hflags : (List.range (n + 1)).any (fun i =>
        (logpmf_bbinom R (GETV ((List.range (n + 1)).map (fun k : ℕ => fin (k : ℝ))) i)
          (GETV [fin (n : ℝ)] i) (GETV [fin alpha] i) (GETV [fin beta] i) false).2) = false := by
      rw [List.any_eq_false]
      intro i hi
      rw [hel i hi]
      simp
    rw [hvals, hflags] at hfold
    unfold cpp_dbbinom
    simp only [hN]
    rw [hfold]
    simp only [Bool.or_false, Bool.not_false, if_true, vmap, List.map_map]
    congr 1
    · apply List.map_congr_left
      intro i hi
      simp only [Function.comp]
      rw [hR.exp_fin, Real.exp_log (hgpos i (hmem i hi))]
  refine ⟨by rw [hcall], by rw [hcall, sum_map_fin, hg]⟩

/-- Witness for C3: `n = 2`, `alpha = 1`, `beta = 3`, exact real library. -/
theorem bbinom_pmf_normalised_witness :
    Dbl.sum ((List.range (2 + 1)).map
      (fun k : ℕ => (pmf_bbinom exactMath (fin k) (fin (2 : ℕ)) (fin 1) (fin 3) false).1))
      = fin 1 :=
  (bbinom_pmf_normalised exactMath exactMath_exact 2 1 3 (by norm_num) (by norm_num)).1

/-! ## Beta-binomial distribution: the incremental table -/

theorem bbinom_term_exact (n m : ℕ) (hm : m ≤ n) (alpha beta : ℝ) (ha : 0 < alpha) (hb : 0 < beta) :
    Real.exp (Real.log (n.choose m : ℝ) + Real.log (Real.Gamma (alpha + m))
        + Real.log (Real.Gamma (beta + n - m)) - Real.log (Real.Gamma (alpha + beta + n))
        - Real.log (exactBeta alpha beta))
      = bbinom_mass n alpha beta m := by
  have hc : (0 : ℝ) < (n.choose m : ℝ) := by exact_mod_cast Nat.choose_pos hm
  have hmn : (m : ℝ) ≤ n := by exact_mod_cast hm
  have h1 : 0 < Real.Gamma (alpha + m) := Real.Gamma_pos_of_pos (by positivity)
  have h2 : 0 < Real.Gamma (beta + n - m) := Real.Gamma_pos_of_pos (by linarith)
  have h3 : 0 < Real.Gamma (alpha + beta + n) := Real.Gamma_pos_of_pos (by positivity)
  have h0 := exactBeta_pos ha hb
  rw [Real.exp_sub, Real.exp_sub, Real.exp_add, Real.exp_add, Real.exp_log hc, Real.exp_log h1,
    Real.exp_log h2, Real.exp_log h3, Real.exp_log h0]
  unfold bbinom_mass
  congr 1
  unfold exactBeta
  have e1 : (m : ℝ) + alpha = alpha + m := by ring
  have e2 : ((n - m : ℕ) : ℝ) + beta = beta + n - m := by rw [Nat.cast_sub hm]; ring
  have e3 : alpha + m + (beta + n - m) = alpha + beta + n := by ring
  rw [e1, e2, e3]
  ring

theorem table_step_exact (R : RMath ℝ) (hR : ExactSpecial R) (n : ℕ) (alpha beta : ℝ)
    (ha : 0 < alpha) (hb : 0 < beta) (k m : ℕ) (hmk : m + 1 ≤ k) (hkn : k ≤ n)
    (s : TabState ℝ) (hs : TabInv n alpha beta k m s) :
    TabInv n alpha beta k (m + 1)
      (cdf_bbinom_table_step R (fin n) (fin alpha) (fin beta)
        (R.lgammafn (fin alpha + fin beta + fin (n : ℝ))) (R.lbeta (fin alpha) (fin beta)) s (m + 1)) := by
  obtain ⟨h1, h2, h3, h4⟩ := hs
  have hmn : m + 1 ≤ n := le_trans hmk hkn
  have hmn' : ((m : ℝ) + 1) ≤ n := by exact_mod_cast hmn
  have hm1 : (0 : ℝ) < (m : ℝ) + 1 := by positivity
  have hnm : (0 : ℝ) < (n : ℝ) - m := by linarith
  have hc : (0 : ℝ) < (n.choose m : ℝ) := by
    exact_mod_cast Nat.choose_pos (Nat.le_of_succ_le hmn)
  -- the three running logarithms
  have e_nck : s.nck + R.log ((fin (n : ℝ) + fin 1 - to_dbl (m + 1)) / to_dbl (m + 1))
      = fin (Real.log (n.choose (m + 1) : ℝ)) := by
    have hq : (0 : ℝ) < ((n : ℝ) + 1 - ((m + 1 : ℕ) : ℝ)) / ((m + 1 : ℕ) : ℝ) := by
      push_cast; apply div_pos <;> linarith
    have hne : (((m + 1 : ℕ) : ℝ)) ≠ 0 := by push_cast; exact ne_of_gt hm1
    rw [h1, to_dbl, fin_add_fin, fin_sub_fin, fin_div_fin _ _ hne, hR.log_fin _ hq, fin_add_fin,
      ← Real.log_mul (ne_of_gt hc) (ne_of_gt hq)]
    congr 2
    have hch : (n.choose (m + 1) : ℝ) * ((m : ℝ) + 1) = (n.choose m : ℝ) * ((n : ℝ) - m) := by
      have := Nat.choose_succ_right_eq n m
      have h' : ((n.choose (m + 1) * (m + 1) : ℕ) : ℝ) = ((n.choose m * (n - m) : ℕ) : ℝ) := by
        rw [this]
      push_cast [Nat.cast_sub (Nat.le_of_succ_le hmn)] at h'
      exact h'
    push_cast
    field_simp
    linarith
  have e_gx : s.gx + R.log (to_dbl (m + 1) + fin alpha - fin 1)
      = fin (Real.log (Real.Gamma (alpha + ((m + 1 : ℕ) : ℝ)))) := by
    have hpos : (0 : ℝ) < alpha + m := by positivity
    have harg : (((m + 1 : ℕ) : ℝ)) + alpha - 1 = alpha + m := by push_cast; ring
    rw [h2, to_dbl, fin_add_fin, fin_sub_fin, harg, hR.log_fin _ hpos, fin_add_fin,
      ← Real.log_mul (ne_of_gt (Real.Gamma_pos_of_pos hpos)) (ne_of_gt hpos)]
    congr 2
    have : alpha + ((m + 1 : ℕ) : ℝ) = alpha + m + 1 := by push_cast; ring
    rw [this, Real.Gamma_add_one (ne_of_gt hpos)]
    ring
  have e_gy : s.gy - R.log (fin (n : ℝ) + fin beta - to_dbl (m + 1))
      = fin (Real.log (Real.Gamma (beta + n - ((m + 1 : ℕ) : ℝ)))) := by
    have hpos : (0 : ℝ) < (n : ℝ) + beta - ((m + 1 : ℕ) : ℝ) := by push_cast; linarith
    rw [h3, to_dbl, fin_add_fin, fin_sub_fin, hR.log_fin _ hpos, fin_sub_fin]
    congr 1
    have hG : Real.Gamma (beta + n - m)
        = ((n : ℝ) + beta - ((m + 1 : ℕ) : ℝ)) * Real.Gamma (beta + n - ((m + 1 : ℕ) : ℝ)) := by
      have : beta + n - m = (beta + n - ((m + 1 : ℕ) : ℝ)) + 1 := by push_cast; ring
      rw [this, Real.Gamma_add_one]
      · congr 1; ring
      · have : (0 : ℝ) < beta + n - ((m + 1 : ℕ) : ℝ) := by push_cast; linarith
        exact ne_of_gt this
    have hGp : 0 < Real.Gamma (beta + n - ((m + 1 : ℕ) : ℝ)) :=
      Real.Gamma_pos_of_pos (by push_cast; linarith)
    rw [hG, Real.log_mul (ne_of_gt hpos) (ne_of_gt hGp)]
    ring
  have hab : (0 : ℝ) < alpha + beta + n := by positivity
  have e_exp : R.exp (fin (Real.log (n.choose (m + 1) : ℝ))
        + fin (Real.log (Real.Gamma (alpha + ((m + 1 : ℕ) : ℝ))))
        + fin (Real.log (Real.Gamma (beta + n - ((m + 1 : ℕ) : ℝ))))
        - R.lgammafn (fin alpha + fin beta + fin (n : ℝ)) - R.lbeta (fin alpha) (fin beta))
      = fin (bbinom_mass n alpha beta (m + 1)) := by
    simp only [fin_add_fin]
    rw [hR.lgammafn_fin _ hab, hR.lbeta_fin _ _ ha hb]
    simp only [fin_sub_fin]
    rw [hR.exp_fin, bbinom_term_exact n (m + 1) hmn alpha beta ha hb]
  have hlen : ((List.range (m + 1)).map (fun j => fin (bbinom_cum n alpha beta j))).length
      = m + 1 := by simp
  have e_prev : s.p_tab.getD (m + 1 - 1) nan = fin (bbinom_cum n alpha beta m) := by
    rw [h4]
    simp [List.getD_eq_getElem?_getD, List.getElem?_append_left]
  have hk : k - m = (k - (m + 1)) + 1 := by omega
  refine ⟨?_, ?_, ?_, ?_⟩
  · exact e_nck
  · exact e_gx
  · exact e_gy
  · show List.set s.p_tab (m + 1) (s.p_tab.getD (m + 1 - 1) nan + R.exp _) = _
    rw [e_prev, e_nck, e_gx, e_gy, e_exp, fin_add_fin, h4, hk]
    have := set_prefix_replicate ((List.range (m + 1)).map (fun j => fin (bbinom_cum n alpha beta j)))
      (k - (m + 1)) (fin 0) (fin (bbinom_cum n alpha beta m + bbinom_mass n alpha beta (m + 1)))
    rw [hlen] at this
    rw [this]
    congr 1
    rw [List.range_succ (n := m + 1), List.map_append]
    simp [bbinom_cum, Finset.sum_range_succ]

theorem fin_div_one (a : ℝ) : (fin a / fin 1 : Dbl ℝ) = fin a := by
  rw [fin_div_fin _ _ one_ne_zero, div_one]

theorem table_fold_exact (R : RMath ℝ) (hR : ExactSpecial R) (n : ℕ) (alpha beta : ℝ)
    (ha : 0 < alpha) (hb : 0 < beta) (k : ℕ) (hkn : k ≤ n) :
    ∀ (c m : ℕ) (s : TabState ℝ), TabInv n alpha beta k m s → m + c ≤ k →
      TabInv n alpha beta k (m + c)
        ((List.range' (m + 1) c).foldl
          (cdf_bbinom_table_step R (fin n) (fin alpha) (fin beta)
            (R.lgammafn (fin alpha + fin beta + fin (n : ℝ))) (R.lbeta (fin alpha) (fin beta))) s) := by
  intro c
  induction c with
  | zero => intro m s hs _; simpa using hs
  | succ c ih =>
    intro m s hs hmc
    have hstep := table_step_exact R hR n alpha beta ha hb k m (by omega) hkn s hs
    have := ih (m + 1) _ hstep (by omega)
    rw [List.range'_succ, List.foldl_cons]
    have e : m + (c + 1) = m + 1 + c := by omega
    rw [e]
    exact this

theorem to_pos_int_natCast (k : ℕ) (hk : k ≤ INT_MAX) :
    to_pos_int (fin (k : ℝ)) = .ok k := by
  have h1 : ¬ ((k : ℝ) < 0) := not_lt.mpr (Nat.cast_nonneg k)
  have h2 : ¬ (((INT_MAX : ℕ) : ℝ) < (k : ℝ)) := by exact_mod_cast not_lt.mpr hk
  simp [to_pos_int, is_large_int, h1, h2]

theorem table_init_exact (R : RMath ℝ) (hR : ExactSpecial R) (n : ℕ) (alpha beta : ℝ)
    (ha : 0 < alpha) (hb : 0 < beta) (k : ℕ) :
    TabInv n alpha beta k 0
      { nck := fin 0, gx := R.lgammafn (fin alpha), gy := R.lgammafn (fin beta + fin (n : ℝ)),
        p_tab := (List.replicate (k + 1) (fin 0)).set 0
          (R.exp (fin 0 + R.lgammafn (fin alpha) + R.lgammafn (fin beta + fin (n : ℝ))
            - R.lgammafn (fin alpha + fin beta + fin (n : ℝ)) - R.lbeta (fin alpha) (fin beta))) } := by
  have hbn : (0 : ℝ) < beta + n := by positivity
  have hab : (0 : ℝ) < alpha + beta + n := by positivity
  have hterm := bbinom_term_exact n 0 (Nat.zero_le n) alpha beta ha hb
  simp only [Nat.choose_zero_right, Nat.cast_one, Real.log_one, Nat.cast_zero, add_zero,
    sub_zero] at hterm
  refine ⟨by simp, by simp [hR.lgammafn_fin _ ha], by simp [hR.lgammafn_fin _ hbn], ?_⟩
  simp only [fin_add_fin]
  rw [hR.lgammafn_fin _ ha, hR.lgammafn_fin _ hbn, hR.lgammafn_fin _ hab, hR.lbeta_fin _ _ ha hb]
  simp only [fin_add_fin, fin_sub_fin]
  rw [hR.exp_fin, hterm]
  simp [List.replicate_succ, bbinom_cum, List.range_succ]

/-- C4 (amended): with the external functions read as the exact real ones, for naturals
`k <= n` with `k < INT_MAX` (so that `k + 1` is an `int`) and real `alpha, beta > 0`,
`cdf_bbinom_table(k, n, alpha, beta)` returns a table of exactly `k + 1` entries whose
entry `j` is the sum over `i = 0..j` of `pmf_bbinom(i, n, alpha, beta)`, that is of
`choose(n, i) * Beta(i + alpha, n - i + beta) / Beta(alpha, beta)`. -/
theorem cdf_bbinom_table_cumulative (R : RMath ℝ) (hR : ExactSpecial R) (n k : ℕ)
    (hkn : k ≤ n) (hk : k < INT_MAX) (alpha beta : ℝ) (ha : 0 < alpha) (hb : 0 < beta) :
    ∃ tab : List (Dbl ℝ),
      cdf_bbinom_table R (fin k) (fin n) (fin alpha) (fin beta) = .ok tab ∧
      tab.length = k + 1 ∧
      ∀ j, j ≤ k →
        tab.get? j = some (fin (bbinom_cum n alpha beta j)) ∧
        Dbl.sum ((List.range (j + 1)).map
          (fun i : ℕ => (pmf_bbinom R (fin i) (fin n) (fin alpha) (fin beta) false).1))
          = fin (bbinom_cum n alpha beta j) := by
  -- the table, read exactly
  have hfinal : ∀ tab : List (Dbl ℝ),
      tab = (List.range (k + 1)).map (fun j => fin (bbinom_cum n alpha beta j)) →
      tab.length = k + 1 ∧
      ∀ j, j ≤ k →
        tab.get? j = some (fin (bbinom_cum n alpha beta j)) ∧
        Dbl.sum ((List.range (j + 1)).map
          (fun i : ℕ => (pmf_bbinom R (fin i) (fin n) (fin alpha) (fin beta) false).1))
          = fin (bbinom_cum n alpha beta j) := by
    intro tab htab
    refine ⟨by rw [htab]; simp, ?_⟩
    intro j hj
    constructor
    · rw [htab]
      simp [List.getElem?_map, List.getElem?_range (Nat.lt_succ_of_le hj)]
    · have : (List.range (j + 1)).map
          (fun i : ℕ => (pmf_bbinom R (fin i) (fin n) (fin alpha) (fin beta) false).1)
          = (List.range (j + 1)).map (fun i => fin (bbinom_mass n alpha beta i)) := by
        apply List.map_congr_left
        intro i hi
        have hin : i ≤ n := le_trans (Nat.lt_succ_iff.mp (List.mem_range.mp hi)) (le_trans hj hkn)
        rw [pmf_bbinom_exact R hR n i hin alpha beta ha hb]
        rfl
      rw [this, sum_map_fin, list_range_sum]
      rfl
  have hg1 : ¬ ((k : ℝ) < 0) := not_lt.mpr (Nat.cast_nonneg k)
  have hg2 : ¬ ((n : ℝ) < (k : ℝ)) := by exact_mod_cast not_lt.mpr hkn
  have hinit := table_init_exact R hR n alpha beta ha hb k
  have hfold := table_fold_exact R hR n alpha beta ha hb k hkn k 0 _ hinit (by omega)
  simp only [Nat.zero_add] at hfold
  have hunfold : cdf_bbinom_table R (fin k) (fin n) (fin alpha) (fin beta)
      = .ok ((List.range' 1 k).foldl
          (cdf_bbinom_table_step R (fin n) (fin alpha) (fin beta)
            (R.lgammafn (fin alpha + fin beta + fin (n : ℝ))) (R.lbeta (fin alpha) (fin beta)))
          { nck := fin 0, gx := R.lgammafn (fin alpha), gy := R.lgammafn (fin beta + fin (n : ℝ)),
            p_tab := (List.replicate (k + 1) (fin 0)).set 0
              (R.exp (fin 0 + R.lgammafn (fin alpha) + R.lgammafn (fin beta + fin (n : ℝ))
                - R.lgammafn (fin alpha + fin beta + fin (n : ℝ))
                - R.lbeta (fin alpha) (fin beta))) }).p_tab := by
    unfold cdf_bbinom_table
    simp only [lt_fin_fin, gt_fin_fin, decide_eq_true_eq, hg1, hg2, not_lt.mpr (le_of_lt ha),
      not_lt.mpr (le_of_lt hb), decide_False, Bool.or_false, Bool.false_eq_true, if_false,
      to_pos_int_natCast k (le_of_lt hk)]
    rw [if_neg (by omega : ¬ INT_MAX < k + 1)]
    rcases Nat.lt_or_ge k 1 with h0 | h1
    · have : k = 0 := by omega
      subst this
      simp
    · rw [if_neg (by omega)]
      rcases Nat.lt_or_ge k 2 with h2 | h2
      · have : k = 1 := by omega
        subst this
        simp [cdf_bbinom_table_step, to_dbl, fin_div_one]
      · rw [if_neg (by omega)]
        obtain ⟨c, rfl⟩ : ∃ c, k = c + 2 := ⟨k - 2, by omega⟩
        have hr : List.range' 1 (c + 2) = 1 :: List.range' 2 (c + 1) := by
          rw [List.range'_succ]
        rw [hr, List.foldl_cons]
        simp [cdf_bbinom_table_step, to_dbl, fin_div_one]
  refine ⟨_, hunfold, hfinal _ ?_⟩
  have := hfold.2.2.2
  simpa using this

/-- C4 (counterexample): for `k = n = 2147483647` (the largest `int`), `alpha = beta = 1`,
the guard of `cdf_bbinom_table` passes and `ik = 2147483647`, but the length `ik + 1`
overflows `int`: no table of `k + 1` entries is returned. -/
theorem cdf_bbinom_table_out_of_range :
    cdf_bbinom_table exactMath (fin ((2147483647 : ℕ) : ℝ)) (fin ((2147483647 : ℕ) : ℝ))
        (fin 1) (fin 1) = .error "integer overflow" ∧
    ¬ ∃ tab : List (Dbl ℝ),
      cdf_bbinom_table exactMath (fin ((2147483647 : ℕ) : ℝ)) (fin ((2147483647 : ℕ) : ℝ))
        (fin 1) (fin 1) = .ok tab ∧ tab.length = 2147483647 + 1 := by
  have h : cdf_bbinom_table exactMath (fin ((2147483647 : ℕ) : ℝ)) (fin ((2147483647 : ℕ) : ℝ))
      (fin 1) (fin 1) = .error "integer overflow" := by
    have hp : to_pos_int (fin ((2147483647 : ℕ) : ℝ)) = .ok 2147483647 :=
      to_pos_int_natCast 2147483647 (le_refl _)
    unfold cdf_bbinom_table
    rw [hp]
    simp [INT_MAX]
  refine ⟨h, ?_⟩
  rintro ⟨tab, htab, -⟩
  rw [h] at htab
  cases htab

/-- Witness for C4: `k = 2`, `n = 3`, `alpha = 1`, `beta = 2`, exact real library. -/
theorem cdf_bbinom_table_cumulative_witness :
    ∃ tab : List (Dbl ℝ),
      cdf_bbinom_table exactMath (fin ((2 : ℕ) : ℝ)) (fin ((3 : ℕ) : ℝ)) (fin 1) (fin 2) = .ok tab ∧
      tab.length = 2 + 1 ∧
      ∀ j, j ≤ 2 →
        tab.get? j = some (fin (bbinom_cum 3 1 2 j)) ∧
        Dbl.sum ((List.range (j + 1)).map
          (fun i : ℕ => (pmf_bbinom exactMath (fin i) (fin ((3 : ℕ) : ℝ)) (fin 1) (fin 2) false).1))
          = fin (bbinom_cum 3 1 2 j) :=
  cdf_bbinom_table_cumulative exactMath exactMath_exact 3 2 (by decide) (by decide) 1 2
    (by norm_num) (by norm_num)

/-! ## Dirichlet-multinomial sampler: rows sum to size -/

/-- Invariant of the gamma loop after the columns `0..j0-1`. -/
theorem rdirmnom_gammas_exact (G : RNG K) (arow : Nat → Dbl K) (a : Nat → K) (k t : Nat)
    (harow : ∀ j, j < k → arow j = fin (a j) ∧ 0 < a j)
    (hG : ∀ (d : Nat) (v : K), 0 < v → ∃ g : K, 0 < g ∧ G.rgamma d (fin v) (fin 1) = fin g) :
    ∀ (c j0 : Nat) (s : GammaScan K), j0 + c ≤ k →
      s.wrong_values = false → s.draws = t + j0 → s.pi.length = k →
      (∀ j, j < j0 → s.pi.getD j nan = fin (Dbl.toK (G.rgamma (t + j) (arow j) (fin 1)))) →
      s.row_sum = fin (∑ j ∈ Finset.range j0, Dbl.toK (G.rgamma (t + j) (arow j) (fin 1))) →
      (∃ sa : K, s.sum_alpha = fin sa) →
      let s1 := rdirmnom_gammas G arow (List.range' j0 c) s
      s1.wrong_values = false ∧ s1.draws = t + (j0 + c) ∧ s1.pi.length = k ∧
      (∀ j, j < j0 + c → s1.pi.getD j nan = fin (Dbl.toK (G.rgamma (t + j) (arow j) (fin 1)))) ∧
      s1.row_sum = fin (∑ j ∈ Finset.range (j0 + c), Dbl.toK (G.rgamma (t + j) (arow j) (fin 1))) ∧
      (∃ sa : K, s1.sum_alpha = fin sa) := by
  intro c
  induction c with
  | zero =>
    intro j0 s _ h1 h2 h3 h4 h5 h6
    exact ⟨h1, h2, h3, h4, h5, h6⟩
  | succ c ih =>
    intro j0 s hle h1 h2 h3 h4 h5 h6
    obtain ⟨ha1, ha2⟩ := harow j0 (by omega)
    obtain ⟨g, hg0, hg⟩ := hG (t + j0) (a j0) ha2
    obtain ⟨sa, hsa⟩ := h6
    have hstep : rdirmnom_gammas G arow (List.range' j0 (c + 1)) s
        = rdirmnom_gammas G arow (List.range' (j0 + 1) c)
            { s with sum_alpha := s.sum_alpha + arow j0,
                     pi := s.pi.set j0 (G.rgamma s.draws (arow j0) (fin 1)),
                     row_sum := s.row_sum + G.rgamma s.draws (arow j0) (fin 1),
                     draws := s.draws + 1 } := by
      rw [List.range'_succ]
      simp [rdirmnom_gammas, ha1, not_le.mpr ha2]
    have := ih (j0 + 1)
      { s with sum_alpha := s.sum_alpha + arow j0,
               pi := s.pi.set j0 (G.rgamma s.draws (arow j0) (fin 1)),
               row_sum := s.row_sum + G.rgamma s.draws (arow j0) (fin 1),
               draws := s.draws + 1 }
      (by omega) h1 (by simp [h2]; omega) (by simp [h3])
      (by
        intro j hj
        simp only [h2]
        by_cases hjj : j = j0
        · subst hjj
          simp [List.getD_eq_getElem?_getD, List.getElem?_set, h3,
            (show j < k by omega), ha1, hg, Dbl.toK]
        · have := h4 j (by omega)
          simp only [List.getD_eq_getElem?_getD] at this ⊢
          rw [List.getElem?_set_ne (Ne.symm hjj)]
          exact this)
      (by
        simp only [h2, h5, Finset.sum_range_succ]
        rw [ha1, hg]
        simp [Dbl.toK])
      ⟨sa + a j0, by simp [hsa, ha1]⟩
    simp only at this ⊢
    rw [hstep]
    have e : j0 + (c + 1) = j0 + 1 + c := by omega
    rw [e]
    exact this

theorem rdirmnom_binom_step_exact (G : RNG K) (gs : Nat → K) (N k : Nat)
    (hgs : ∀ j, j < k → 0 < gs j)
    (hB : ∀ (d m : Nat) (p : K), 0 ≤ p → p ≤ 1 →
      ∃ x : Nat, x ≤ m ∧ G.rbinom d (fin (m : K)) (fin p) = fin (x : K))
    (pi : List (Dbl K)) (hpi : ∀ j, j < k → pi.getD j nan = fin (gs j))
    (j : Nat) (hj : j + 1 < k) (s : BinomScan K)
    (hs : BinomInv gs (∑ i ∈ Finset.range k, gs i) N k j s) :
    BinomInv gs (∑ i ∈ Finset.range k, gs i) N k (j + 1)
      (rdirmnom_binom_step G pi (fin (∑ i ∈ Finset.range k, gs i)) s j) := by
  obtain ⟨L, r, hL, hsl, hsum, hsp, hrow⟩ := hs
  have hjk : j < k := by omega
  have hg := hgs j hjk
  have hGt : ∑ i ∈ Finset.range (j + 1), gs i ≤ ∑ i ∈ Finset.range k, gs i := by
    apply Finset.sum_le_sum_of_subset_of_nonneg
    · intro i hi
      rw [Finset.mem_range] at hi ⊢
      omega
    · intro i hi _
      exact le_of_lt (hgs i (Finset.mem_range.mp hi))
  have hSj : 0 ≤ ∑ i ∈ Finset.range j, gs i :=
    Finset.sum_nonneg (fun i hi => le_of_lt (hgs i (by have := Finset.mem_range.mp hi; omega)))
  rw [Finset.sum_range_succ] at hGt
  have hGpos : 0 < ∑ i ∈ Finset.range k, gs i := by linarith
  have hGne : (∑ i ∈ Finset.range k, gs i) ≠ 0 := ne_of_gt hGpos
  have hp0 : 0 < gs j / (∑ i ∈ Finset.range k, gs i) := div_pos hg hGpos
  have hsp_ge : gs j / (∑ i ∈ Finset.range k, gs i)
      ≤ 1 - (∑ i ∈ Finset.range j, gs i) / (∑ i ∈ Finset.range k, gs i) := by
    rw [le_sub_iff_add_le, ← add_div, div_le_one hGpos]
    linarith
  have hsp_pos : 0 < 1 - (∑ i ∈ Finset.range j, gs i) / (∑ i ∈ Finset.range k, gs i) := by
    linarith
  have hratio0 : 0 ≤ gs j / (∑ i ∈ Finset.range k, gs i)
      / (1 - (∑ i ∈ Finset.range j, gs i) / (∑ i ∈ Finset.range k, gs i)) :=
    le_of_lt (div_pos hp0 hsp_pos)
  have hratio1 : gs j / (∑ i ∈ Finset.range k, gs i)
      / (1 - (∑ i ∈ Finset.range j, gs i) / (∑ i ∈ Finset.range k, gs i)) ≤ 1 := by
    rw [div_le_one hsp_pos]; exact hsp_ge
  obtain ⟨x, hxr, hx⟩ := hB s.draws r _ hratio0 hratio1
  have hptmp : pi.getD j nan / fin (∑ i ∈ Finset.range k, gs i)
      = fin (gs j / (∑ i ∈ Finset.range k, gs i)) := by
    rw [hpi j hjk, fin_div_fin _ _ hGne]
  have hdraw : G.rbinom s.draws s.size_left
      (pi.getD j nan / fin (∑ i ∈ Finset.range k, gs i) / s.sum_p) = fin (x : K) := by
    rw [hptmp, hsl, hsp, fin_div_fin _ _ (ne_of_gt hsp_pos), hx]
  refine ⟨L ++ [x], r - x, by simp [hL], ?_, ?_, ?_, ?_⟩
  · show s.size_left - G.rbinom _ _ _ = _
    rw [hdraw, hsl, fin_sub_fin, Nat.cast_sub hxr]
  · simp only [List.sum_append, List.sum_cons, List.sum_nil]
    omega
  · show s.sum_p - _ = _
    rw [hptmp, hsp, fin_sub_fin, Finset.sum_range_succ, add_div]
    congr 1; ring
  · show List.set s.row j (G.rbinom _ _ _) = _
    rw [hdraw, hrow]
    have hk : k - j = (k - (j + 1)) + 1 := by omega
    have := set_prefix_replicate (L.map (fun m : Nat => fin (m : K))) (k - (j + 1)) (fin 0) (fin (x : K))
    rw [List.length_map, hL] at this
    rw [hk, this]
    simp

theorem rdirmnom_binom_fold_exact (G : RNG K) (gs : Nat → K) (N k : Nat)
    (hgs : ∀ j, j < k → 0 < gs j)
    (hB : ∀ (d m : Nat) (p : K), 0 ≤ p → p ≤ 1 →
      ∃ x : Nat, x ≤ m ∧ G.rbinom d (fin (m : K)) (fin p) = fin (x : K))
    (pi : List (Dbl K)) (hpi : ∀ j, j < k → pi.getD j nan = fin (gs j)) :
    ∀ (c : Nat) (s : BinomScan K), c + 1 ≤ k →
      BinomInv gs (∑ i ∈ Finset.range k, gs i) N k 0 s →
      BinomInv gs (∑ i ∈ Finset.range k, gs i) N k c
        ((List.range c).foldl (rdirmnom_binom_step G pi (fin (∑ i ∈ Finset.range k, gs i))) s) := by
  intro c
  induction c with
  | zero => intro s _ hs; simpa using hs
  | succ c ih =>
    intro s hc hs
    rw [List.range_succ, List.foldl_append]
    exact rdirmnom_binom_step_exact G gs N k hgs hB pi hpi c (by omega) _ (ih s (by omega) hs)

theorem sum_replicate_zero (k : Nat) : Dbl.sum (List.replicate k (fin (0 : K))) = fin 0 := by
  have : List.replicate k (fin (0 : K)) = (List.replicate k 0).map (fun m : Nat => fin (m : K)) := by
    simp
  rw [this, sum_map_fin]
  simp

/-- One row of `cpp_rdirmnom` with valid parameters. -/
theorem rdirmnom_row_exact (G : RNG K)
    (hG : ∀ (d : Nat) (v : K), 0 < v → ∃ g : K, 0 < g ∧ G.rgamma d (fin v) (fin 1) = fin g)
    (hB : ∀ (d m : Nat) (p : K), 0 ≤ p → p ≤ 1 →
      ∃ x : Nat, x ≤ m ∧ G.rbinom d (fin (m : K)) (fin p) = fin (x : K))
    (k N : Nat) (hk : 2 ≤ k) (arow : Nat → Dbl K) (a : Nat → K)
    (harow : ∀ j, j < k → arow j = fin (a j) ∧ 0 < a j) (t : Nat) :
    (rdirmnom_row G (fin (N : K)) arow k t).2.1 = false ∧
    (∃ L : List Nat, L.length = k ∧ L.sum = N ∧
      (rdirmnom_row G (fin (N : K)) arow k t).1 = L.map (fun m : Nat => fin (m : K))) ∧
    (N = 0 → (rdirmnom_row G (fin (N : K)) arow k t).1 = List.replicate k (fin 0)) := by
  have hgam := rdirmnom_gammas_exact G arow a k t harow hG k 0
    { sum_alpha := fin 0, wrong_values := false, pi := List.replicate k (fin 0),
      row_sum := fin 0, draws := t }
    (by omega) rfl rfl (by simp) (by intro j hj; omega) (by simp) ⟨0, rfl⟩
  simp only [Nat.zero_add, ← List.range_eq_range'] at hgam
  obtain ⟨g1, -, g3, g4, g5, ⟨sa, g6⟩⟩ := hgam
  have hgs : ∀ j, j < k → 0 < Dbl.toK (G.rgamma (t + j) (arow j) (fin 1)) := by
    intro j hj
    obtain ⟨ha1, ha2⟩ := harow j hj
    obtain ⟨g, hg0, hg⟩ := hG (t + j) (a j) ha2
    rw [ha1, hg]
    exact hg0
  have hN0 : ¬ ((N : K) < 0) := not_lt.mpr (Nat.cast_nonneg N)
  unfold rdirmnom_row
  simp only [g1, g6, fin_add_fin, isnan_fin, lt_fin_fin, hN0, isInteger_natCast, eq_fin_fin,
    decide_False, Bool.or_false, Bool.not_true, Bool.false_eq_true, if_false, Nat.cast_eq_zero,
    decide_eq_true_eq]
  by_cases hN : N = 0
  · rw [if_pos hN]
    refine ⟨rfl, ⟨List.replicate k 0, by simp, by simp [hN], by simp⟩, fun _ => rfl⟩
  · rw [if_neg hN]
    have hinit : BinomInv (fun j => Dbl.toK (G.rgamma (t + j) (arow j) (fin 1)))
        (∑ i ∈ Finset.range k, Dbl.toK (G.rgamma (t + i) (arow i) (fin 1))) N k 0
        { size_left := fin (N : K), sum_p := fin 1, row := List.replicate k (fin 0),
          draws := (rdirmnom_gammas G arow (List.range k)
            { sum_alpha := fin 0, wrong_values := false, pi := List.replicate k (fin 0),
              row_sum := fin 0, draws := t }).draws } :=
      ⟨[], N, rfl, rfl, by simp, by simp, by simp⟩
    have hfold := rdirmnom_binom_fold_exact G
      (fun j => Dbl.toK (G.rgamma (t + j) (arow j) (fin 1))) N k hgs hB _ g4 (k - 1) _
      (by omega) hinit
    rw [← g5] at hfold
    obtain ⟨L, r, hL, hsl, hsum, -, hrow⟩ := hfold
    refine ⟨rfl, ⟨L ++ [r], by simp [hL]; omega, by simp [hsum], ?_⟩, fun h => absurd h hN⟩
    simp only
    rw [hrow, hsl]
    have hk1 : k - (k - 1) = 0 + 1 := by omega
    have := set_prefix_replicate (L.map (fun m : Nat => fin (m : K))) 0 (fin 0) (fin (r : K))
    rw [List.length_map, hL] at this
    rw [hk1, this]
    simp

theorem cpp_rdirmnom_loop_rows (G : RNG K) (size : List (Dbl K)) (alpha : NumericMatrix K) :
    ∀ (is : List Nat) (tw : Bool) (t : Nat),
      (cpp_rdirmnom_loop G size alpha is tw t).1.length = is.length ∧
      ∀ (n : Nat) (i : Nat), is.get? n = some i →
        ∃ t1 : Nat, (cpp_rdirmnom_loop G size alpha is tw t).1.get? n
          = some (rdirmnom_row G (GETV size i) (fun j => alpha.get (i % alpha.nrow) j)
              alpha.ncol t1).1 := by
  intro is
  induction is with
  | nil => intro tw t; simp [cpp_rdirmnom_loop]
  | cons i0 is ih =>
    intro tw t
    obtain ⟨hlen, hrows⟩ := ih
      (tw || (rdirmnom_row G (GETV size i0) (fun j => alpha.get (i0 % alpha.nrow) j) alpha.ncol t).2.1)
      (rdirmnom_row G (GETV size i0) (fun j => alpha.get (i0 % alpha.nrow) j) alpha.ncol t).2.2
    constructor
    · simp [cpp_rdirmnom_loop, hlen]
    · intro n i hn
      cases n with
      | zero =>
        simp only [List.get?_cons_zero, Option.some.injEq] at hn
        subst hn
        exact ⟨t, by simp [cpp_rdirmnom_loop]⟩
      | succ n =>
        simp only [List.get?_cons_succ] at hn
        obtain ⟨t1, ht1⟩ := hrows n i hn
        exact ⟨t1, by simpa [cpp_rdirmnom_loop] using ht1⟩

/-- In exact arithmetic, for every generator whose gamma draws (positive shape, scale 1)
are positive reals and whose binomial draws from `(m, p)`, `m` natural and
`0 <= p <= 1`, are naturals `<= m`, a call of `cpp_rdirmnom` with `k >= 2` columns
returns `n` rows, and
every row `i` whose `alpha` entries are `> 0` and whose `size[i mod length(size)]` is a
natural number `N` has `k` entries that sum to `N` exactly; when `N = 0` every entry
of the row is `0`. -/
theorem rdirmnom_rows_sum_to_size (G : RNG K)
    (hG : ∀ (d : Nat) (v : K), 0 < v → ∃ g : K, 0 < g ∧ G.rgamma d (fin v) (fin 1) = fin g)
    (hB : ∀ (d m : Nat) (p : K), 0 ≤ p → p ≤ 1 →
      ∃ x : Nat, x ≤ m ∧ G.rbinom d (fin (m : K)) (fin p) = fin (x : K))
    (n : Nat) (size : List (Dbl K)) (alpha : NumericMatrix K) (hk : 2 ≤ alpha.ncol) :
    ∃ res : MatResult K, cpp_rdirmnom G n size alpha = .ok res ∧ res.value.length = n ∧
      ∀ (i N : Nat) (a : Nat → K), i < n → GETV size i = fin (N : K) →
        (∀ j, j < alpha.ncol → alpha.get (i % alpha.nrow) j = fin (a j) ∧ 0 < a j) →
        ∃ row : List (Dbl K), res.value.get? i = some row ∧ row.length = alpha.ncol ∧
          Dbl.sum row = fin (N : K) ∧ (N = 0 → row = List.replicate alpha.ncol (fin 0)) := by
  obtain ⟨hlen, hrows⟩ := cpp_rdirmnom_loop_rows G size alpha (List.range n) false 0
  refine ⟨_, by simp only [cpp_rdirmnom, if_neg (not_lt.mpr hk)]; rfl, by simpa using hlen, ?_⟩
  intro i N a hi hsize ha
  obtain ⟨t1, ht1⟩ := hrows i i (by simp [List.get?_eq_getElem?, List.getElem?_range hi])
  obtain ⟨-, ⟨L, hL, hLsum, hLrow⟩, hzero⟩ := rdirmnom_row_exact G hG hB alpha.ncol N hk
    (fun j => alpha.get (i % alpha.nrow) j) a ha t1
  rw [hsize] at ht1
  refine ⟨_, ht1, ?_, ?_, hzero⟩
  · rw [hLrow]; simp [hL]
  · rw [hLrow, sum_map_fin]
    congr 1
    rw [← hLsum]
    simp

/-- The binomial draws of the stand-in generator are naturals `<= m`. -/
theorem floorRNG_binom (d m : Nat) (p : ℚ) (h0 : 0 ≤ p) (h1 : p ≤ 1) :
    ∃ x : Nat, x ≤ m ∧ floorRNG.rbinom d (fin (m : ℚ)) (fin p) = fin (x : ℚ) := by
  have hnn : (0 : ℚ) ≤ (m : ℚ) * p := mul_nonneg (Nat.cast_nonneg m) h0
  have hfl : 0 ≤ Int.floor ((m : ℚ) * p) := Int.floor_nonneg.mpr hnn
  refine ⟨(Int.floor ((m : ℚ) * p)).toNat, ?_, ?_⟩
  · have hle : (m : ℚ) * p ≤ m := by
      have := mul_le_mul_of_nonneg_left h1 (Nat.cast_nonneg (α := ℚ) m)
      simpa using this
    have : Int.floor ((m : ℚ) * p) ≤ (m : Int) := by
      have h2 : ((Int.floor ((m : ℚ) * p) : Int) : ℚ) ≤ (m : ℚ) := le_trans (Int.floor_le _) hle
      exact_mod_cast h2
    omega
  · show Dbl.floor (fin (m : ℚ) * fin p) = _
    rw [fin_mul_fin, floor_fin]
    congr 1
    have : ((Int.floor ((m : ℚ) * p)).toNat : Int) = Int.floor ((m : ℚ) * p) := Int.toNat_of_nonneg hfl
    exact_mod_cast this.symm

/-- An instance of `rdirmnom_rows_sum_to_size`: one row, `size = 5`, `alpha = (1, 1, 1)`,
the stand-in generator. -/
theorem rdirmnom_rows_sum_to_size_witness :
    ∃ res : MatResult ℚ,
      cpp_rdirmnom floorRNG 1 [fin ((5 : Nat) : ℚ)] ⟨1, 3, fun _ _ => fin 1⟩ = .ok res ∧
      ∃ row : List (Dbl ℚ), res.value.get? 0 = some row ∧ row.length = 3 ∧
        Dbl.sum row = fin ((5 : Nat) : ℚ) := by
  obtain ⟨res, hres, -, hrows⟩ := rdirmnom_rows_sum_to_size floorRNG
    (fun _ _ _ => ⟨1, by norm_num, rfl⟩) floorRNG_binom 1 [fin ((5 : Nat) : ℚ)]
    ⟨1, 3, fun _ _ => fin 1⟩ (by decide)
  obtain ⟨row, h1, h2, h3, -⟩ := hrows 0 5 (fun _ => 1) (by decide) (by simp [GETV])
    (fun j _ => ⟨rfl, by norm_num⟩)
  exact ⟨res, hres, row, h1, h2, h3⟩

/-- C5 (failing input): `cpp_rdirmnom(1, size = 5, alpha = (1, 2^-1000, 2^-1000))`, all
parameters valid. The gamma draws of the two tiny shapes underflow to `0`, so
`row_sum = pi[0]`, the first binomial draw takes the whole budget, `sum_p` becomes
`1 - 1 = 0`, the next probability is `0/0 = NaN`, and the row is `(5, NaN, NaN)` with no
warning. In binary64 arithmetic the same happens with positive draws: for the draws
`(1, 1.25 * 2^-52, 2^-60)` the rounded `sum_p` is `2^-52`, below `p_tmp`, the probability
`p_tmp / sum_p` exceeds `1`, `R::rbinom` answers `NaN`, and the row is `(4, NaN, NaN)`. -/
theorem cpp_rdirmnom_nan_row :
    cpp_rdirmnom underflowRNG 1 [fin 5]
        ⟨1, 3, fun _ j => if j = 0 then fin 1 else fin (pow2 (-1000))⟩
      = .ok { value := [[fin 5, nan, nan]], warnings := [] } ∧
    F64.rdirmnom_row (drawsRNG [1, 5 / 4 * pow2 (-52), pow2 (-60)]) (fin 5) (fun _ => fin 1) 3 0
      = ([fin 4, nan, nan], false, 5) := by
  have hrow : rdirmnom_row underflowRNG (fin 5)
      (fun j => if j = 0 then fin 1 else fin (pow2 (-1000))) 3 0
      = ([fin 5, nan, nan], false, 5) := by decide!
  refine ⟨?_, by decide!⟩
  simp [cpp_rdirmnom, cpp_rdirmnom_loop, List.range, List.range.loop, GETV, hrow]

/-! ## Discrete uniform distribution -/

/-- The width `max - min + 1` of the support is positive. -/
theorem width_pos (min max : Int) (h : min ≤ max) : (0 : K) < (max : K) - min + 1 := by
  have : (min : K) ≤ max := by exact_mod_cast h
  linarith

/-- C6 (amended): in exact arithmetic, for integers `min <= max`,
`invcdf_dunif(0, min, max) = min` and `invcdf_dunif(1, min, max) = max`, and the warning
latch stays unset. -/
theorem invcdf_dunif_endpoints (min max : Int) (h : min ≤ max) :
    invcdf_dunif (fin 0) (fin (min : K)) (fin (max : K)) false = (fin (min : K), false) ∧
    invcdf_dunif (fin 1) (fin (min : K)) (fin (max : K)) false = (fin (max : K), false) := by
  have h' : ¬ ((max : K) < (min : K)) := by exact_mod_cast not_lt.mpr h
  constructor
  · simp [invcdf_dunif, h']
  · by_cases he : (min : K) = max
    · simp [invcdf_dunif, h', he]
    · simp [invcdf_dunif, h', he]
      have : (max : K) - min + 1 + min - 1 = ((max : Int) : K) := by ring
      rw [this]; simp

/-- Witness for C6: `min = 1`, `max = 4`. -/
theorem invcdf_dunif_endpoints_witness :
    (1 : Int) ≤ 4 ∧
      invcdf_dunif (fin 0) (fin (((1 : Int) : ℚ))) (fin (((4 : Int) : ℚ))) false
        = (fin (((1 : Int) : ℚ)), false) ∧
      invcdf_dunif (fin 1) (fin (((1 : Int) : ℚ))) (fin (((4 : Int) : ℚ))) false
        = (fin (((4 : Int) : ℚ)), false) :=
  ⟨by decide, invcdf_dunif_endpoints 1 4 (by decide)⟩

/-- C6 (counterexample): in binary64 arithmetic `invcdf_dunif(1, 0, 2^53)` is `2^53 - 1`,
not `max = 2^53`: the width `max - min + 1 = 2^53 + 1` rounds to `2^53`, and
`1 * 2^53 + 0 - 1` is `2^53 - 1`. -/
theorem invcdf_dunif_endpoint_rounded :
    F64.invcdf_dunif (fin 1) (fin 0) (fin (2 ^ 53)) false = (fin (2 ^ 53 - 1), false) ∧
    F64.invcdf_dunif (fin 1) (fin 0) (fin (2 ^ 53)) false ≠ (fin (2 ^ 53), false) := by
  decide!

/-- C7 (amended): in exact arithmetic, for integers `min <= max`, `pmf_dunif(x, min, max)`
is `1/(max - min + 1)` at every integer `x` of `[min, max]` and `0` at every other
non-NaN `x`; for `min = max = m` it is `1` at `x = m` and `0` at every other non-NaN
`x`. The latch stays unset. -/
theorem pmf_dunif_values (min max : Int) (h : min ≤ max) :
    (∀ n : Int, min ≤ n → n ≤ max →
      pmf_dunif (fin (n : K)) (fin (min : K)) (fin (max : K)) false
        = (fin (1 / ((max : K) - min + 1)), false)) ∧
    (∀ x : Dbl K, x ≠ nan → (¬ ∃ n : Int, x = fin (n : K) ∧ min ≤ n ∧ n ≤ max) →
      pmf_dunif x (fin (min : K)) (fin (max : K)) false = (fin 0, false)) ∧
    pmf_dunif (fin (min : K)) (fin (min : K)) (fin (min : K)) false = (fin 1, false) ∧
    (∀ x : Dbl K, x ≠ nan → x ≠ fin (min : K) →
      pmf_dunif x (fin (min : K)) (fin (min : K)) false = (fin 0, false)) := by
  have h' : ¬ ((max : K) < (min : K)) := by exact_mod_cast not_lt.mpr h
  have key : ∀ x : Dbl K, x ≠ nan → (¬ ∃ n : Int, x = fin (n : K) ∧ min ≤ n ∧ n ≤ max) →
      pmf_dunif x (fin (min : K)) (fin (max : K)) false = (fin 0, false) := by
    intro x hx hn
    cases x with
    | nan => exact absurd rfl hx
    | ninf => simp [pmf_dunif, isnan, lt, h']
    | pinf => simp [pmf_dunif, isnan, lt, gt, h']
    | fin v =>
      by_cases h1 : v < min
      · simp [pmf_dunif, h', h1]
      by_cases h2 : (max : K) < v
      · simp [pmf_dunif, h', h2]
      by_cases h3 : ((Int.floor v : Int) : K) = v
      · exfalso; apply hn
        refine ⟨Int.floor v, by rw [h3], ?_, ?_⟩
        · have : (min : K) ≤ ((Int.floor v : Int) : K) := by rw [h3]; exact not_lt.mp h1
          exact_mod_cast this
        · have : ((Int.floor v : Int) : K) ≤ max := by rw [h3]; exact not_lt.mp h2
          exact_mod_cast this
      · simp [pmf_dunif, h', h1, h2, isInteger_fin, h3]
  have val : ∀ n : Int, min ≤ n → n ≤ max →
      pmf_dunif (fin (n : K)) (fin (min : K)) (fin (max : K)) false
        = (fin (1 / ((max : K) - min + 1)), false) := by
    intro n h1 h2
    have e1 : ¬ ((n : K) < min) := by exact_mod_cast not_lt.mpr h1
    have e2 : ¬ ((max : K) < n) := by exact_mod_cast not_lt.mpr h2
    have hw := width_pos (K := K) min max h
    simp [pmf_dunif, h', e1, e2]
    rw [fin_div_fin _ _ (ne_of_gt hw)]
    simp
  refine ⟨val, key, ?_, ?_⟩
  · simp [pmf_dunif]
    rw [fin_div_fin _ _ one_ne_zero]; simp
  · intro x hx hne
    have hw0 : ¬ ((min : K) < (min : K)) := lt_irrefl _
    cases x with
    | nan => exact absurd rfl hx
    | ninf => simp [pmf_dunif, isnan, lt]
    | pinf => simp [pmf_dunif, isnan, lt, gt]
    | fin v =>
      have hv : v ≠ (min : K) := fun e => hne (by rw [e])
      rcases lt_or_gt_of_ne hv with h1 | h1
      · simp [pmf_dunif, h1]
      · have h0 : ¬ v < (min : K) := not_lt.mpr (le_of_lt h1)
        simp [pmf_dunif, h1, h0]

/-- Witness for C7: `min = 1`, `max = 4`, at `x = 3`. -/
theorem pmf_dunif_values_witness :
    (1 : Int) ≤ 4 ∧
      pmf_dunif (fin (((3 : Int) : ℚ))) (fin (((1 : Int) : ℚ))) (fin (((4 : Int) : ℚ))) false
        = (fin (1 / ((((4 : Int) : ℚ)) - ((1 : Int) : ℚ) + 1)), false) :=
  ⟨by decide, (pmf_dunif_values 1 4 (by decide)).1 3 (by decide) (by decide)⟩

/-- C7 (counterexample): in binary64 arithmetic, for `min = -2^1023`, `max = 2^1023` the
width `max - min` overflows to `+inf`, and `pmf_dunif(0, min, max) = 1/inf = 0` at the
integer `0` of the support, where `1/(max - min + 1)` is positive. -/
theorem pmf_dunif_width_overflow :
    F64.pmf_dunif (fin 0) (fin (-(2 ^ 1023))) (fin (2 ^ 1023)) false = (fin 0, false) ∧
    (0 : ℚ) < 1 / (2 ^ 1023 - (-(2 ^ 1023)) + 1) := by
  decide!

/-- Value of the CDF as an element of `K`. -/
theorem cdf_dunif_val (min max : Int) (h : min ≤ max) (x : Dbl K) (hx : x ≠ nan) :
    ∃ c : K, cdf_dunif x (fin (min : K)) (fin (max : K)) false = (fin c, false) ∧
      cdf_dunif_clamped x (fin (min : K)) (fin (max : K)) = fin c ∧ 0 ≤ c ∧ c ≤ 1 ∧
      c = (match x with
        | fin v => Max.max 0 (Min.min 1 ((((Int.floor v : Int) : K) - min + 1) / ((max : K) - min + 1)))
        | pinf => 1
        | _ => 0) := by
  have h' : ¬ ((max : K) < (min : K)) := by exact_mod_cast not_lt.mpr h
  have hw := width_pos (K := K) min max h
  have hw' : ¬ ((max : K) - min + 1 = 0) := ne_of_gt hw
  cases x with
  | nan => exact absurd rfl hx
  | ninf =>
    refine ⟨0, ?_, ?_, le_refl _, zero_le_one, rfl⟩
    · simp [cdf_dunif, isnan, lt, h']
    · have : (ninf - fin (min : K) + fin 1 : Dbl K) = ninf := rfl
      simp only [cdf_dunif_clamped, floor, fin_sub_fin, fin_add_fin, this]
      show clamp01 (div ninf (fin _)) = _
      simp [div, le_of_lt hw, clamp01, lt]
  | pinf =>
    refine ⟨1, ?_, ?_, zero_le_one, le_refl _, rfl⟩
    · simp [cdf_dunif, isnan, lt, ge, le, h']
    · have : (pinf - fin (min : K) + fin 1 : Dbl K) = pinf := rfl
      simp only [cdf_dunif_clamped, floor, fin_sub_fin, fin_add_fin, this]
      show clamp01 (div pinf (fin _)) = _
      simp [div, le_of_lt hw, clamp01, lt, gt]
  | fin v =>
    have hcl : cdf_dunif_clamped (fin v) (fin (min : K)) (fin (max : K)) =
        clamp01 (fin ((((Int.floor v : Int) : K) - min + 1) / ((max : K) - min + 1))) := by
      simp only [cdf_dunif_clamped, floor_fin, fin_sub_fin, fin_add_fin]
      rw [fin_div_fin _ _ hw']
    by_cases h1 : v < min
    · have hf : Int.floor v < min := by
        rw [Int.floor_lt]; exact h1
      have hf' : ((Int.floor v : Int) : K) - min + 1 ≤ 0 := by
        have : ((Int.floor v : Int) : K) + 1 ≤ (min : K) := by exact_mod_cast hf
        linarith
      have hq : (((Int.floor v : Int) : K) - min + 1) / ((max : K) - min + 1) ≤ 0 :=
        div_nonpos_of_nonpos_of_nonneg hf' (le_of_lt hw)
      refine ⟨0, ?_, ?_, le_refl _, zero_le_one, ?_⟩
      · simp [cdf_dunif, h', h1]
      · rw [hcl]; unfold clamp01
        rcases lt_or_eq_of_le hq with h2 | h2
        · simp [h2]
        · simp [h2]
      · simp only
        rw [min_eq_right (le_trans hq zero_le_one), max_eq_left hq]
    by_cases h2 : (max : K) ≤ v
    · have hf : max ≤ Int.floor v := by
        rw [Int.le_floor]; exact h2
      have hf' : (max : K) - min + 1 ≤ ((Int.floor v : Int) : K) - min + 1 := by
        have : (max : K) ≤ ((Int.floor v : Int) : K) := by exact_mod_cast hf
        linarith
      have hq : 1 ≤ (((Int.floor v : Int) : K) - min + 1) / ((max : K) - min + 1) := by
        rw [le_div_iff₀ hw]; linarith
      refine ⟨1, ?_, ?_, zero_le_one, le_refl _, ?_⟩
      · simp [cdf_dunif, h', h1, h2]
      · rw [hcl]; unfold clamp01
        have n0 : ¬ (((Int.floor v : Int) : K) - min + 1) / ((max : K) - min + 1) < 0 :=
          not_lt.mpr (le_trans zero_le_one hq)
        rcases lt_or_eq_of_le hq with h3 | h3
        · simp [n0, h3]
        · simp [n0, ← h3]
      · simp only
        rw [min_eq_left hq, max_eq_right zero_le_one]
    · have hf1 : min ≤ Int.floor v := by
        rw [Int.le_floor]; exact not_lt.mp h1
      have hf2 : Int.floor v < max := by
        rw [Int.floor_lt]; exact not_le.mp h2
      have c1 : (min : K) ≤ ((Int.floor v : Int) : K) := by exact_mod_cast hf1
      have c2 : ((Int.floor v : Int) : K) + 1 ≤ (max : K) := by exact_mod_cast hf2
      have q0 : 0 ≤ (((Int.floor v : Int) : K) - min + 1) / ((max : K) - min + 1) :=
        div_nonneg (by linarith) (le_of_lt hw)
      have q1 : (((Int.floor v : Int) : K) - min + 1) / ((max : K) - min + 1) ≤ 1 := by
        rw [div_le_iff₀ hw]; linarith
      refine ⟨_, ?_, ?_, q0, q1, ?_⟩
      · simp only [cdf_dunif]
        simp [h', h1, h2]
        rw [fin_div_fin _ _ hw']
      · rw [hcl]; unfold clamp01
        simp [not_lt.mpr q0, not_lt.mpr q1]
      · simp only
        rw [min_eq_right q1, max_eq_right q0]

/-- C8 (amended): in exact arithmetic, for integers `min <= max` and non-NaN `x`,
`cdf_dunif(x, min, max)` is the clamped formula of the specification, lies in `[0, 1]`,
and is non-decreasing in `x`; the latch stays unset. -/
theorem cdf_dunif_clamped_formula (min max : Int) (h : min ≤ max) (x : Dbl K) (hx : x ≠ nan) :
    cdf_dunif x (fin (min : K)) (fin (max : K)) false
      = (cdf_dunif_clamped x (fin (min : K)) (fin (max : K)), false) ∧
    le (fin 0) (cdf_dunif x (fin (min : K)) (fin (max : K)) false).1 = true ∧
    le (cdf_dunif x (fin (min : K)) (fin (max : K)) false).1 (fin 1) = true ∧
    (∀ y : Dbl K, y ≠ nan → le x y = true →
      le (cdf_dunif x (fin (min : K)) (fin (max : K)) false).1
         (cdf_dunif y (fin (min : K)) (fin (max : K)) false).1 = true) := by
  obtain ⟨c, hc, hcl, c0, c1, cv⟩ := cdf_dunif_val (K := K) min max h x hx
  refine ⟨by rw [hc, hcl], by simp [hc, c0], by simp [hc, c1], ?_⟩
  intro y hy hxy
  obtain ⟨d, hd, -, d0, d1, dv⟩ := cdf_dunif_val (K := K) min max h y hy
  have hw := width_pos (K := K) min max h
  rw [hc, hd]
  simp only [le_fin_fin, decide_eq_true_eq]
  cases x with
  | nan => exact absurd rfl hx
  | ninf => simp only at cv; rw [cv]; exact d0
  | pinf =>
    cases y with
    | pinf => simp only at cv dv; rw [cv, dv]
    | _ => simp [le] at hxy
  | fin v =>
    cases y with
    | nan => exact absurd rfl hy
    | ninf => simp [le] at hxy
    | pinf => simp only at dv; rw [dv]; exact c1
    | fin w =>
      simp only [le_fin_fin, decide_eq_true_eq] at hxy
      simp only at cv dv
      rw [cv, dv]
      have hfl : ((Int.floor v : Int) : K) ≤ ((Int.floor w : Int) : K) := by
        exact_mod_cast Int.floor_mono hxy
      apply max_le_max (le_refl _)
      apply min_le_min (le_refl _)
      apply div_le_div_of_nonneg_right _ (le_of_lt hw)
      linarith

/-- Witness for C8: `min = 1`, `max = 4`, at `x = 5/2`. -/
theorem cdf_dunif_clamped_formula_witness :
    (1 : Int) ≤ 4 ∧
      cdf_dunif (fin (5 / 2 : ℚ)) (fin (((1 : Int) : ℚ))) (fin (((4 : Int) : ℚ))) false
        = (cdf_dunif_clamped (fin (5 / 2 : ℚ)) (fin (((1 : Int) : ℚ))) (fin (((4 : Int) : ℚ))),
            false) :=
  ⟨by decide, (cdf_dunif_clamped_formula 1 4 (by decide) (fin (5 / 2)) (by simp)).1⟩

/-- C8 (counterexample): in binary64 arithmetic, for `max = 2^1024 - 2^971` (the largest
double), `min = -max` and `x = 2^1023`, both `floor(x) - min` and `max - min` overflow
to `+inf` and `cdf_dunif(x, min, max)` is `inf/inf = NaN`, not a value of `[0, 1]`. -/
theorem cdf_dunif_overflow :
    F64.cdf_dunif (fin (2 ^ 1023)) (fin (-(2 ^ 1024 - 2 ^ 971))) (fin (2 ^ 1024 - 2 ^ 971)) false
      = (nan, false) := by
  decide!

/-! ## Beta prime distribution: round trip -/

/-- C9 (amended): in exact arithmetic, for `alpha, beta, sigma > 0` and `0 < u < 1`, if
`qbeta(., alpha, beta)` maps `(0, 1)` into `(0, 1)` and `pbeta(qbeta(p, alpha, beta), alpha, beta) = p` there, then
`cdf_betapr(invcdf_betapr(u, alpha, beta, sigma), alpha, beta, sigma) = u`, and
neither call raises the latch. -/
theorem betapr_round_trip (R : RMath K) (alpha beta sigma u : K)
    (ha : 0 < alpha) (hb : 0 < beta) (hs : 0 < sigma) (hu0 : 0 < u) (hu1 : u < 1)
    (hq : ∀ p : K, 0 < p → p < 1 →
      ∃ q : K, R.qbeta (fin p) (fin alpha) (fin beta) = fin q ∧ 0 < q ∧ q < 1)
    (hinv : ∀ p : K, 0 < p → p < 1 →
      R.pbeta (R.qbeta (fin p) (fin alpha) (fin beta)) (fin alpha) (fin beta) = fin p) :
    (invcdf_betapr R (fin u) (fin alpha) (fin beta) (fin sigma) false).2 = false ∧
    cdf_betapr R (invcdf_betapr R (fin u) (fin alpha) (fin beta) (fin sigma) false).1
      (fin alpha) (fin beta) (fin sigma) false = (fin u, false) := by
  obtain ⟨q, hq1, q0, q1⟩ := hq u hu0 hu1
  have hi := hinv u hu0 hu1
  rw [hq1] at hi
  have h1q : (0 : K) < 1 - q := by linarith
  have hy : 0 < q / (1 - q) * sigma := mul_pos (div_pos q0 h1q) hs
  have hinvcdf : invcdf_betapr R (fin u) (fin alpha) (fin beta) (fin sigma) false
      = (fin (q / (1 - q) * sigma), false) := by
    simp [invcdf_betapr, not_le.mpr ha, not_le.mpr hb, not_le.mpr hs, not_lt.mpr (le_of_lt hu0),
      not_lt.mpr (le_of_lt hu1), ne_of_gt hu0, ne_of_lt hu1, hq1]
    rw [fin_div_fin _ _ (ne_of_gt h1q)]
    simp
  rw [hinvcdf]
  refine ⟨rfl, ?_⟩
  have hz : q / (1 - q) * sigma / sigma = q / (1 - q) := by
    rw [mul_div_assoc, div_self (ne_of_gt hs), mul_one]
  have hz1 : (1 : K) + q / (1 - q) ≠ 0 := by
    have : 0 < q / (1 - q) := div_pos q0 h1q
    linarith
  have hback : q / (1 - q) / (1 + q / (1 - q)) = q := by
    have : (1 : K) - q ≠ 0 := ne_of_gt h1q
    field_simp
  simp [cdf_betapr, not_le.mpr ha, not_le.mpr hb, not_le.mpr hs, not_le.mpr hy]
  rw [fin_div_fin _ _ (ne_of_gt hs), hz, fin_add_fin, fin_div_fin _ _ hz1, hback, hi]

/-- Witness for C9: `alpha = beta = 1` (where `pbeta` and `qbeta` are the identity on
`(0, 1)`), `sigma = 2`, `u = 1/2`. -/
theorem betapr_round_trip_witness :
    cdf_betapr unifMath (invcdf_betapr unifMath (fin (1 / 2)) (fin 1) (fin 1) (fin 2) false).1
      (fin 1) (fin 1) (fin 2) false = (fin (1 / 2), false) :=
  (betapr_round_trip unifMath 1 1 2 (1 / 2) (by norm_num) (by norm_num) (by norm_num)
    (by norm_num) (by norm_num)
    (fun p h0 h1 => ⟨p, rfl, h0, h1⟩) (fun p _ _ => rfl)).2

/-- C9 (counterexample): in binary64 arithmetic, with `alpha = beta = 1` (where `pbeta` and
`qbeta` are the identity on `(0, 1)`), `sigma = 2^1023` and `u = 3/4`, the quantile
`x/(1 - x) * sigma = 3 * 2^1023` overflows to `+inf`, and `cdf_betapr` of it is `1`,
not `u`. -/
theorem betapr_round_trip_overflow :
    F64.invcdf_betapr unifMath (fin (3 / 4)) (fin 1) (fin 1) (fin (2 ^ 1023)) false
      = (pinf, false) ∧
    F64.cdf_betapr unifMath
        (F64.invcdf_betapr unifMath (fin (3 / 4)) (fin 1) (fin 1) (fin (2 ^ 1023)) false).1
        (fin 1) (fin 1) (fin (2 ^ 1023)) false = (fin 1, false) ∧
    (fin 1 : Dbl ℚ) ≠ fin (3 / 4) := by
  decide!

/-! ## Mixture of normals: one component -/

/-- C10 (amended): in exact arithmetic, with `k = 1` column, any non-NaN `x`, finite `mu`,
`sigma > 0` and weight `a > 0`, the element computed by `cpp_dmixnorm` is exactly `dnorm(x, mu, sigma)` and the latch
is left alone; a call on one-row, one-column matrices returns that value with no
warning. -/
theorem dmixnorm_single_component (R : RMath K) (x : Dbl K) (mu sigma a : K)
    (hx : x ≠ nan) (hs : 0 < sigma) (ha : 0 < a) :
    (∀ (mrow srow arow : Nat → Dbl K) (tw : Bool),
      mrow 0 = fin mu → srow 0 = fin sigma → arow 0 = fin a →
      dmixnorm_elem R x mrow srow arow 1 tw = (R.dnorm x (fin mu) (fin sigma), tw)) ∧
    (∀ mum sgm alm : NumericMatrix K,
      mum.nrow = 1 → mum.ncol = 1 → sgm.nrow = 1 → sgm.ncol = 1 → alm.nrow = 1 → alm.ncol = 1 →
      mum.get 0 0 = fin mu → sgm.get 0 0 = fin sigma → alm.get 0 0 = fin a →
      cpp_dmixnorm R [x] mum sgm alm false
        = .ok { value := [R.dnorm x (fin mu) (fin sigma)], warnings := [] }) := by
  have hnan : (fin (mu + sigma) + fin a + x).isnan = false := by
    cases x with
    | nan => exact absurd rfl hx
    | fin v => rfl
    | pinf => rfl
    | ninf => rfl
  have helem : ∀ (mrow srow arow : Nat → Dbl K) (tw : Bool),
      mrow 0 = fin mu → srow 0 = fin sigma → arow 0 = fin a →
      dmixnorm_elem R x mrow srow arow 1 tw = (R.dnorm x (fin mu) (fin sigma), tw) := by
    intro mrow srow arow tw hm hsg hal
    have hscan : dmixnorm_scan (K := K) mrow srow arow 1
        = { wrong_param := false, alpha_tot := fin a, nans_sum := fin (mu + sigma) } := by
      simp [dmixnorm_scan, List.range, List.range.loop, hm, hsg, hal,
        not_lt.mpr (le_of_lt ha), not_le.mpr hs]
    simp only [dmixnorm_elem, hscan, hnan]
    simp [List.range, List.range.loop, hm, hsg, hal]
    rw [fin_div_fin _ _ (ne_of_gt ha), div_self (ne_of_gt ha), one_mul_dbl, zero_add_dbl]
  refine ⟨helem, ?_⟩
  intro mum sgm alm h1 h2 h3 h4 h5 h6 hm hsg hal
  have := helem (fun j => mum.get 0 j) (fun j => sgm.get 0 j) (fun j => alm.get 0 j) false
    hm hsg hal
  simp [cpp_dmixnorm, h1, h2, h3, h4, h5, h6, Nat.max, List.range, List.range.loop, GETV, this]

/-- Witness for C10: `x = 0`, `mu = 0`, `sigma = 1`, weight `3`, exact real library. -/
theorem dmixnorm_single_component_witness :
    cpp_dmixnorm exactMath [fin 0] ⟨1, 1, fun _ _ => fin 0⟩ ⟨1, 1, fun _ _ => fin 1⟩
        ⟨1, 1, fun _ _ => fin 3⟩ false
      = .ok { value := [exactMath.dnorm (fin 0) (fin 0) (fin 1)], warnings := [] } :=
  (dmixnorm_single_component exactMath (fin 0) 0 1 3 (by simp) (by norm_num) (by norm_num)).2
    ⟨1, 1, fun _ _ => fin 0⟩ ⟨1, 1, fun _ _ => fin 1⟩ ⟨1, 1, fun _ _ => fin 3⟩
    rfl rfl rfl rfl rfl rfl rfl rfl rfl

/-- C10 (counterexample): in binary64 arithmetic, with one component, `mu = sigma = 2^1023`,
weight `1` and `x = -inf`, the sum `mu + sigma` overflows to `+inf`, so
`nans_sum + alpha_tot + x` is `inf - inf = NaN` and the element is `NaN`, where
`dnorm(-inf, mu, sigma)` is `0`. -/
theorem dmixnorm_single_component_overflow :
    F64.dmixnorm_elem edgeMath ninf (fun _ => fin (2 ^ 1023)) (fun _ => fin (2 ^ 1023))
        (fun _ => fin 1) 1 false = (nan, false) ∧
    edgeMath.dnorm ninf (fin (2 ^ 1023)) (fin (2 ^ 1023)) = fin 0 := by
  decide!

/-! ## Tukey lambda distribution: median and logit -/

/-- The library `exactMath` reads `pow`, `log(0)` and `exp(-inf)` exactly. -/
theorem exactMath_cmath : ExactCmath exactMath where
  pow_fin := fun a b ha => by simp [exactMath, ha]
  log_zero := by simp [exactMath]
  exp_ninf := rfl

/-- C11 (amended): with `log` and `pow` read exactly (the exact real functions),
`invcdf_tlambda(0.5, lambda) = 0` for every real `lambda` (also `lambda = 0`), and for `lambda = 0` and `p` in `[0, 1]`,
`invcdf_tlambda(p, 0)` is `log(p) - log(1 - p)`: the real logit `log(p / (1 - p))` for
`0 < p < 1`, `-inf` at `p = 0` and `+inf` at `p = 1`. No warning is raised. -/
theorem tlambda_median_and_logit (R : RMath ℝ) (hR : ExactSpecial R) (hC : ExactCmath R) :
    (∀ lambda : ℝ, invcdf_tlambda R (fin (1 / 2)) (fin lambda) = (fin 0, [])) ∧
    (∀ p : ℝ, 0 ≤ p → p ≤ 1 →
      invcdf_tlambda R (fin p) (fin 0) = (R.log (fin p) - R.log (fin (1 - p)), [])) ∧
    (∀ p : ℝ, 0 < p → p < 1 →
      invcdf_tlambda R (fin p) (fin 0) = (fin (Real.log (p / (1 - p))), [])) ∧
    invcdf_tlambda R (fin 0) (fin 0) = (ninf, []) ∧
    invcdf_tlambda R (fin 1) (fin 0) = (pinf, []) := by
  have hcode : ∀ p : ℝ, 0 ≤ p → p ≤ 1 →
      invcdf_tlambda R (fin p) (fin 0) = (R.log (fin p) - R.log (fin (1 - p)), []) := by
    intro p h0 h1
    simp [invcdf_tlambda, not_lt.mpr h0, not_lt.mpr h1]
  have hlog1 : R.log (fin 1) = fin 0 := by
    rw [hR.log_fin 1 one_pos, Real.log_one]
  refine ⟨?_, hcode, ?_, ?_, ?_⟩
  · intro lambda
    have hhalf : (0 : ℝ) < 1 / 2 := by norm_num
    have hsub : (1 : ℝ) - 1 / 2 = 1 / 2 := by norm_num
    by_cases hl : lambda = 0
    · subst hl
      rw [hcode (1 / 2) (le_of_lt hhalf) (by norm_num), hsub, hR.log_fin _ hhalf, fin_sub_fin,
        sub_self]
    · have hg1 : ¬ ((1 / 2 : ℝ) < 0) := by norm_num
      have hg2 : ¬ ((1 : ℝ) < 1 / 2) := by norm_num
      simp only [invcdf_tlambda, isnan_fin, Bool.or_self, Bool.false_eq_true, if_false,
        lt_fin_fin, gt_fin_fin, hg1, hg2, decide_False, eq_fin_fin, hl, fin_sub_fin, hsub,
        hC.pow_fin _ _ hhalf, sub_self]
      rw [fin_div_fin _ _ hl, zero_div]
  · intro p h0 h1
    have h1p : 0 < 1 - p := by linarith
    rw [hcode p (le_of_lt h0) (le_of_lt h1), hR.log_fin _ h0, hR.log_fin _ h1p, fin_sub_fin,
      Real.log_div (ne_of_gt h0) (ne_of_gt h1p)]
  · rw [hcode 0 (le_refl _) zero_le_one, hC.log_zero, sub_zero, hlog1]
    rfl
  · rw [hcode 1 zero_le_one (le_refl _), sub_self, hC.log_zero, hlog1]
    rfl

/-- Witness for C11: the exact real library. -/
theorem tlambda_median_and_logit_witness :
    invcdf_tlambda exactMath (fin (1 / 2)) (fin 3) = (fin 0, []) :=
  (tlambda_median_and_logit exactMath exactMath_exact exactMath_cmath).1 3

/-- C11 (counterexample): in binary64 arithmetic `pow(0.5, -2000) = 2^2000` overflows to
`+inf`, so `invcdf_tlambda(0.5, -2000)` is `(inf - inf)/lambda = NaN`, not `0`; at
`lambda = -2`, where the power is finite, it is `0`. -/
theorem tlambda_median_pow_overflow :
    F64.invcdf_tlambda edgeMath (fin (1 / 2)) (fin (-2000)) = (nan, []) ∧
    F64.invcdf_tlambda edgeMath (fin (1 / 2)) (fin (-2)) = (fin 0, []) := by
  decide!

/-! ## Broadcasting by recycling -/

/-- The value of `pmf_dunif` does not depend on the latch, which is only ever raised. -/
theorem pmf_dunif_latch (x min max : Dbl K) (tw : Bool) :
    (pmf_dunif x min max tw).1 = (pmf_dunif x min max false).1 ∧
    (pmf_dunif x min max tw).2 = (tw || (pmf_dunif x min max false).2) := by
  unfold pmf_dunif
  split_ifs <;> simp

/-- The value of `pdf_betapr` does not depend on the latch, which is only ever raised. -/
theorem pdf_betapr_latch (R : RMath K) (x alpha beta sigma : Dbl K) (tw : Bool) :
    (pdf_betapr R x alpha beta sigma tw).1 = (pdf_betapr R x alpha beta sigma false).1 ∧
    (pdf_betapr R x alpha beta sigma tw).2
      = (tw || (pdf_betapr R x alpha beta sigma false).2) := by
  unfold pdf_betapr
  split_ifs <;> simp

/-- Reading a non-empty vector at a recycled index. -/
theorem GETV_get? (x : List (Dbl K)) (hx : x ≠ []) (i : Nat) :
    x.get? (i % x.length) = some (GETV x i) := by
  have hlen : 0 < x.length := List.length_pos.mpr hx
  have hi : i % x.length < x.length := Nat.mod_lt _ hlen
  simp [GETV, List.get?_eq_getElem?, List.getD_eq_getElem?_getD, List.getElem?_eq_getElem hi]

/-- Entry `i` of a vector filled by a loop. -/
theorem get?_map_range (N : Nat) (g : Nat → Dbl K) (i : Nat) (hi : i < N) :
    ((List.range N).map g).get? i = some (g i) := by
  simp [List.get?_eq_getElem?, List.getElem?_map, List.getElem?_range hi]

/-- C12: for non-empty input vectors, `cpp_ddunif` (inputs `x`, `min`, `max`) and
`cpp_dbetapr` (inputs `x`, `alpha`, `beta`, `sigma`) return a vector whose length is the
maximum of the input lengths and whose entry `i` is the scalar kernel (`pmf_dunif`,
`pdf_betapr`) at the entries `i mod (own length)` of the inputs (its logarithm when
`log_prob` is set). -/
theorem broadcasting_recycles (R : RMath K) :
    (∀ (x min max : List (Dbl K)) (log_prob : Bool), x ≠ [] → min ≠ [] → max ≠ [] →
      (cpp_ddunif R x min max log_prob).value.length
        = Nat.max (Nat.max x.length min.length) max.length ∧
      ∀ i, i < Nat.max (Nat.max x.length min.length) max.length →
        ∃ xi mi ma : Dbl K, x.get? (i % x.length) = some xi ∧
          min.get? (i % min.length) = some mi ∧ max.get? (i % max.length) = some ma ∧
          (cpp_ddunif R x min max log_prob).value.get? i
            = some (if log_prob then R.log (pmf_dunif xi mi ma false).1
                    else (pmf_dunif xi mi ma false).1)) ∧
    (∀ (x alpha beta sigma : List (Dbl K)) (log_prob : Bool),
      x ≠ [] → alpha ≠ [] → beta ≠ [] → sigma ≠ [] →
      (cpp_dbetapr R x alpha beta sigma log_prob).value.length
        = Nat.max (Nat.max (Nat.max x.length alpha.length) beta.length) sigma.length ∧
      ∀ i, i < Nat.max (Nat.max (Nat.max x.length alpha.length) beta.length) sigma.length →
        ∃ xi ai bi si : Dbl K, x.get? (i % x.length) = some xi ∧
          alpha.get? (i % alpha.length) = some ai ∧ beta.get? (i % beta.length) = some bi ∧
          sigma.get? (i % sigma.length) = some si ∧
          (cpp_dbetapr R x alpha beta sigma log_prob).value.get? i
            = some (if log_prob then R.log (pdf_betapr R xi ai bi si false).1
                    else (pdf_betapr R xi ai bi si false).1)) := by
  constructor
  · intro x min max log_prob hx hmin hmax
    have hfold := fill_fold (Nat.max (Nat.max x.length min.length) max.length) (fin (0 : K))
      (fun i tw => pmf_dunif (GETV x i) (GETV min i) (GETV max i) tw)
      (fun i b => (pmf_dunif_latch _ _ _ b).1) (fun i b => (pmf_dunif_latch _ _ _ b).2) false
    have hval : (cpp_ddunif R x min max log_prob).value
        = (List.range (Nat.max (Nat.max x.length min.length) max.length)).map
            (fun i => if log_prob then R.log (pmf_dunif (GETV x i) (GETV min i) (GETV max i) false).1
                      else (pmf_dunif (GETV x i) (GETV min i) (GETV max i) false).1) := by
      unfold cpp_ddunif
      simp only
      rw [hfold]
      cases log_prob <;> simp [vmap]
    refine ⟨by rw [hval]; simp, ?_⟩
    intro i hi
    refine ⟨GETV x i, GETV min i, GETV max i, GETV_get? x hx i, GETV_get? min hmin i,
      GETV_get? max hmax i, ?_⟩
    rw [hval, get?_map_range _ _ _ hi]
  · intro x alpha beta sigma log_prob hx ha hb hs
    have hfold := fill_fold
      (Nat.max (Nat.max (Nat.max x.length alpha.length) beta.length) sigma.length) (fin (0 : K))
      (fun i tw => pdf_betapr R (GETV x i) (GETV alpha i) (GETV beta i) (GETV sigma i) tw)
      (fun i b => (pdf_betapr_latch R _ _ _ _ b).1) (fun i b => (pdf_betapr_latch R _ _ _ _ b).2)
      false
    have hval : (cpp_dbetapr R x alpha beta sigma log_prob).value
        = (List.range
            (Nat.max (Nat.max (Nat.max x.length alpha.length) beta.length) sigma.length)).map
            (fun i => if log_prob
              then R.log (pdf_betapr R (GETV x i) (GETV alpha i) (GETV beta i) (GETV sigma i) false).1
              else (pdf_betapr R (GETV x i) (GETV alpha i) (GETV beta i) (GETV sigma i) false).1) := by
      unfold cpp_dbetapr
      simp only
      rw [hfold]
      cases log_prob <;> simp [vmap]
    refine ⟨by rw [hval]; simp, ?_⟩
    intro i hi
    refine ⟨GETV x i, GETV alpha i, GETV beta i, GETV sigma i, GETV_get? x hx i,
      GETV_get? alpha ha i, GETV_get? beta hb i, GETV_get? sigma hs i, ?_⟩
    rw [hval, get?_map_range _ _ _ hi]

/-- Witness for C12: lengths 2, 1 and 3 give length 3, and entry 2 reads `x[0]`, `min[0]`,
`max[2]`. -/
theorem broadcasting_recycles_witness :
    (cpp_ddunif unifMath [fin 1, fin 7] [fin 1] [fin 2, fin 3, fin 4] false).value.length = 3 ∧
    (cpp_ddunif unifMath [fin 1, fin 7] [fin 1] [fin 2, fin 3, fin 4] false).value.get? 2
      = some (pmf_dunif (fin 1) (fin 1) (fin 4) false).1 := by
  obtain ⟨hlen, hrow⟩ := (broadcasting_recycles unifMath).1 [fin 1, fin 7] [fin 1]
    [fin 2, fin 3, fin 4] false (by simp) (by simp) (by simp)
  refine ⟨hlen, ?_⟩
  obtain ⟨xi, mi, ma, h1, h2, h3, h4⟩ := hrow 2 (by decide)
  simp at h1 h2 h3
  subst h1 h2 h3
  simpa using h4

/-! ## Warnings of the vectorised exports -/

/-- C13 (failing input): on `p = (2, 3)`, `lambda = 1`, both elements outside `[0, 1]`,
`cpp_qtlambda` raises "NaNs produced" twice, once per invalid element, where the
sibling `cpp_qdunif` on `p = (2, 3)`, `min = 1`, `max = 4` raises it once. -/
theorem cpp_qtlambda_warns_per_element (R : RMath K) :
    cpp_qtlambda R [fin 2, fin 3] [fin 1] true false
      = { value := [nan, nan], warnings := ["NaNs produced", "NaNs produced"] } ∧
    cpp_qdunif R [fin 2, fin 3] [fin 1] [fin 4] true false
      = { value := [nan, nan], warnings := ["NaNs produced"] } := by
  constructor
  · simp [cpp_qtlambda, Nat.max, List.range, List.range.loop, GETV, invcdf_tlambda]
  · simp [cpp_qdunif, Nat.max, List.range, List.range.loop, GETV, invcdf_dunif]

/-- C14 (failing input): with weights `(-1, NaN)`, `mu = (0, 0)`, `sigma = (1, 1)`, `x = 0`,
`cpp_pmixnorm` returns `NaN` and raises the warning (its scan leaves at the negative
weight before the NaN is added), where the sibling `cpp_dmixnorm` returns `NaN`
silently. -/
theorem mixnorm_nan_after_negative_weight (R : RMath K) :
    cpp_pmixnorm R [fin 0] ⟨1, 2, fun _ _ => fin 0⟩ ⟨1, 2, fun _ _ => fin 1⟩
        ⟨1, 2, fun _ j => if j = 0 then fin (-1) else nan⟩ true false
      = .ok { value := [nan], warnings := ["NaNs produced"] } ∧
    cpp_dmixnorm R [fin 0] ⟨1, 2, fun _ _ => fin 0⟩ ⟨1, 2, fun _ _ => fin 1⟩
        ⟨1, 2, fun _ j => if j = 0 then fin (-1) else nan⟩ false
      = .ok { value := [nan], warnings := [] } := by
  constructor
  · simp [cpp_pmixnorm, Nat.max, List.range, List.range.loop, GETV, pmixnorm_elem, pmixnorm_scan]
  · simp [cpp_dmixnorm, Nat.max, List.range, List.range.loop, GETV, dmixnorm_elem, dmixnorm_scan]

/-! ## Mixture of normals: invalid parameters -/

/-- The scan of `cpp_dmixnorm` over finite rows: finite sums, and the flag is raised
exactly when some weight is negative or some scale is not positive. -/
theorem dmixnorm_scan_fin (m sg a : Nat → K) (k : Nat) (mrow srow arow : Nat → Dbl K)
    (hm : ∀ j, j < k → mrow j = fin (m j)) (hs : ∀ j, j < k → srow j = fin (sg j))
    (ha : ∀ j, j < k → arow j = fin (a j)) :
    (dmixnorm_scan mrow srow arow k).nans_sum = fin (∑ j ∈ Finset.range k, (m j + sg j)) ∧
    (dmixnorm_scan mrow srow arow k).alpha_tot = fin (∑ j ∈ Finset.range k, a j) ∧
    ((dmixnorm_scan mrow srow arow k).wrong_param = true ↔
      ∃ j, j < k ∧ (a j < 0 ∨ sg j ≤ 0)) := by
  unfold dmixnorm_scan
  have key : ∀ n, n ≤ k → ∀ s : MixScan K,
      s = (List.range n).foldl
        (fun (s : MixScan K) j =>
          { wrong_param := if (arow j).lt (fin 0) || (srow j).le (fin 0) then true
                           else s.wrong_param,
            nans_sum := s.nans_sum + (mrow j + srow j),
            alpha_tot := s.alpha_tot + arow j })
        { wrong_param := false, alpha_tot := fin 0, nans_sum := fin 0 } →
      s.nans_sum = fin (∑ j ∈ Finset.range n, (m j + sg j)) ∧
      s.alpha_tot = fin (∑ j ∈ Finset.range n, a j) ∧
      (s.wrong_param = true ↔ ∃ j, j < n ∧ (a j < 0 ∨ sg j ≤ 0)) := by
    intro n
    induction n with
    | zero => intro _ s hs; subst hs; simp
    | succ n ih =>
      intro hn s hs
      obtain ⟨h1, h2, h3⟩ := ih (Nat.le_of_succ_le hn) _ rfl
      have hn' : n < k := hn
      subst hs
      simp only [List.range_succ, List.foldl_append, List.foldl_cons, List.foldl_nil]
      generalize List.foldl _ _ (List.range n) = S at h1 h2 h3 ⊢
      rw [h1, h2, hm n hn', hs n hn', ha n hn']
      refine ⟨by simp [Finset.sum_range_succ], by simp [Finset.sum_range_succ], ?_⟩
      simp only [lt_fin_fin, le_fin_fin, Bool.or_eq_true, decide_eq_true_eq]
      constructor
      · intro h
        split_ifs at h with hb
        · exact ⟨n, Nat.lt_succ_self n, hb⟩
        · obtain ⟨j, hj, hbad⟩ := h3.mp h
          exact ⟨j, Nat.lt_succ_of_lt hj, hbad⟩
      · rintro ⟨j, hj, hbad⟩
        split_ifs with hb
        · rfl
        · rcases Nat.lt_succ_iff_lt_or_eq.mp hj with hlt | heq
          · exact h3.mpr ⟨j, hlt, hbad⟩
          · subst heq; exact absurd hbad hb
  exact key k (le_refl k) _ rfl

/-- The scan of `cpp_pmixnorm` (with its `break`) over finite rows, from a state with
finite sums: the sums stay finite, the flag is raised exactly when some remaining
weight or scale is negative, and without such a column `alpha_tot` is the full sum. -/
theorem pmixnorm_scan_fin (m sg a : Nat → K) (k : Nat) (mrow srow arow : Nat → Dbl K)
    (hm : ∀ j, j < k → mrow j = fin (m j)) (hs : ∀ j, j < k → srow j = fin (sg j))
    (ha : ∀ j, j < k → arow j = fin (a j)) :
    ∀ (c j0 : Nat) (s : MixScan K) (ns at0 : K), j0 + c ≤ k →
      s.wrong_param = false → s.nans_sum = fin ns → s.alpha_tot = fin at0 →
      (∃ ns1 : K, (pmixnorm_scan mrow srow arow (List.range' j0 c) s).nans_sum = fin ns1) ∧
      (∃ at1 : K, (pmixnorm_scan mrow srow arow (List.range' j0 c) s).alpha_tot = fin at1) ∧
      ((pmixnorm_scan mrow srow arow (List.range' j0 c) s).wrong_param = true ↔
        ∃ j, j0 ≤ j ∧ j < j0 + c ∧ (a j < 0 ∨ sg j < 0)) ∧
      ((¬ ∃ j, j0 ≤ j ∧ j < j0 + c ∧ (a j < 0 ∨ sg j < 0)) →
        (pmixnorm_scan mrow srow arow (List.range' j0 c) s).alpha_tot
          = fin (at0 + ∑ j ∈ Finset.range c, a (j0 + j))) := by
  intro c
  induction c with
  | zero =>
    intro j0 s ns at0 _ hw hn hat
    simp [pmixnorm_scan, hw, hn, hat]
    intro x h1 h2
    omega
  | succ c ih =>
    intro j0 s ns at0 hle hw hn hat
    have hj0 : j0 < k := by omega
    rw [List.range'_succ]
    by_cases hbad : a j0 < 0 ∨ sg j0 < 0
    · have hcond : ((arow j0).lt (fin 0) || (srow j0).lt (fin 0)) = true := by
        simpa [ha j0 hj0, hs j0 hj0] using hbad
      simp only [pmixnorm_scan, hcond, if_true]
      refine ⟨⟨ns, hn⟩, ⟨at0, hat⟩, ?_, ?_⟩
      · simp only [true_iff]
        exact ⟨j0, le_refl _, by omega, hbad⟩
      · intro hno
        exact absurd ⟨j0, le_refl _, by omega, hbad⟩ hno
    · have hcond : ((arow j0).lt (fin 0) || (srow j0).lt (fin 0)) = false := by
        simpa [ha j0 hj0, hs j0 hj0] using hbad
      simp only [pmixnorm_scan, hcond, Bool.false_eq_true, if_false]
      obtain ⟨r1, r2, r3, r4⟩ := ih (j0 + 1)
        { s with nans_sum := s.nans_sum + (mrow j0 + srow j0),
                 alpha_tot := s.alpha_tot + arow j0 }
        (ns + (m j0 + sg j0)) (at0 + a j0) (by omega) hw
        (by simp [hn, hm j0 hj0, hs j0 hj0]) (by simp [hat, ha j0 hj0])
      have hiff : (∃ j, j0 + 1 ≤ j ∧ j < j0 + 1 + c ∧ (a j < 0 ∨ sg j < 0)) ↔
          (∃ j, j0 ≤ j ∧ j < j0 + (c + 1) ∧ (a j < 0 ∨ sg j < 0)) := by
        constructor
        · rintro ⟨j, h1, h2, h3⟩
          exact ⟨j, by omega, by omega, h3⟩
        · rintro ⟨j, h1, h2, h3⟩
          have : j ≠ j0 := by
            rintro rfl
            exact hbad h3
          exact ⟨j, by omega, by omega, h3⟩
      refine ⟨r1, r2, r3.trans hiff, ?_⟩
      intro hno
      rw [r4 (fun h => hno (hiff.mp h))]
      congr 1
      rw [Finset.sum_range_succ']
      simp only [Nat.add_zero]
      have : ∀ j, a (j0 + 1 + j) = a (j0 + (j + 1)) := fun j => by congr 1; omega
      simp only [this]
      ring

/-- A running sum that is `NaN` stays `NaN`. -/
theorem foldl_add_nan (l : List Nat) (g : Nat → Dbl K) :
    l.foldl (fun p j => p + g j) nan = nan := by
  induction l with
  | nil => rfl
  | cons a l ih => simpa using ih

/-- A running sum of `NaN` terms over a non-empty range is `NaN`. -/
theorem foldl_add_of_nan (l : List Nat) (hl : l ≠ []) (g : Nat → Dbl K)
    (hg : ∀ j, j ∈ l → g j = nan) (p0 : Dbl K) :
    l.foldl (fun p j => p + g j) p0 = nan := by
  cases l with
  | nil => exact absurd rfl hl
  | cons a l =>
    simp only [List.foldl_cons, hg a (List.mem_cons_self a l), add_nan]
    exact foldl_add_nan l g

/-- `0/0` is `NaN`. -/
theorem zero_div_zero : (fin (0 : K) / fin 0 : Dbl K) = nan := by
  show div (fin 0) (fin 0) = nan
  simp [div, signedInf]

/-- C15 (amended): in exact arithmetic, for an element whose `x`, means, scales and
weights are finite, the output is `NaN` and the latch is set when some weight is negative or, in
`cpp_dmixnorm`, some scale is `<= 0`, or, in `cpp_pmixnorm`, some scale is `< 0`. When
there is at least one component, all weights are `0` and all scales are `> 0`, both
return `NaN` and leave the latch as it was. -/
theorem mixnorm_invalid_parameters (R : RMath K) (x : K) (m sg a : Nat → K) (k : Nat)
    (mrow srow arow : Nat → Dbl K)
    (hm : ∀ j, j < k → mrow j = fin (m j)) (hs : ∀ j, j < k → srow j = fin (sg j))
    (ha : ∀ j, j < k → arow j = fin (a j)) (tw : Bool) :
    ((∃ j, j < k ∧ (a j < 0 ∨ sg j ≤ 0)) →
      dmixnorm_elem R (fin x) mrow srow arow k tw = (nan, true)) ∧
    ((∃ j, j < k ∧ (a j < 0 ∨ sg j < 0)) →
      pmixnorm_elem R (fin x) mrow srow arow k tw = (nan, true)) ∧
    (0 < k → (∀ j, j < k → a j = 0) → (∀ j, j < k → 0 < sg j) →
      dmixnorm_elem R (fin x) mrow srow arow k tw = (nan, tw) ∧
      pmixnorm_elem R (fin x) mrow srow arow k tw = (nan, tw)) := by
  obtain ⟨d1, d2, d3⟩ := dmixnorm_scan_fin m sg a k mrow srow arow hm hs ha
  obtain ⟨⟨ns1, p1⟩, ⟨at1, p2⟩, p3, p4⟩ := pmixnorm_scan_fin m sg a k mrow srow arow hm hs ha k 0
    { wrong_param := false, alpha_tot := fin 0, nans_sum := fin 0 } 0 0 (by omega) rfl rfl rfl
  simp only [← List.range_eq_range', Nat.zero_add, zero_add, Nat.zero_le, true_and] at p1 p2 p3 p4
  have hrange : ∀ j, j ∈ List.range k → j < k := fun j hj => List.mem_range.mp hj
  refine ⟨?_, ?_, ?_⟩
  · intro hbad
    have hw := d3.mpr hbad
    simp only [dmixnorm_elem, d1, d2, hw, fin_add_fin, isnan_fin, Bool.false_eq_true, if_false,
      if_true]
  · intro hbad
    have hw := p3.mpr hbad
    simp only [pmixnorm_elem, p1, p2, hw, fin_add_fin, isnan_fin, Bool.false_eq_true, if_false,
      if_true]
  · intro hk hzero hpos
    have hne : List.range k ≠ [] := by
      intro h
      have := congrArg List.length h
      simp at this
      omega
    have hsum0 : ∑ j ∈ Finset.range k, a j = 0 :=
      Finset.sum_eq_zero (fun j hj => hzero j (Finset.mem_range.mp hj))
    constructor
    · have hw : (dmixnorm_scan mrow srow arow k).wrong_param = false := by
        rw [Bool.eq_false_iff]
        intro h
        obtain ⟨j, hj, hbad⟩ := d3.mp h
        rcases hbad with h1 | h1
        · rw [hzero j hj] at h1; exact lt_irrefl _ h1
        · exact absurd (hpos j hj) (not_lt.mpr h1)
      simp only [dmixnorm_elem, d1, d2, hw, fin_add_fin, isnan_fin, Bool.false_eq_true, if_false,
        hsum0]
      congr 1
      apply foldl_add_of_nan _ hne
        (fun j => arow j / fin 0 * R.dnorm (fin x) (mrow j) (srow j))
      intro j hj
      rw [ha j (hrange j hj), hzero j (hrange j hj), zero_div_zero, nan_mul]
    · have hno : ¬ ∃ j, j < k ∧ (a j < 0 ∨ sg j < 0) := by
        rintro ⟨j, hj, hbad⟩
        rcases hbad with h1 | h1
        · rw [hzero j hj] at h1; exact lt_irrefl _ h1
        · exact absurd (hpos j hj) (not_lt.mpr (le_of_lt h1))
      have hw : (pmixnorm_scan mrow srow arow (List.range k)
          { wrong_param := false, alpha_tot := fin 0, nans_sum := fin 0 }).wrong_param = false := by
        rw [Bool.eq_false_iff]
        exact fun h => hno (p3.mp h)
      have hat := p4 hno
      rw [hsum0] at hat
      simp only [pmixnorm_elem, p1, hat, hw, fin_add_fin, isnan_fin, Bool.false_eq_true, if_false]
      congr 1
      apply foldl_add_of_nan _ hne
        (fun j => arow j / fin 0 * R.pnorm (fin x) (mrow j) (srow j))
      intro j hj
      rw [ha j (hrange j hj), hzero j (hrange j hj), zero_div_zero, nan_mul]

/-- Witness for C15: two components, weights `(-1, 1)`, scales `(1, 1)`. -/
theorem mixnorm_invalid_parameters_witness :
    dmixnorm_elem exactMath (fin 0) (fun _ => fin 0) (fun _ => fin 1)
        (fun j => if j = 0 then fin (-1) else fin 1) 2 false = (nan, true) :=
  (mixnorm_invalid_parameters exactMath 0 (fun _ => 0) (fun _ => 1)
    (fun j => if j = 0 then -1 else 1) 2 (fun _ => fin 0) (fun _ => fin 1)
    (fun j => if j = 0 then fin (-1) else fin 1)
    (fun _ _ => rfl) (fun _ _ => rfl) (fun j _ => by by_cases h : j = 0 <;> simp [h]) false).1
    ⟨0, by decide, Or.inl (by norm_num)⟩

/-- C15 (counterexample): `cpp_dmixnorm` with weights `(0, 0)` (sum zero) returns `NaN` with no
warning, and `cpp_pmixnorm` with scales `(0, 1)` and weights `(1, 1)` returns the
weighted sum of `pnorm` with no warning. With the infinite means `(+inf, -inf)` and the
weights `(-1, 1)`, no input is `NaN` but `nans_sum` is `inf - inf = NaN`, and
`cpp_dmixnorm` returns `NaN` with no warning. In binary64 arithmetic the same happens
with finite inputs: for `mu = sigma = (2^1023, -2^1023)` the sums `mu + sigma` overflow
to `+inf` and `-inf`, and the element is `NaN` with the latch unset although
`sigma_1 < 0`. -/
theorem mixnorm_unflagged_parameters :
    cpp_dmixnorm exactMath [fin 0] ⟨1, 2, fun _ _ => fin 0⟩ ⟨1, 2, fun _ _ => fin 1⟩
        ⟨1, 2, fun _ _ => fin 0⟩ false
      = .ok { value := [nan], warnings := [] } ∧
    cpp_pmixnorm exactMath [fin 0] ⟨1, 2, fun _ _ => fin 0⟩
        ⟨1, 2, fun _ j => if j = 0 then fin 0 else fin 1⟩ ⟨1, 2, fun _ _ => fin 1⟩ true false
      = .ok { value := [fin 0 + fin 1 / fin 2 * exactMath.pnorm (fin 0) (fin 0) (fin 0)
                          + fin 1 / fin 2 * exactMath.pnorm (fin 0) (fin 0) (fin 1)],
              warnings := [] } ∧
    cpp_dmixnorm exactMath [fin 0] ⟨1, 2, fun _ j => if j = 0 then pinf else ninf⟩
        ⟨1, 2, fun _ _ => fin 1⟩ ⟨1, 2, fun _ j => if j = 0 then fin (-1) else fin 1⟩ false
      = .ok { value := [nan], warnings := [] } ∧
    F64.dmixnorm_elem unifMath (fin 0)
        (fun j => if j = 0 then fin (2 ^ 1023) else fin (-(2 ^ 1023)))
        (fun j => if j = 0 then fin (2 ^ 1023) else fin (-(2 ^ 1023)))
        (fun _ => fin 1) 2 false
      = (nan, false) := by
  refine ⟨?_, ?_, ?_, by decide!⟩
  · simp [cpp_dmixnorm, Nat.max, List.range, List.range.loop, GETV, dmixnorm_elem, dmixnorm_scan,
      zero_div_zero]
    norm_num
  · simp [cpp_pmixnorm, Nat.max, List.range, List.range.loop, GETV, pmixnorm_elem, pmixnorm_scan]
    norm_num
  · have h : (fin (0 : ℝ) + (pinf + fin 1) + (ninf + fin 1) + fin 0 + fin 0 : Dbl ℝ) = nan := rfl
    simp [cpp_dmixnorm, Nat.max, List.range, List.range.loop, GETV, dmixnorm_elem, dmixnorm_scan]
    rw [h]
    simp

/-! ## Dirichlet-multinomial mass function -/

/-- A running sum of finite terms. -/
theorem foldl_add_fin (l : List Nat) (F : Nat → Dbl K) (g : Nat → K)
    (hF : ∀ j, j ∈ l → F j = fin (g j)) (c : K) :
    l.foldl (fun acc j => acc + F j) (fin c) = fin (c + (l.map g).sum) := by
  induction l generalizing c with
  | nil => simp
  | cons a l ih =>
    simp only [List.foldl_cons, hF a (List.mem_cons_self a l), fin_add_fin, List.map_cons,
      List.sum_cons]
    rw [ih (fun j hj => hF j (List.mem_cons_of_mem a hj)), add_assoc]

/-- The scan of `cpp_ddirmnom` over finite rows. -/
theorem ddirmnom_scan_fin (xv av : Nat → K) (k : Nat) (xrow arow : Nat → Dbl K)
    (hx : ∀ j, j < k → xrow j = fin (xv j)) (ha : ∀ j, j < k → arow j = fin (av j)) :
    (ddirmnom_scan xrow arow k).sum_x = fin (∑ j ∈ Finset.range k, xv j) ∧
    (ddirmnom_scan xrow arow k).sum_alpha = fin (∑ j ∈ Finset.range k, av j) ∧
    ((ddirmnom_scan xrow arow k).wrong_param = true ↔ ∃ j, j < k ∧ av j ≤ 0) ∧
    ((ddirmnom_scan xrow arow k).wrong_x = true ↔
      ∃ j, j < k ∧ (xv j < 0 ∨ ((Int.floor (xv j) : Int) : K) ≠ xv j)) := by
  unfold ddirmnom_scan
  have key : ∀ n, n ≤ k → ∀ s : DirScan K,
      s = (List.range n).foldl
        (fun (s : DirScan K) j =>
          { wrong_param := if (arow j).le (fin 0) then true else s.wrong_param,
            wrong_x := if (xrow j).lt (fin 0) || !isInteger (xrow j) true then true
                       else s.wrong_x,
            sum_x := s.sum_x + xrow j,
            sum_alpha := s.sum_alpha + arow j })
        { wrong_x := false, wrong_param := false, sum_x := fin 0, sum_alpha := fin 0 } →
      s.sum_x = fin (∑ j ∈ Finset.range n, xv j) ∧
      s.sum_alpha = fin (∑ j ∈ Finset.range n, av j) ∧
      (s.wrong_param = true ↔ ∃ j, j < n ∧ av j ≤ 0) ∧
      (s.wrong_x = true ↔ ∃ j, j < n ∧ (xv j < 0 ∨ ((Int.floor (xv j) : Int) : K) ≠ xv j)) := by
    intro n
    induction n with
    | zero => intro _ s hs; subst hs; simp
    | succ n ih =>
      intro hn s hs
      obtain ⟨h1, h2, h3, h4⟩ := ih (Nat.le_of_succ_le hn) _ rfl
      have hn' : n < k := hn
      subst hs
      simp only [List.range_succ, List.foldl_append, List.foldl_cons, List.foldl_nil]
      generalize List.foldl _ _ (List.range n) = S at h1 h2 h3 h4 ⊢
      rw [h1, h2, hx n hn', ha n hn']
      refine ⟨by simp [Finset.sum_range_succ], by simp [Finset.sum_range_succ], ?_, ?_⟩
      · simp only [le_fin_fin, decide_eq_true_eq]
        constructor
        · intro h
          split_ifs at h with hb
          · exact ⟨n, Nat.lt_succ_self n, hb⟩
          · obtain ⟨j, hj, hbad⟩ := h3.mp h
            exact ⟨j, Nat.lt_succ_of_lt hj, hbad⟩
        · rintro ⟨j, hj, hbad⟩
          split_ifs with hb
          · rfl
          · rcases Nat.lt_succ_iff_lt_or_eq.mp hj with hlt | heq
            · exact h3.mpr ⟨j, hlt, hbad⟩
            · subst heq; exact absurd hbad hb
      · simp only [lt_fin_fin, isInteger_fin, Bool.or_eq_true, decide_eq_true_eq,
          Bool.not_eq_true', decide_eq_false_iff_not]
        constructor
        · intro h
          split_ifs at h with hb
          · exact ⟨n, Nat.lt_succ_self n, hb⟩
          · obtain ⟨j, hj, hbad⟩ := h4.mp h
            exact ⟨j, Nat.lt_succ_of_lt hj, hbad⟩
        · rintro ⟨j, hj, hbad⟩
          split_ifs with hb
          · rfl
          · rcases Nat.lt_succ_iff_lt_or_eq.mp hj with hlt | heq
            · exact h4.mpr ⟨j, hlt, hbad⟩
            · subst heq; exact absurd hbad hb
  exact key k (le_refl k) _ rfl

/-- `lfactorial` on a natural number, read exactly: `log(n!)`. -/
theorem lfactorial_nat (R : RMath ℝ) (hR : ExactSpecial R) (n : ℕ) :
    lfactorial R (fin (n : ℝ)) = fin (Real.log (n.factorial : ℝ)) := by
  have hpos : (0 : ℝ) < (n : ℝ) + 1 := by positivity
  rw [lfactorial, fin_add_fin, hR.lgammafn_fin _ hpos, Real.Gamma_nat_eq_factorial]

/-- C16 (amended): in exact arithmetic, for an element of `cpp_ddirmnom` with finite
entries, `size` a natural number and at least one column, read with the exact real
library:
if every `alpha_j > 0` and some `x_j` is negative or not an integer, or the `x_j` do
not sum to `size`, the log-probability is `-inf` (probability `0` after `exp`) and
the latch is left alone; if some `alpha_j <= 0` the value is `NaN` and the latch
is set; if every `alpha_j > 0`, every `x_j` is a natural number and they sum to
`size`, the log-probability is
`[log(size!) + lgamma(sum alpha)] - lgamma(size + sum alpha)
 + sum_j [lgamma(x_j + alpha_j) - (log(x_j!) + lgamma(alpha_j))]`. -/
theorem ddirmnom_validity (R : RMath ℝ) (hR : ExactSpecial R) (hC : ExactCmath R)
    (k N : ℕ) (hk : 0 < k)
    (xv av : ℕ → ℝ) (xrow arow : ℕ → Dbl ℝ)
    (hx : ∀ j, j < k → xrow j = fin (xv j)) (ha : ∀ j, j < k → arow j = fin (av j))
    (tw : Bool) :
    ((∀ j, j < k → 0 < av j) →
      ((∃ j, j < k ∧ (xv j < 0 ∨ ((Int.floor (xv j) : Int) : ℝ) ≠ xv j))
        ∨ ∑ j ∈ Finset.range k, xv j ≠ (N : ℝ)) →
      ddirmnom_elem R xrow arow (fin (N : ℝ)) k tw = (ninf, tw) ∧
      R.exp (ddirmnom_elem R xrow arow (fin (N : ℝ)) k tw).1 = fin 0) ∧
    ((∃ j, j < k ∧ av j ≤ 0) →
      ddirmnom_elem R xrow arow (fin (N : ℝ)) k tw = (nan, true)) ∧
    (∀ xn : ℕ → ℕ, (∀ j, j < k → xv j = (xn j : ℝ)) → (∀ j, j < k → 0 < av j) →
      ∑ j ∈ Finset.range k, xn j = N →
      ddirmnom_elem R xrow arow (fin (N : ℝ)) k tw
        = (fin ((Real.log (N.factorial : ℝ)
                  + Real.log (Real.Gamma (∑ j ∈ Finset.range k, av j)))
                - Real.log (Real.Gamma ((N : ℝ) + ∑ j ∈ Finset.range k, av j))
                + ∑ j ∈ Finset.range k,
                    (Real.log (Real.Gamma ((xn j : ℝ) + av j))
                      - (Real.log ((xn j).factorial : ℝ) + Real.log (Real.Gamma (av j))))),
           tw)) := by
  obtain ⟨s1, s2, s3, s4⟩ := ddirmnom_scan_fin xv av k xrow arow hx ha
  have hN0 : ¬ ((N : ℝ) < 0) := not_lt.mpr (Nat.cast_nonneg N)
  refine ⟨?_, ?_, ?_⟩
  · intro hpos hviol
    suffices h : ddirmnom_elem R xrow arow (fin (N : ℝ)) k tw = (ninf, tw) by
      exact ⟨h, by rw [h]; exact hC.exp_ninf⟩
    have hwp : (ddirmnom_scan xrow arow k).wrong_param = false := by
      rw [Bool.eq_false_iff]
      intro h
      obtain ⟨j, hj, hbad⟩ := s3.mp h
      exact absurd (hpos j hj) (not_lt.mpr hbad)
    have hcond : ((fin (∑ j ∈ Finset.range k, xv j)).lt (fin 0)
        || Dbl.ne (fin (∑ j ∈ Finset.range k, xv j)) (fin (N : ℝ))
        || (ddirmnom_scan xrow arow k).wrong_x) = true := by
      rcases hviol with hv | hv
      · rw [s4.mpr hv]; simp
      · simp [Dbl.ne, hv]
    simp only [ddirmnom_elem, s1, s2, hwp, fin_add_fin, isnan_fin, lt_fin_fin, hN0,
      isInteger_natCast, decide_False, Bool.or_false, Bool.not_true, Bool.false_eq_true,
      if_false]
    rw [lt_fin_fin] at hcond
    rw [if_pos hcond]
  · intro hbad
    have hwp := s3.mpr hbad
    simp only [ddirmnom_elem, s1, s2, hwp, fin_add_fin, isnan_fin, Bool.true_or,
      Bool.false_eq_true, if_false, if_true]
  · intro xn hxn hpos hsum
    have hwp : (ddirmnom_scan xrow arow k).wrong_param = false := by
      rw [Bool.eq_false_iff]
      intro h
      obtain ⟨j, hj, hbad⟩ := s3.mp h
      exact absurd (hpos j hj) (not_lt.mpr hbad)
    have hwx : (ddirmnom_scan xrow arow k).wrong_x = false := by
      rw [Bool.eq_false_iff]
      intro h
      obtain ⟨j, hj, hbad⟩ := s4.mp h
      rw [hxn j hj] at hbad
      rcases hbad with h1 | h1
      · exact absurd h1 (not_lt.mpr (Nat.cast_nonneg _))
      · exact h1 (by simp)
    have hsx : ∑ j ∈ Finset.range k, xv j = (N : ℝ) := by
      rw [← hsum, Nat.cast_sum]
      exact Finset.sum_congr rfl (fun j hj => hxn j (Finset.mem_range.mp hj))
    have hsa : 0 < ∑ j ∈ Finset.range k, av j :=
      Finset.sum_pos (fun j hj => hpos j (Finset.mem_range.mp hj))
        (Finset.nonempty_range_iff.mpr (Nat.pos_iff_ne_zero.mp hk))
    have hNsa : 0 < (N : ℝ) + ∑ j ∈ Finset.range k, av j := by positivity
    have hprod : (List.range k).foldl
        (fun acc j => acc + (R.lgammafn (xrow j + arow j)
                              - (lfactorial R (xrow j) + R.lgammafn (arow j)))) (fin 0)
        = fin (∑ j ∈ Finset.range k,
            (Real.log (Real.Gamma ((xn j : ℝ) + av j))
              - (Real.log ((xn j).factorial : ℝ) + Real.log (Real.Gamma (av j))))) := by
      rw [foldl_add_fin (List.range k) _
        (fun j => Real.log (Real.Gamma ((xn j : ℝ) + av j))
              - (Real.log ((xn j).factorial : ℝ) + Real.log (Real.Gamma (av j)))) _ 0,
        list_range_sum, zero_add]
      intro j hj
      have hj' : j < k := List.mem_range.mp hj
      have hxa : (0 : ℝ) < (xn j : ℝ) + av j := by
        have := hpos j hj'
        positivity
      rw [hx j hj', ha j hj', hxn j hj', fin_add_fin, hR.lgammafn_fin _ hxa, lfactorial_nat R hR,
        hR.lgammafn_fin _ (hpos j hj'), fin_add_fin, fin_sub_fin]
    simp only [ddirmnom_elem, s1, s2, hwp, hwx, hsx, fin_add_fin, isnan_fin, lt_fin_fin, hN0,
      isInteger_natCast, decide_False, Bool.or_false, Bool.not_true, Bool.false_eq_true,
      if_false, Dbl.ne, eq_fin_fin, decide_True, Bool.not_true, hprod, lfactorial_nat R hR,
      hR.lgammafn_fin _ hsa, hR.lgammafn_fin _ hNsa, fin_sub_fin]

/-- Witness for C16: `x = (3, 1)`, `alpha = (1, 1)`, `size = 2`: the row does not sum to `size`. -/
theorem ddirmnom_validity_witness :
    ddirmnom_elem exactMath (fun j => if j = 0 then fin 3 else fin 1) (fun _ => fin 1)
      (fin ((2 : ℕ) : ℝ)) 2 false = (ninf, false) :=
  ((ddirmnom_validity exactMath exactMath_exact exactMath_cmath 2 2 (by decide)
    (fun j => if j = 0 then 3 else 1) (fun _ => 1)
    (fun j => if j = 0 then fin 3 else fin 1) (fun _ => fin 1)
    (fun j _ => by by_cases h : j = 0 <;> simp [h]) (fun _ _ => rfl) false).1
    (fun _ _ => one_pos)
    (Or.inr (by simp [Finset.sum_range_succ]; norm_num))).1

/-- C16 (counterexample): with `x = (1, 1)`, `size = 2` and `alpha = (0, 1)`, `cpp_ddirmnom` returns
`NaN` and raises the warning, not `-inf` silently. With the infinite entries
`x = (+inf, 1)`, `alpha = (-inf, 1)`, no input is `NaN` but `sum_x + sum_alpha` is
`inf - inf = NaN`, and it returns `NaN` with no warning. In binary64 arithmetic the
same happens with finite entries: for `x = (2^1023, 2^1023)` and
`alpha = (-2^1023, -2^1023)` the sums overflow to `+inf` and `-inf`, and the element
is `NaN` with the latch unset. -/
theorem ddirmnom_nonpositive_alpha :
    cpp_ddirmnom exactMath ⟨1, 2, fun _ _ => fin 1⟩ [fin 2]
        ⟨1, 2, fun _ j => if j = 0 then fin 0 else fin 1⟩ true
      = .ok { value := [nan], warnings := ["NaNs produced"] } ∧
    cpp_ddirmnom exactMath ⟨1, 2, fun _ j => if j = 0 then pinf else fin 1⟩ [fin 2]
        ⟨1, 2, fun _ j => if j = 0 then ninf else fin 1⟩ true
      = .ok { value := [nan], warnings := [] } ∧
    F64.ddirmnom_elem unifMath (fun _ => fin (2 ^ 1023)) (fun _ => fin (-(2 ^ 1023)))
        (fin 2) 2 false
      = (nan, false) := by
  refine ⟨?_, ?_, by decide!⟩
  · simp [cpp_ddirmnom, Nat.max, Nat.min, List.range, List.range.loop, GETV, ddirmnom_elem,
      ddirmnom_scan]
  · have h : (fin (0 : ℝ) + pinf + fin 1 + (fin 0 + ninf + fin 1) + fin 2 : Dbl ℝ) = nan := rfl
    simp [cpp_ddirmnom, Nat.max, Nat.min, List.range, List.range.loop, GETV, ddirmnom_elem,
      ddirmnom_scan]
    rw [h]
    simp

/-- The value of an element of `cpp_ddirmnom` does not depend on the latch, which is
only ever raised. -/
theorem ddirmnom_elem_latch (R : RMath K) (xrow arow : Nat → Dbl K) (size_i : Dbl K) (k : Nat)
    (tw : Bool) :
    (ddirmnom_elem R xrow arow size_i k tw).1 = (ddirmnom_elem R xrow arow size_i k false).1 ∧
    (ddirmnom_elem R xrow arow size_i k tw).2
      = (tw || (ddirmnom_elem R xrow arow size_i k false).2) := by
  unfold ddirmnom_elem
  simp only
  split_ifs <;> simp

/-- When `x` has at least two and at most as many columns as `alpha`, `cpp_ddirmnom`
does not stop: it evaluates every element on the first `ncol(x)` columns. -/
theorem cpp_ddirmnom_elements (R : RMath K) (x : NumericMatrix K) (size : List (Dbl K))
    (alpha : NumericMatrix K) (log_prob : Bool) (h2 : 2 ≤ x.ncol) (hle : x.ncol ≤ alpha.ncol) :
    cpp_ddirmnom R x size alpha log_prob
      = .ok { value := (List.range (Nat.max (Nat.max x.nrow alpha.nrow) size.length)).map
                (fun i =>
                  if log_prob then
                    (ddirmnom_elem R (fun j => x.get (i % x.nrow) j)
                      (fun j => alpha.get (i % alpha.nrow) j) (GETV size i) x.ncol false).1
                  else
                    R.exp (ddirmnom_elem R (fun j => x.get (i % x.nrow) j)
                      (fun j => alpha.get (i % alpha.nrow) j) (GETV size i) x.ncol false).1),
              warnings :=
                if (List.range (Nat.max (Nat.max x.nrow alpha.nrow) size.length)).any
                    (fun i => (ddirmnom_elem R (fun j => x.get (i % x.nrow) j)
                      (fun j => alpha.get (i % alpha.nrow) j) (GETV size i) x.ncol false).2)
                then ["NaNs produced"] else [] } := by
  have hmin : Nat.min x.ncol alpha.ncol = x.ncol := Nat.min_eq_left hle
  have hfold := fill_fold (Nat.max (Nat.max x.nrow alpha.nrow) size.length) (fin (0 : K))
    (fun i tw => ddirmnom_elem R (fun j => x.get (i % x.nrow) j)
      (fun j => alpha.get (i % alpha.nrow) j) (GETV size i) x.ncol tw)
    (fun i b => (ddirmnom_elem_latch R _ _ _ _ b).1)
    (fun i b => (ddirmnom_elem_latch R _ _ _ _ b).2) false
  rw [Bool.false_or] at hfold
  unfold cpp_ddirmnom
  simp only [hmin, if_neg (not_lt.mpr h2), ne_eq, not_true_eq_false, if_false]
  rw [hfold]
  cases log_prob <;> simp [vmap]

/-- C17 (failing input): with `x` of 2 columns and `alpha` of 3 columns `cpp_ddirmnom` does not
stop, it returns a value computed on the first 2 columns of `alpha`; with `x` of 3
columns and `alpha` of 2 it stops with "number of columns in x does not equal
number of columns in alpha". -/
theorem cpp_ddirmnom_fewer_columns (R : RMath K) (log_prob : Bool) :
    (∃ res : Result K,
      cpp_ddirmnom R ⟨1, 2, fun _ _ => fin 1⟩ [fin 2] ⟨1, 3, fun _ _ => fin 1⟩ log_prob
        = .ok res ∧ res.value.length = 1 ∧ res.warnings = []) ∧
    cpp_ddirmnom R ⟨1, 3, fun _ _ => fin 1⟩ [fin 3] ⟨1, 2, fun _ _ => fin 1⟩ log_prob
      = .error "number of columns in x does not equal number of columns in alpha" := by
  constructor
  · refine ⟨_, cpp_ddirmnom_elements R ⟨1, 2, fun _ _ => fin 1⟩ [fin 2]
      ⟨1, 3, fun _ _ => fin 1⟩ log_prob (by simp) (by simp), by simp [Nat.max], ?_⟩
    simp [Nat.max, List.range, List.range.loop, GETV, ddirmnom_elem, ddirmnom_scan, Dbl.ne]
    norm_num
  · simp [cpp_ddirmnom, Nat.min]

/-! ## Beta-binomial distribution: parameter domain -/

/-- The guards of the beta-binomial family as they are written: for an element without
NaN, `pmf_bbinom` and `logpmf_bbinom` return `NaN` and set the latch when `alpha < 0` or `beta < 0` or `n < 0` or `n` is not an integer,
and otherwise leave the latch alone (so `alpha = 0` and `beta = 0` are valid for the
mass function); the loop body of `cpp_pbbinom` returns `NaN` and sets the latch
when `alpha <= 0` or `beta <= 0` or `size < 0` or `size` is not an integer, and
otherwise leaves the latch alone whenever it returns. -/
theorem bbinom_parameter_domain (R : RMath K) :
    (∀ (k n alpha beta : Dbl K) (tw : Bool),
      k.isnan = false → n.isnan = false → alpha.isnan = false → beta.isnan = false →
      (((alpha.lt (fin 0) || beta.lt (fin 0) || n.lt (fin 0) || !isInteger n false) = true →
        pmf_bbinom R k n alpha beta tw = (nan, true) ∧
        logpmf_bbinom R k n alpha beta tw = (nan, true)) ∧
       ((alpha.lt (fin 0) || beta.lt (fin 0) || n.lt (fin 0) || !isInteger n false) = false →
        (pmf_bbinom R k n alpha beta tw).2 = tw ∧
        (logpmf_bbinom R k n alpha beta tw).2 = tw))) ∧
    (∀ (x size alpha beta : List (Dbl K)) (mx : Dbl K) (s : PbbinomState K) (i : Nat),
      (GETV x i).isnan = false → (GETV size i).isnan = false →
      (GETV alpha i).isnan = false → (GETV beta i).isnan = false →
      ((((GETV alpha i).le (fin 0) || (GETV beta i).le (fin 0) || (GETV size i).lt (fin 0)
          || !isInteger (GETV size i) false) = true →
        cpp_pbbinom_body R x size alpha beta mx s i
          = .ok { s with throw_warning := true, p := s.p.set i nan }) ∧
       (((GETV alpha i).le (fin 0) || (GETV beta i).le (fin 0) || (GETV size i).lt (fin 0)
          || !isInteger (GETV size i) false) = false →
        ∀ s1 : PbbinomState K, cpp_pbbinom_body R x size alpha beta mx s i = .ok s1 →
          s1.throw_warning = s.throw_warning))) := by
  constructor
  · intro k n alpha beta tw hk hn ha hb
    constructor
    · intro hg
      simp only [pmf_bbinom, logpmf_bbinom, hk, hn, ha, hb, Bool.or_self, Bool.false_eq_true,
        if_false, hg, if_true, and_self]
    · intro hg
      simp only [pmf_bbinom, logpmf_bbinom, hk, hn, ha, hb, Bool.or_self, Bool.false_eq_true,
        if_false, hg]
      constructor <;> split_ifs <;> rfl
  · intro x size alpha beta mx s i hx hn ha hb
    constructor
    · intro hg
      simp only [cpp_pbbinom_body, hx, hn, ha, hb, Bool.or_self, Bool.false_eq_true, if_false,
        hg, if_true]
    · intro hg s1 h
      simp only [cpp_pbbinom_body, hx, hn, ha, hb, Bool.or_self, Bool.false_eq_true, if_false,
        hg] at h
      split_ifs at h
      all_goals try (cases h; rfl)
      all_goals (repeat' (split at h))
      all_goals (cases h; try rfl)

/-- An instance of `bbinom_parameter_domain`: the loop body of `cpp_pbbinom` at
`alpha = -1`. -/
theorem bbinom_parameter_domain_witness :
    cpp_pbbinom_body unifMath [fin 1] [fin 3] [fin (-1)] [fin 1] (fin 1)
        { p := [fin 0], throw_warning := false, memo := [], warnings := [] } 0
      = .ok { p := [nan], throw_warning := true, memo := [], warnings := [] } :=
  ((bbinom_parameter_domain unifMath).2 [fin 1] [fin 3] [fin (-1)] [fin 1] (fin 1)
    { p := [fin 0], throw_warning := false, memo := [], warnings := [] } 0
    (by simp [GETV]) (by simp [GETV]) (by simp [GETV]) (by simp [GETV])).1 (by simp [GETV])

/-- C18 (failing input): at `alpha = 0`, `beta = 1`, `size = 3`, `x = 1`, `cpp_pbbinom`
(guard `alpha <= 0.0`) returns `NaN` with the warning, while the siblings `pmf_bbinom`
and `logpmf_bbinom` (guard `alpha < 0.0`) leave the latch unset: the domain is not the
same across the family. -/
theorem pbbinom_rejects_zero_alpha :
    cpp_pbbinom unifMath [fin 1] [fin 3] [fin 0] [fin 1] true false
      = .ok { value := [nan], warnings := ["NaNs produced"] } ∧
    (pmf_bbinom unifMath (fin 1) (fin 3) (fin 0) (fin 1) false).2 = false ∧
    (logpmf_bbinom unifMath (fin 1) (fin 3) (fin 0) (fin 1) false).2 = false := by
  refine ⟨?_, ?_, ?_⟩
  · simp [cpp_pbbinom, cpp_pbbinom_loop, cpp_pbbinom_body, Nat.max, List.range, List.range.loop,
      GETV]
  · simp [pmf_bbinom]
    norm_num
  · simp [logpmf_bbinom]
    norm_num

/-! ## Mixture of normals: selection of the component -/

/-- For an element of `cpp_rmixnorm` with finite means, non-negative finite scales
and weights, and a finite `nans_sum` on entry, the walk is run with
`alpha_tot = a_0 + ... + a_{k-1}` and the uniform draw `u`, and `x[i]` is the normal
draw for the selected component; the latch is not raised. -/
theorem rmixnorm_elem_exact (G : NormRNG K) (m sg a : Nat → K) (k : Nat)
    (mrow srow arow : Nat → Dbl K)
    (hm : ∀ j, j < k → mrow j = fin (m j)) (hs : ∀ j, j < k → srow j = fin (sg j))
    (ha : ∀ j, j < k → arow j = fin (a j))
    (hsg : ∀ j, j < k → 0 ≤ sg j) (ha0 : ∀ j, j < k → 0 ≤ a j) (ns : K) (draws : Nat) :
    (rmixnorm_elem G mrow srow arow k (fin ns) draws).1
      = G.rnorm (draws + 1)
          (mrow (rmixnorm_walk arow (fin (∑ j ∈ Finset.range k, a j)) (G.rng_unif draws)
            (List.range k).reverse (fin 1)))
          (srow (rmixnorm_walk arow (fin (∑ j ∈ Finset.range k, a j)) (G.rng_unif draws)
            (List.range k).reverse (fin 1))) ∧
    (rmixnorm_elem G mrow srow arow k (fin ns) draws).2.1 = false := by
  obtain ⟨⟨ns1, p1⟩, -, p3, p4⟩ := pmixnorm_scan_fin m sg a k mrow srow arow hm hs ha k 0
    { wrong_param := false, alpha_tot := fin 0, nans_sum := fin ns } ns 0 (by omega) rfl rfl rfl
  simp only [← List.range_eq_range', Nat.zero_add, zero_add, Nat.zero_le, true_and] at p1 p3 p4
  have hno : ¬ ∃ j, j < k ∧ (a j < 0 ∨ sg j < 0) := by
    rintro ⟨j, hj, hbad⟩
    rcases hbad with h1 | h1
    · exact absurd h1 (not_lt.mpr (ha0 j hj))
    · exact absurd h1 (not_lt.mpr (hsg j hj))
  have hw : (pmixnorm_scan mrow srow arow (List.range k)
      { wrong_param := false, alpha_tot := fin 0, nans_sum := fin ns }).wrong_param = false := by
    rw [Bool.eq_false_iff]
    exact fun h => hno (p3.mp h)
  have hat := p4 hno
  simp only [rmixnorm_elem, p1, hat, hw, fin_add_fin, isnan_fin, Bool.or_self, Bool.false_eq_true,
    if_false, and_self]

/-- The backward walk of `cpp_rmixnorm` started at column `n - 1` with the running
mass `w_0 + ... + w_{n-1}`: it stops at the largest `j < n` whose preceding mass
`w_0 + ... + w_{j-1}` is below `u`. -/
theorem rmixnorm_walk_exact (a : Nat → K) (T u : K) (hT : T ≠ 0) (hu : 0 < u) (k : Nat)
    (arow : Nat → Dbl K) (harow : ∀ j, j < k → arow j = fin (a j)) :
    ∀ n, 0 < n → n ≤ k →
      rmixnorm_walk arow (fin T) (fin u) (List.range n).reverse
          (fin (∑ i ∈ Finset.range n, a i / T)) < n ∧
      ∑ i ∈ Finset.range
          (rmixnorm_walk arow (fin T) (fin u) (List.range n).reverse
            (fin (∑ i ∈ Finset.range n, a i / T))), a i / T < u ∧
      ∀ j, rmixnorm_walk arow (fin T) (fin u) (List.range n).reverse
            (fin (∑ i ∈ Finset.range n, a i / T)) < j → j < n →
        u ≤ ∑ i ∈ Finset.range j, a i / T := by
  intro n
  induction n with
  | zero => intro h; exact absurd h (lt_irrefl 0)
  | succ n ih =>
    intro _ hn
    have hnk : n < k := hn
    have hstep : (fin (∑ i ∈ Finset.range (n + 1), a i / T) - arow n / fin T : Dbl K)
        = fin (∑ i ∈ Finset.range n, a i / T) := by
      rw [harow n hnk, fin_div_fin _ _ hT, fin_sub_fin, Finset.sum_range_succ,
        add_sub_cancel_right]
    rw [List.range_succ, List.reverse_append, List.reverse_singleton, List.singleton_append]
    simp only [rmixnorm_walk, hstep, gt_fin_fin, decide_eq_true_eq]
    by_cases hsel : ∑ i ∈ Finset.range n, a i / T < u
    · rw [if_pos hsel]
      exact ⟨Nat.lt_succ_self n, hsel, fun j h1 h2 => absurd h2 (by omega)⟩
    · rw [if_neg hsel]
      have hn0 : 0 < n := by
        rcases Nat.eq_zero_or_pos n with h0 | h0
        · subst h0
          exact absurd (by simpa using hu) hsel
        · exact h0
      obtain ⟨h1, h2, h3⟩ := ih hn0 (Nat.le_of_succ_le hn)
      refine ⟨Nat.lt_succ_of_lt h1, h2, ?_⟩
      intro j hj1 hj2
      rcases Nat.lt_succ_iff_lt_or_eq.mp hj2 with hlt | heq
      · exact h3 j hj1 hlt
      · subst heq
        exact not_lt.mp hsel

/-- C19: for weights `a_j >= 0` with positive total and normalised weights
`w_j = a_j / total`, and a uniform draw `0 < u < 1`, the backward walk of
`cpp_rmixnorm` selects an index `jj < k` with `w_0 + ... + w_{jj-1} < u <= w_0 + ... + w_jj`;
it is the smallest `j` with `u <= w_0 + ... + w_j` and the largest `j` with
`w_0 + ... + w_{j-1} < u`, and its weight is positive. -/
theorem rmixnorm_selects_inverse_cdf (a : Nat → K) (k : Nat) (hk : 0 < k)
    (ha : ∀ j, j < k → 0 ≤ a j) (hT : 0 < ∑ j ∈ Finset.range k, a j)
    (u : K) (hu0 : 0 < u) (hu1 : u < 1)
    (arow : Nat → Dbl K) (harow : ∀ j, j < k → arow j = fin (a j)) :
    rmixnorm_walk arow (fin (∑ j ∈ Finset.range k, a j)) (fin u) (List.range k).reverse (fin 1)
      < k ∧
    ∑ i ∈ Finset.range
        (rmixnorm_walk arow (fin (∑ j ∈ Finset.range k, a j)) (fin u) (List.range k).reverse
          (fin 1)), a i / (∑ j ∈ Finset.range k, a j) < u ∧
    u ≤ ∑ i ∈ Finset.range
        (rmixnorm_walk arow (fin (∑ j ∈ Finset.range k, a j)) (fin u) (List.range k).reverse
          (fin 1) + 1), a i / (∑ j ∈ Finset.range k, a j) ∧
    (∀ j, j < rmixnorm_walk arow (fin (∑ j ∈ Finset.range k, a j)) (fin u)
          (List.range k).reverse (fin 1) →
      ¬ u ≤ ∑ i ∈ Finset.range (j + 1), a i / (∑ j ∈ Finset.range k, a j)) ∧
    (∀ j, rmixnorm_walk arow (fin (∑ j ∈ Finset.range k, a j)) (fin u)
          (List.range k).reverse (fin 1) < j → j < k →
      ¬ ∑ i ∈ Finset.range j, a i / (∑ j ∈ Finset.range k, a j) < u) ∧
    0 < a (rmixnorm_walk arow (fin (∑ j ∈ Finset.range k, a j)) (fin u)
          (List.range k).reverse (fin 1)) := by
  have hone : ∑ i ∈ Finset.range k, a i / (∑ j ∈ Finset.range k, a j) = 1 := by
    rw [← Finset.sum_div, div_self (ne_of_gt hT)]
  have hwalk := rmixnorm_walk_exact a (∑ j ∈ Finset.range k, a j) u (ne_of_gt hT) hu0 k arow
    harow k hk (le_refl k)
  rw [hone] at hwalk
  obtain ⟨h1, h2, h3⟩ := hwalk
  generalize rmixnorm_walk arow (fin (∑ j ∈ Finset.range k, a j)) (fin u)
    (List.range k).reverse (fin 1) = jj at h1 h2 h3 ⊢
  have hw : ∀ i, i < k → 0 ≤ a i / (∑ j ∈ Finset.range k, a j) :=
    fun i hi => div_nonneg (ha i hi) (le_of_lt hT)
  have hmono : ∀ p q, p ≤ q → q ≤ k →
      ∑ i ∈ Finset.range p, a i / (∑ j ∈ Finset.range k, a j)
        ≤ ∑ i ∈ Finset.range q, a i / (∑ j ∈ Finset.range k, a j) := by
    intro p q hpq hqk
    apply Finset.sum_le_sum_of_subset_of_nonneg
    · intro i hi
      rw [Finset.mem_range] at hi ⊢
      omega
    · intro i hi _
      exact hw i (by have := Finset.mem_range.mp hi; omega)
  have hnext : u ≤ ∑ i ∈ Finset.range (jj + 1), a i / (∑ j ∈ Finset.range k, a j) := by
    rcases Nat.lt_or_ge (jj + 1) k with hlt | hge
    · exact h3 (jj + 1) (Nat.lt_succ_self jj) hlt
    · have : jj + 1 = k := by omega
      rw [this, hone]
      exact le_of_lt hu1
  refine ⟨h1, h2, hnext, ?_, ?_, ?_⟩
  · intro j hj hle
    have := hmono (j + 1) jj hj (le_of_lt h1)
    exact absurd (lt_of_le_of_lt (le_trans hle this) h2) (lt_irrefl u)
  · intro j hj hjk hlt
    exact absurd (lt_of_lt_of_le hlt (h3 j hj hjk)) (lt_irrefl _)
  · rw [Finset.sum_range_succ] at hnext
    have hwpos : 0 < a jj / (∑ j ∈ Finset.range k, a j) := by linarith
    by_contra hneg
    have hz : a jj = 0 := le_antisymm (not_lt.mp hneg) (ha jj h1)
    rw [hz, zero_div] at hwpos
    exact lt_irrefl _ hwpos

/-- Witness for C19: weights `(1, 0, 1)` and `u = 3/4`. -/
theorem rmixnorm_selects_inverse_cdf_witness :
    rmixnorm_walk (fun j => if j = 1 then fin (0 : ℚ) else fin 1) (fin (∑ j ∈ Finset.range 3,
        (if j = 1 then (0 : ℚ) else 1))) (fin (3 / 4)) (List.range 3).reverse (fin 1) < 3 :=
  (rmixnorm_selects_inverse_cdf (fun j => if j = 1 then (0 : ℚ) else 1) 3 (by decide)
    (fun j _ => by by_cases h : j = 1 <;> simp [h])
    (by simp [Finset.sum_range_succ]) (3 / 4) (by norm_num) (by norm_num)
    (fun j => if j = 1 then fin (0 : ℚ) else fin 1)
    (fun j _ => by by_cases h : j = 1 <;> simp [h])).1

/-! ## Beta prime distribution: log-density -/

/-- C20: with the external functions read exactly, for real `alpha, beta, sigma, x > 0` and
`z = x / sigma`, `logpdf_betapr` is
`log(z^(alpha-1)) + log((z+1)^(-alpha-beta)) - log Beta(alpha, beta) - log(sigma)`, the
logarithm of `pdf_betapr` is equal to it, and `cpp_dbetapr` with `log_prob = true`
returns that value with no warning. -/
theorem betapr_log_density (R : RMath ℝ) (hR : ExactSpecial R) (hC : ExactCmath R)
    (alpha beta sigma x : ℝ) (ha : 0 < alpha) (hb : 0 < beta) (hs : 0 < sigma) (hx : 0 < x) :
    logpdf_betapr R (fin x) (fin alpha) (fin beta) (fin sigma) false
      = (fin (Real.log ((x / sigma) ^ (alpha - 1)) + Real.log ((x / sigma + 1) ^ (-alpha - beta))
            - Real.log (exactBeta alpha beta) - Real.log sigma), false) ∧
    R.log (pdf_betapr R (fin x) (fin alpha) (fin beta) (fin sigma) false).1
      = (logpdf_betapr R (fin x) (fin alpha) (fin beta) (fin sigma) false).1 ∧
    cpp_dbetapr R [fin x] [fin alpha] [fin beta] [fin sigma] true
      = { value := [(logpdf_betapr R (fin x) (fin alpha) (fin beta) (fin sigma) false).1],
          warnings := [] } := by
  have hz : 0 < x / sigma := div_pos hx hs
  have hz1 : 0 < x / sigma + 1 := by linarith
  have hp1 : 0 < (x / sigma) ^ (alpha - 1) := Real.rpow_pos_of_pos hz _
  have hp2 : 0 < (x / sigma + 1) ^ (-alpha - beta) := Real.rpow_pos_of_pos hz1 _
  have hB := exactBeta_pos ha hb
  have hlog : logpdf_betapr R (fin x) (fin alpha) (fin beta) (fin sigma) false
      = (fin (Real.log ((x / sigma) ^ (alpha - 1))
            + Real.log ((x / sigma + 1) ^ (-alpha - beta))
            - Real.log (exactBeta alpha beta) - Real.log sigma), false) := by
    simp only [logpdf_betapr, isnan_fin, Bool.or_self, Bool.false_eq_true, if_false, le_fin_fin,
      not_le.mpr ha, not_le.mpr hb, not_le.mpr hs, not_le.mpr hx, decide_False, finite_fin,
      Bool.not_true, fin_div_fin _ _ (ne_of_gt hs), fin_sub_fin, fin_add_fin, neg_fin,
      hC.pow_fin _ _ hz, hC.pow_fin _ _ hz1, hR.log_fin _ hp1, hR.log_fin _ hp2,
      hR.lbeta_fin _ _ ha hb, hR.log_fin _ hs]
  have hpdf : pdf_betapr R (fin x) (fin alpha) (fin beta) (fin sigma) false
      = (fin ((x / sigma) ^ (alpha - 1) * (x / sigma + 1) ^ (-alpha - beta)
            / exactBeta alpha beta / sigma), false) := by
    simp only [pdf_betapr, isnan_fin, Bool.or_self, Bool.false_eq_true, if_false, le_fin_fin,
      not_le.mpr ha, not_le.mpr hb, not_le.mpr hs, not_le.mpr hx, decide_False, finite_fin,
      Bool.not_true, fin_div_fin _ _ (ne_of_gt hs), fin_sub_fin, fin_add_fin, neg_fin,
      hC.pow_fin _ _ hz, hC.pow_fin _ _ hz1, fin_mul_fin, hR.beta_fin _ _ ha hb,
      fin_div_fin _ _ (ne_of_gt hB)]
  have hval : 0 < (x / sigma) ^ (alpha - 1) * (x / sigma + 1) ^ (-alpha - beta)
      / exactBeta alpha beta / sigma :=
    div_pos (div_pos (mul_pos hp1 hp2) hB) hs
  have heq : R.log (pdf_betapr R (fin x) (fin alpha) (fin beta) (fin sigma) false).1
      = (logpdf_betapr R (fin x) (fin alpha) (fin beta) (fin sigma) false).1 := by
    rw [hpdf, hlog]
    simp only
    rw [hR.log_fin _ hval, Real.log_div (ne_of_gt (div_pos (mul_pos hp1 hp2) hB)) (ne_of_gt hs),
      Real.log_div (ne_of_gt (mul_pos hp1 hp2)) (ne_of_gt hB),
      Real.log_mul (ne_of_gt hp1) (ne_of_gt hp2)]
  refine ⟨hlog, heq, ?_⟩
  rw [← heq, hpdf]
  simp [cpp_dbetapr, Nat.max, List.range, List.range.loop, GETV, vmap, hpdf]

/-- Witness for C20: `x = 2`, `alpha = 1`, `beta = 3`, `sigma = 4`, exact real library. -/
theorem betapr_log_density_witness :
    exactMath.log (pdf_betapr exactMath (fin 2) (fin 1) (fin 3) (fin 4) false).1
      = (logpdf_betapr exactMath (fin 2) (fin 1) (fin 3) (fin 4) false).1 :=
  (betapr_log_density exactMath exactMath_exact exactMath_cmath 1 3 4 2 (by norm_num)
    (by norm_num) (by norm_num) (by norm_num)).2.1

/-! ## NaN propagation and warning aggregation on the other paths -/

/-- A sum of four doubles one of which is `NaN` is `NaN`. -/
theorem add4_nan (a b c d : Dbl K) (h : (a.isnan || b.isnan || c.isnan || d.isnan) = true) :
    a + b + c + d = nan := by
  simp only [Bool.or_eq_true, isnan_iff] at h
  rcases h with ((h | h) | h) | h <;> subst h <;> simp

/-- A sum of three doubles one of which is `NaN` is `NaN`. -/
theorem add3_nan (a b c : Dbl K) (h : (a.isnan || b.isnan || c.isnan) = true) :
    a + b + c = nan := by
  simp only [Bool.or_eq_true, isnan_iff] at h
  rcases h with (h | h) | h <;> subst h <;> simp

/-- The scalar kernels return `NaN` and leave the latch alone (and raise no warning)
as soon as one of their inputs is `NaN`. -/
theorem scalar_kernels_propagate_nan (R : RMath K) (tw : Bool) :
    (∀ k n alpha beta : Dbl K, (k.isnan || n.isnan || alpha.isnan || beta.isnan) = true →
      pmf_bbinom R k n alpha beta tw = (nan, tw) ∧
      logpmf_bbinom R k n alpha beta tw = (nan, tw)) ∧
    (∀ x alpha beta sigma : Dbl K,
      (x.isnan || alpha.isnan || beta.isnan || sigma.isnan) = true →
      pdf_betapr R x alpha beta sigma tw = (nan, tw) ∧
      logpdf_betapr R x alpha beta sigma tw = (nan, tw) ∧
      cdf_betapr R x alpha beta sigma tw = (nan, tw) ∧
      invcdf_betapr R x alpha beta sigma tw = (nan, tw)) ∧
    (∀ x min max : Dbl K, (x.isnan || min.isnan || max.isnan) = true →
      pmf_dunif x min max tw = (nan, tw) ∧ cdf_dunif x min max tw = (nan, tw) ∧
      invcdf_dunif x min max tw = (nan, tw)) ∧
    (∀ p lambda : Dbl K, (p.isnan || lambda.isnan) = true →
      invcdf_tlambda R p lambda = (nan, [])) ∧
    (∀ (x size alpha beta : List (Dbl K)) (mx : Dbl K) (s : PbbinomState K) (i : Nat),
      ((GETV x i).isnan || (GETV size i).isnan || (GETV alpha i).isnan
        || (GETV beta i).isnan) = true →
      cpp_pbbinom_body R x size alpha beta mx s i = .ok { s with p := s.p.set i nan }) := by
  refine ⟨?_, ?_, ?_, ?_, ?_⟩
  · intro k n alpha beta h
    simp only [pmf_bbinom, logpmf_bbinom, h, if_true, add4_nan _ _ _ _ h, and_self]
  · intro x alpha beta sigma h
    simp only [pdf_betapr, logpdf_betapr, cdf_betapr, invcdf_betapr, h, if_true,
      add4_nan _ _ _ _ h, and_self]
  · intro x min max h
    simp only [pmf_dunif, cdf_dunif, invcdf_dunif, h, if_true, add3_nan _ _ _ h, and_self]
  · intro p lambda h
    simp only [invcdf_tlambda, h, if_true]
  · intro x size alpha beta mx s i h
    simp only [cpp_pbbinom_body, h, if_true, add4_nan _ _ _ _ h]

/-- A running sum over a range containing a `NaN` term is `NaN`. -/
theorem foldl_add_mem_nan (l : List Nat) (F : Nat → Dbl K) (j : Nat) (hj : j ∈ l)
    (hF : F j = nan) (p0 : Dbl K) : l.foldl (fun acc i => acc + F i) p0 = nan := by
  induction l generalizing p0 with
  | nil => cases hj
  | cons a l ih =>
    rcases List.mem_cons.mp hj with h | h
    · subst h
      simp only [List.foldl_cons, hF, add_nan]
      exact foldl_add_nan l F
    · simp only [List.foldl_cons]
      exact ih h _

/-- The sums kept by the scan of `cpp_dmixnorm`. -/
theorem dmixnorm_scan_sums (mrow srow arow : Nat → Dbl K) (k : Nat) :
    (dmixnorm_scan mrow srow arow k).nans_sum
      = (List.range k).foldl (fun acc j => acc + (mrow j + srow j)) (fin 0) ∧
    (dmixnorm_scan mrow srow arow k).alpha_tot
      = (List.range k).foldl (fun acc j => acc + arow j) (fin 0) := by
  unfold dmixnorm_scan
  induction k with
  | zero => simp
  | succ n ih =>
    simp only [List.range_succ, List.foldl_append, List.foldl_cons, List.foldl_nil]
    rw [ih.1, ih.2]
    exact ⟨rfl, rfl⟩

/-- The sums kept by the scan of `cpp_ddirmnom`. -/
theorem ddirmnom_scan_sums (xrow arow : Nat → Dbl K) (k : Nat) :
    (ddirmnom_scan xrow arow k).sum_x
      = (List.range k).foldl (fun acc j => acc + xrow j) (fin 0) ∧
    (ddirmnom_scan xrow arow k).sum_alpha
      = (List.range k).foldl (fun acc j => acc + arow j) (fin 0) := by
  unfold ddirmnom_scan
  induction k with
  | zero => simp
  | succ n ih =>
    simp only [List.range_succ, List.foldl_append, List.foldl_cons, List.foldl_nil]
    rw [ih.1, ih.2]
    exact ⟨rfl, rfl⟩

/-- The elements of `cpp_dmixnorm` and `cpp_ddirmnom` are `NaN`, with the latch left
alone, as soon as one of their inputs is `NaN`, whatever the other inputs are. -/
theorem matrix_kernels_propagate_nan (R : RMath K) (tw : Bool) (k : Nat) :
    (∀ (xi : Dbl K) (mrow srow arow : Nat → Dbl K),
      (xi = nan ∨ ∃ j, j < k ∧ (mrow j = nan ∨ srow j = nan ∨ arow j = nan)) →
      dmixnorm_elem R xi mrow srow arow k tw = (nan, tw)) ∧
    (∀ (xrow arow : Nat → Dbl K) (size_i : Dbl K),
      (size_i = nan ∨ ∃ j, j < k ∧ (xrow j = nan ∨ arow j = nan)) →
      ddirmnom_elem R xrow arow size_i k tw = (nan, tw)) := by
  constructor
  · intro xi mrow srow arow h
    obtain ⟨h1, h2⟩ := dmixnorm_scan_sums mrow srow arow k
    have hsum : (dmixnorm_scan mrow srow arow k).nans_sum
        + (dmixnorm_scan mrow srow arow k).alpha_tot + xi = nan := by
      rcases h with h | ⟨j, hj, h | h | h⟩
      · subst h; simp
      · rw [h1, foldl_add_mem_nan _ (fun j => mrow j + srow j) j (List.mem_range.mpr hj)
          (by simp [h])]
        simp
      · rw [h1, foldl_add_mem_nan _ (fun j => mrow j + srow j) j (List.mem_range.mpr hj)
          (by simp [h])]
        simp
      · rw [h2, foldl_add_mem_nan _ arow j (List.mem_range.mpr hj) h]
        simp
    simp only [dmixnorm_elem, hsum, isnan_nan, if_true]
  · intro xrow arow size_i h
    obtain ⟨h1, h2⟩ := ddirmnom_scan_sums xrow arow k
    have hsum : (ddirmnom_scan xrow arow k).sum_x
        + (ddirmnom_scan xrow arow k).sum_alpha + size_i = nan := by
      rcases h with h | ⟨j, hj, h | h⟩
      · subst h; simp
      · rw [h1, foldl_add_mem_nan _ xrow j (List.mem_range.mpr hj) h]
        simp
      · rw [h2, foldl_add_mem_nan _ arow j (List.mem_range.mpr hj) h]
        simp
    simp only [ddirmnom_elem, hsum, isnan_nan, if_true]

/-- The exports that aggregate through the latch raise at most one warning. -/
theorem latch_exports_warn_once (R : RMath K) :
    (∀ x size alpha beta lp, (cpp_dbbinom R x size alpha beta lp).warnings.length ≤ 1) ∧
    (∀ x alpha beta sigma lp, (cpp_dbetapr R x alpha beta sigma lp).warnings.length ≤ 1) ∧
    (∀ x alpha beta sigma lt lp, (cpp_pbetapr R x alpha beta sigma lt lp).warnings.length ≤ 1) ∧
    (∀ p alpha beta sigma lt lp, (cpp_qbetapr R p alpha beta sigma lt lp).warnings.length ≤ 1) ∧
    (∀ x min max lp, (cpp_ddunif R x min max lp).warnings.length ≤ 1) ∧
    (∀ x min max lt lp, (cpp_pdunif R x min max lt lp).warnings.length ≤ 1) ∧
    (∀ p min max lt lp, (cpp_qdunif R p min max lt lp).warnings.length ≤ 1) ∧
    (∀ x size alpha lp r, cpp_ddirmnom R x size alpha lp = .ok r → r.warnings.length ≤ 1) ∧
    (∀ x mu sigma alpha lp r, cpp_dmixnorm R x mu sigma alpha lp = .ok r →
      r.warnings.length ≤ 1) ∧
    (∀ x mu sigma alpha lt lp r, cpp_pmixnorm R x mu sigma alpha lt lp = .ok r →
      r.warnings.length ≤ 1) := by
  refine ⟨?_, ?_, ?_, ?_, ?_, ?_, ?_, ?_, ?_, ?_⟩
  · intro x size alpha beta lp
    simp only [cpp_dbbinom]; split_ifs <;> simp
  · intro x alpha beta sigma lp
    simp only [cpp_dbetapr]; split_ifs <;> simp
  · intro x alpha beta sigma lt lp
    simp only [cpp_pbetapr]; split_ifs <;> simp
  · intro p alpha beta sigma lt lp
    simp only [cpp_qbetapr]; split_ifs <;> simp
  · intro x min max lp
    simp only [cpp_ddunif]; split_ifs <;> simp
  · intro x min max lt lp
    simp only [cpp_pdunif]; split_ifs <;> simp
  · intro p min max lt lp
    simp only [cpp_qdunif]; split_ifs <;> simp
  · intro x size alpha lp r h
    simp only [cpp_ddirmnom] at h
    split_ifs at h <;> cases h <;> simp
  · intro x mu sigma alpha lp r h
    simp only [cpp_dmixnorm] at h
    split_ifs at h <;> cases h <;> simp
  · intro x mu sigma alpha lt lp r h
    simp only [cpp_pmixnorm] at h
    split_ifs at h <;> cases h <;> simp

/-! ## Discrete uniform sampler and quantile -/

/-- For integers `min < max` and every draw `u` with `min - 1 < u <= max`, `rng_dunif`
returns `ceil(u)` after one draw, `ceil(u)` is an integer of `[min, max]`,
and `ceil(u) = k` exactly for the draws of `(k - 1, k]`; for `min = max` the result is
`min` and no draw is made. -/
theorem rng_dunif_support (G : UnifRNG K) (min max : Int) (tw : Bool) (draws : Nat) :
    (min < max → ∀ u : K, ((min : K) - 1 < u) → u ≤ (max : K) →
      G.runif draws (fin ((min : K) - 1)) (fin (max : K)) = fin u →
      rng_dunif G (fin (min : K)) (fin (max : K)) tw draws
        = (fin ((Int.ceil u : Int) : K), tw, draws + 1) ∧
      min ≤ Int.ceil u ∧ Int.ceil u ≤ max ∧
      ∀ k : Int, (Int.ceil u = k ↔ ((k : K) - 1 < u ∧ u ≤ (k : K)))) ∧
    rng_dunif G (fin (min : K)) (fin (min : K)) tw draws = (fin (min : K), tw, draws) := by
  constructor
  · intro hlt u hu0 hu1 hdraw
    have h1 : ¬ ((max : K) < (min : K)) := by exact_mod_cast not_lt.mpr (le_of_lt hlt)
    have h2 : ¬ ((min : K) = (max : K)) := by exact_mod_cast ne_of_lt hlt
    refine ⟨?_, ?_, ?_, ?_⟩
    · simp [rng_dunif, h1, h2, hdraw]
    · have : min - 1 < Int.ceil u := by
        rw [Int.lt_ceil]; push_cast; exact hu0
      omega
    · rw [Int.ceil_le]; exact hu1
    · intro k
      rw [Int.ceil_eq_iff]
  · simp [rng_dunif]

/-- C21 (failing input): `rng_dunif(min = 2^40 + 1, max = 2^40 + 4)` when the draw of
`unif_rand()` inside `R::runif(min - 1, max)` is `u = 2^-32`: the uniform variate
`2^40 + 4 * 2^-32` rounds to `2^40 = min - 1` in binary64, its ceiling is `min - 1`, and
the sampler returns a value below `min`, outside the support. -/
theorem rng_dunif_below_support :
    F64.runif (pow2 (-32)) (fin (2 ^ 40)) (fin (2 ^ 40 + 4)) = fin (2 ^ 40) ∧
    rng_dunif ⟨fun _ a b => F64.runif (pow2 (-32)) a b⟩ (fin (2 ^ 40 + 1)) (fin (2 ^ 40 + 4))
        false 0
      = (fin (2 ^ 40), false, 1) ∧
    Dbl.lt (rng_dunif ⟨fun _ a b => F64.runif (pow2 (-32)) a b⟩ (fin (2 ^ 40 + 1))
        (fin (2 ^ 40 + 4)) false 0).1 (fin (2 ^ 40 + 1)) = true := by
  decide!

/-- The CDF at an integer of the support. -/
theorem cdf_dunif_int (min max x : Int) (h1 : min ≤ x) (h2 : x ≤ max) :
    cdf_dunif (fin (x : K)) (fin (min : K)) (fin (max : K)) false
      = (fin (((x : K) - min + 1) / ((max : K) - min + 1)), false) := by
  have h : min ≤ max := le_trans h1 h2
  have h' : ¬ ((max : K) < (min : K)) := by exact_mod_cast not_lt.mpr h
  have hx1 : ¬ ((x : K) < (min : K)) := by exact_mod_cast not_lt.mpr h1
  have hw := width_pos (K := K) min max h
  by_cases hx : x = max
  · subst hx
    simp only [cdf_dunif, isnan_fin, Bool.or_self, Bool.false_eq_true, if_false, gt_fin_fin, h',
      decide_False, finite_fin, Bool.not_true, isInteger_intCast, Bool.or_false, lt_fin_fin,
      ge_fin_fin, le_refl, decide_True, if_true, div_self (ne_of_gt hw)]
  · have hlt : x < max := lt_of_le_of_ne h2 hx
    have hx2 : ¬ ((max : K) ≤ (x : K)) := by exact_mod_cast not_le.mpr hlt
    simp only [cdf_dunif, isnan_fin, Bool.or_self, Bool.false_eq_true, if_false, gt_fin_fin, h',
      decide_False, finite_fin, Bool.not_true, isInteger_intCast, Bool.or_false, lt_fin_fin, hx1,
      ge_fin_fin, hx2, floor_fin, Int.floor_intCast, fin_sub_fin, fin_add_fin,
      fin_div_fin _ _ (ne_of_gt hw)]

/-- The CDF just below the support. -/
theorem cdf_dunif_below (min max : Int) (h : min ≤ max) :
    cdf_dunif (fin (((min - 1 : Int)) : K)) (fin (min : K)) (fin (max : K)) false
      = (fin 0, false) := by
  have h' : ¬ ((max : K) < (min : K)) := by exact_mod_cast not_lt.mpr h
  have hx : (((min - 1 : Int)) : K) < (min : K) := by exact_mod_cast (show min - 1 < min by omega)
  simp only [cdf_dunif, isnan_fin, Bool.or_self, Bool.false_eq_true, if_false, gt_fin_fin, h',
    decide_False, finite_fin, Bool.not_true, isInteger_intCast, Bool.or_false, lt_fin_fin, hx,
    decide_True, if_true]

/-- The quantile as an integer: `min - 1 + ceil(p (max - min + 1))`. -/
theorem invcdf_dunif_int (min max : Int) (h : min ≤ max) (p : K) (hp0 : 0 < p) (hp1 : p ≤ 1) :
    invcdf_dunif (fin p) (fin (min : K)) (fin (max : K)) false
      = (fin (((min - 1 + Int.ceil (p * ((max : K) - min + 1)) : Int)) : K), false) ∧
    1 ≤ Int.ceil (p * ((max : K) - min + 1)) ∧
    Int.ceil (p * ((max : K) - min + 1)) ≤ max - min + 1 := by
  have h' : ¬ ((max : K) < (min : K)) := by exact_mod_cast not_lt.mpr h
  have hw := width_pos (K := K) min max h
  have hpw : 0 < p * ((max : K) - min + 1) := mul_pos hp0 hw
  have hc1 : 1 ≤ Int.ceil (p * ((max : K) - min + 1)) := by
    have : 0 < Int.ceil (p * ((max : K) - min + 1)) := Int.ceil_pos.mpr hpw
    omega
  have hc2 : Int.ceil (p * ((max : K) - min + 1)) ≤ max - min + 1 := by
    rw [Int.ceil_le]
    push_cast
    calc p * ((max : K) - min + 1) ≤ 1 * ((max : K) - min + 1) :=
          mul_le_mul_of_nonneg_right hp1 (le_of_lt hw)
      _ = (max : K) - min + 1 := one_mul _
  refine ⟨?_, hc1, hc2⟩
  by_cases he : min = max
  · subst he
    have hw1 : (min : K) - min + 1 = 1 := by ring
    have hceil : Int.ceil (p * ((min : K) - min + 1)) = 1 := by
      rw [hw1, mul_one, Int.ceil_eq_iff]
      constructor
      · simpa using hp0
      · simpa using hp1
    simp only [invcdf_dunif, isnan_fin, Bool.or_self, Bool.false_eq_true, if_false, gt_fin_fin,
      lt_irrefl, decide_False, finite_fin, Bool.not_true, isInteger_intCast, Bool.or_false,
      lt_fin_fin, not_lt.mpr (le_of_lt hp0), not_lt.mpr hp1, eq_fin_fin, decide_True,
      Bool.or_true, if_true, hceil]
    congr 2
    push_cast
    ring
  · have he' : ¬ ((min : K) = (max : K)) := by exact_mod_cast he
    simp only [invcdf_dunif, isnan_fin, Bool.or_self, Bool.false_eq_true, if_false, gt_fin_fin,
      h', decide_False, finite_fin, Bool.not_true, isInteger_intCast, Bool.or_false,
      lt_fin_fin, not_lt.mpr (le_of_lt hp0), not_lt.mpr hp1, eq_fin_fin, ne_of_gt hp0, he',
      fin_sub_fin, fin_add_fin, fin_mul_fin, ceil_fin]
    congr 2
    have : p * ((max : K) - min + 1) + min - 1
        = p * ((max : K) - min + 1) + (((min - 1 : Int)) : K) := by push_cast; ring
    rw [this, Int.ceil_add_int]
    push_cast
    ring
/-- C22 (amended): in exact arithmetic, for integers `min <= max` and every `p` with
`0 < p <= 1`, the quantile
`q = invcdf_dunif(p, min, max)` is an integer of `[min, max]` with
`cdf_dunif(q) >= p` and `cdf_dunif(q - 1) < p`; and for every integer `x` of
`[min, max]`, `invcdf_dunif(cdf_dunif(x)) = x`. -/
theorem dunif_quantile_generalised_inverse (min max : Int) (h : min ≤ max) :
    (∀ p : K, 0 < p → p ≤ 1 →
      ∃ q : Int,
        invcdf_dunif (fin p) (fin (min : K)) (fin (max : K)) false = (fin (q : K), false) ∧
        min ≤ q ∧ q ≤ max ∧
        (∃ c : K, cdf_dunif (fin (q : K)) (fin (min : K)) (fin (max : K)) false = (fin c, false) ∧
          p ≤ c) ∧
        (∃ c : K, cdf_dunif (fin (((q - 1 : Int)) : K)) (fin (min : K)) (fin (max : K)) false
            = (fin c, false) ∧ c < p)) ∧
    (∀ x : Int, min ≤ x → x ≤ max →
      invcdf_dunif (cdf_dunif (fin (x : K)) (fin (min : K)) (fin (max : K)) false).1
        (fin (min : K)) (fin (max : K)) false = (fin (x : K), false)) := by
  have hw := width_pos (K := K) min max h
  constructor
  · intro p hp0 hp1
    obtain ⟨hq, hc1, hc2⟩ := invcdf_dunif_int (K := K) min max h p hp0 hp1
    refine ⟨min - 1 + Int.ceil (p * ((max : K) - min + 1)), hq, by omega, by omega, ?_, ?_⟩
    · refine ⟨_, cdf_dunif_int min max _ (by omega) (by omega), ?_⟩
      rw [le_div_iff₀ hw]
      have := Int.le_ceil (p * ((max : K) - min + 1))
      push_cast
      linarith
    · by_cases hone : Int.ceil (p * ((max : K) - min + 1)) = 1
      · refine ⟨0, ?_, hp0⟩
        have : min - 1 + Int.ceil (p * ((max : K) - min + 1)) - 1 = min - 1 := by omega
        rw [this]
        exact cdf_dunif_below min max h
      · refine ⟨_, cdf_dunif_int min max _ (by omega) (by omega), ?_⟩
        rw [div_lt_iff₀ hw]
        have := Int.ceil_lt_add_one (p * ((max : K) - min + 1))
        push_cast
        linarith
  · intro x h1 h2
    rw [cdf_dunif_int min max x h1 h2]
    have hxp : (0 : K) < (x : K) - min + 1 := by
      have : (min : K) ≤ (x : K) := by exact_mod_cast h1
      linarith
    have hp0 : (0 : K) < ((x : K) - min + 1) / ((max : K) - min + 1) := div_pos hxp hw
    have hp1 : ((x : K) - min + 1) / ((max : K) - min + 1) ≤ 1 := by
      rw [div_le_one hw]
      have : (x : K) ≤ (max : K) := by exact_mod_cast h2
      linarith
    obtain ⟨hq, -, -⟩ := invcdf_dunif_int (K := K) min max h _ hp0 hp1
    rw [hq, div_mul_cancel₀ _ (ne_of_gt hw)]
    have : (x : K) - min + 1 = (((x - min + 1 : Int)) : K) := by push_cast; ring
    rw [this, Int.ceil_intCast]
    congr 2
    push_cast
    ring

/-- Witness for C22: `min = 1`, `max = 4`, `x = 2`. -/
theorem dunif_quantile_generalised_inverse_witness :
    (1 : Int) ≤ 4 ∧
    invcdf_dunif (cdf_dunif (fin ((2 : Int) : ℚ)) (fin ((1 : Int) : ℚ)) (fin ((4 : Int) : ℚ)) false).1
        (fin ((1 : Int) : ℚ)) (fin ((4 : Int) : ℚ)) false = (fin ((2 : Int) : ℚ), false) :=
  ⟨by decide,
   (dunif_quantile_generalised_inverse (K := ℚ) 1 4 (by decide)).2 2 (by decide) (by decide)⟩

/-- C22 (counterexample): in binary64 arithmetic, for `min = 1`, `max = 25` and `x = 14`,
`cdf_dunif(14) = 14/25` rounded, its product with the width `25` rounds to a value
above `14`, and `invcdf_dunif(cdf_dunif(14))` is `15`, not `14`. -/
theorem dunif_round_trip_rounded :
    F64.invcdf_dunif (F64.cdf_dunif (fin 14) (fin 1) (fin 25) false).1 (fin 1) (fin 25) false
      = (fin 15, false) ∧
    (fin 15 : Dbl ℚ) ≠ fin 14 := by
  decide!

/-! ## Two-category Dirichlet-multinomial -/

/-- The log of the beta-binomial mass in terms of log-gamma values. -/
theorem log_bbinom_mass_eq (alpha beta : ℝ) (ha : 0 < alpha) (hb : 0 < beta) (n x : ℕ)
    (hx : x ≤ n) :
    Real.log ((n.choose x : ℝ) * exactBeta (x + alpha) ((n - x : ℕ) + beta)
        / exactBeta alpha beta)
      = (Real.log (n.factorial : ℝ) + Real.log (Real.Gamma (alpha + beta)))
          - Real.log (Real.Gamma ((n : ℝ) + (alpha + beta)))
          + ((Real.log (Real.Gamma ((x : ℝ) + alpha))
                - (Real.log (x.factorial : ℝ) + Real.log (Real.Gamma alpha)))
            + (Real.log (Real.Gamma (((n - x : ℕ) : ℝ) + beta))
                - (Real.log ((n - x).factorial : ℝ) + Real.log (Real.Gamma beta)))) := by
  have hxa : (0 : ℝ) < (x : ℝ) + alpha := by positivity
  have hnb : (0 : ℝ) < ((n - x : ℕ) : ℝ) + beta := by positivity
  have hab : (0 : ℝ) < alpha + beta := by positivity
  have hsum : (x : ℝ) + alpha + (((n - x : ℕ) : ℝ) + beta) = (n : ℝ) + (alpha + beta) := by
    rw [Nat.cast_sub hx]; ring
  have g1 := ne_of_gt (Real.Gamma_pos_of_pos hxa)
  have g2 := ne_of_gt (Real.Gamma_pos_of_pos hnb)
  have g3 := ne_of_gt (Real.Gamma_pos_of_pos ha)
  have g4 := ne_of_gt (Real.Gamma_pos_of_pos hb)
  have g5 := ne_of_gt (Real.Gamma_pos_of_pos hab)
  have g6 : Real.Gamma ((n : ℝ) + (alpha + beta)) ≠ 0 :=
    ne_of_gt (Real.Gamma_pos_of_pos (by positivity))
  have f1 : (n.factorial : ℝ) ≠ 0 := by exact_mod_cast Nat.factorial_ne_zero n
  have f2 : (x.factorial : ℝ) ≠ 0 := by exact_mod_cast Nat.factorial_ne_zero x
  have f3 : ((n - x).factorial : ℝ) ≠ 0 := by exact_mod_cast Nat.factorial_ne_zero (n - x)
  rw [Nat.cast_choose ℝ hx]
  unfold exactBeta
  rw [hsum]
  rw [Real.log_div (by positivity) (by positivity),
    Real.log_mul (by positivity) (by positivity),
    Real.log_div f1 (by positivity), Real.log_mul f2 f3,
    Real.log_div (by positivity) g6, Real.log_mul g1 g2,
    Real.log_div (by positivity) g5, Real.log_mul g3 g4]
  ring

/-- C23: for `alpha > 0`, `beta > 0` and integers `0 <= x <= n`, over the reals with the
log-gamma, `lchoose` and `lbeta` read exactly, the element of `cpp_ddirmnom` for the
row `(x, n - x)`, size `n` and alpha row `(alpha, beta)` equals
`logpmf_bbinom(x, n, alpha, beta)`, and the call with `log_prob = true` on that
one-row input returns exactly that value with no warning. -/
theorem ddirmnom_two_categories (R : RMath ℝ) (hR : ExactSpecial R) (alpha beta : ℝ)
    (ha : 0 < alpha) (hb : 0 < beta) (n x : ℕ) (hx : x ≤ n) :
    (∀ (xrow arow : Nat → Dbl ℝ) (tw : Bool),
      xrow 0 = fin (x : ℝ) → xrow 1 = fin ((n : ℝ) - (x : ℝ)) →
      arow 0 = fin alpha → arow 1 = fin beta →
      ddirmnom_elem R xrow arow (fin (n : ℝ)) 2 tw
        = logpmf_bbinom R (fin (x : ℝ)) (fin (n : ℝ)) (fin alpha) (fin beta) tw) ∧
    cpp_ddirmnom R
        ⟨1, 2, fun _ j => if j = 0 then fin (x : ℝ) else fin ((n : ℝ) - (x : ℝ))⟩
        [fin (n : ℝ)]
        ⟨1, 2, fun _ j => if j = 0 then fin alpha else fin beta⟩ true
      = .ok { value := [(logpmf_bbinom R (fin (x : ℝ)) (fin (n : ℝ)) (fin alpha) (fin beta)
                          false).1],
              warnings := [] } := by
  have hsub : (n : ℝ) - (x : ℝ) = ((n - x : ℕ) : ℝ) := (Nat.cast_sub hx).symm
  have elem : ∀ (xrow arow : Nat → Dbl ℝ) (tw : Bool),
      xrow 0 = fin (x : ℝ) → xrow 1 = fin ((n : ℝ) - (x : ℝ)) →
      arow 0 = fin alpha → arow 1 = fin beta →
      ddirmnom_elem R xrow arow (fin (n : ℝ)) 2 tw
        = logpmf_bbinom R (fin (x : ℝ)) (fin (n : ℝ)) (fin alpha) (fin beta) tw := by
    intro xrow arow tw h0 h1 a0 a1
    rw [logpmf_bbinom_exact R hR n x hx alpha beta ha hb tw,
      log_bbinom_mass_eq alpha beta ha hb n x hx]
    have hxa : (0 : ℝ) < (x : ℝ) + alpha := by positivity
    have hnb : (0 : ℝ) < ((n - x : ℕ) : ℝ) + beta := by positivity
    have hab : (0 : ℝ) < alpha + beta := by positivity
    have hnab : (0 : ℝ) < (n : ℝ) + (alpha + beta) := by positivity
    have hsx : (x : ℝ) + ((n - x : ℕ) : ℝ) = (n : ℝ) := by
      rw [Nat.cast_sub hx]; ring
    have hn0 : ¬ ((n : ℝ) < 0) := not_lt.mpr (Nat.cast_nonneg n)
    have hscan : ddirmnom_scan xrow arow 2
        = { wrong_x := false, wrong_param := false, sum_x := fin (n : ℝ),
            sum_alpha := fin (alpha + beta) } := by
      simp [ddirmnom_scan, List.range_succ, h0, h1, a0, a1, hsub, not_le.mpr ha, not_le.mpr hb,
        hsx]
    have hprod : (List.range 2).foldl
        (fun acc j => acc + (R.lgammafn (xrow j + arow j)
                              - (lfactorial R (xrow j) + R.lgammafn (arow j)))) (fin 0)
        = fin ((Real.log (Real.Gamma ((x : ℝ) + alpha))
                - (Real.log (x.factorial : ℝ) + Real.log (Real.Gamma alpha)))
            + (Real.log (Real.Gamma (((n - x : ℕ) : ℝ) + beta))
                - (Real.log ((n - x).factorial : ℝ) + Real.log (Real.Gamma beta)))) := by
      simp [List.range_succ, h0, h1, a0, a1, hsub, lfactorial_nat R hR, hR.lgammafn_fin _ hxa,
        hR.lgammafn_fin _ hnb, hR.lgammafn_fin _ ha, hR.lgammafn_fin _ hb]
    simp only [ddirmnom_elem, hscan, hprod]
    simp [lfactorial_nat R hR, hR.lgammafn_fin _ hab, hR.lgammafn_fin _ hnab, hn0, Dbl.ne]
  refine ⟨elem, ?_⟩
  rw [cpp_ddirmnom_elements R _ _ _ true (le_refl 2) (le_refl 2)]
  have he := elem (fun j => if j = 0 then fin (x : ℝ) else fin ((n : ℝ) - (x : ℝ)))
    (fun j => if j = 0 then fin alpha else fin beta) false rfl rfl rfl rfl
  have hl := logpmf_bbinom_exact R hR n x hx alpha beta ha hb false
  simp [Nat.max, GETV, List.range_succ, he, hl]
/-- Witness for C23: `alpha = beta = 1`, `n = 3`, `x = 1`, with the exact library. -/
theorem ddirmnom_two_categories_witness :
    (0 : ℝ) < 1 ∧ (1 : ℕ) ≤ 3 ∧
    cpp_ddirmnom exactMath
        ⟨1, 2, fun _ j => if j = 0 then fin ((1 : ℕ) : ℝ) else fin (((3 : ℕ) : ℝ) - ((1 : ℕ) : ℝ))⟩
        [fin ((3 : ℕ) : ℝ)]
        ⟨1, 2, fun _ j => if j = 0 then fin 1 else fin 1⟩ true
      = .ok { value := [(logpmf_bbinom exactMath (fin ((1 : ℕ) : ℝ)) (fin ((3 : ℕ) : ℝ)) (fin 1)
                          (fin 1) false).1],
              warnings := [] } :=
  ⟨one_pos, by decide,
   (ddirmnom_two_categories exactMath exactMath_exact 1 1 one_pos one_pos 3 1 (by decide)).2⟩

/-! ## Tukey lambda: antisymmetry of the quantile -/

/-- Negating a difference swaps its sides. -/
theorem neg_sub_dbl (a b : Dbl K) : -(a - b) = b - a := by
  cases a <;> cases b <;>
    first
    | rfl
    | (simp only [fin_sub_fin, neg_fin]; congr 1; ring)

/-- Negating a quotient negates its numerator. -/
theorem neg_div_dbl (a : Dbl K) (c : K) (hc : c ≠ 0) : -(a / fin c) = (-a) / fin c := by
  cases a with
  | nan => rfl
  | fin v => simp only [neg_fin, fin_div_fin _ _ hc, neg_div]
  | pinf =>
    show Dbl.neg (if 0 ≤ c then pinf else ninf) = (if 0 ≤ c then ninf else pinf)
    split_ifs <;> rfl
  | ninf =>
    show Dbl.neg (if 0 ≤ c then ninf else pinf) = (if 0 ≤ c then pinf else ninf)
    split_ifs <;> rfl

/-- The loop of `cpp_qtlambda`: the values in order and the warnings appended. -/
theorem qtlambda_fold_upto (N : Nat) (d : Dbl K) (f : Nat → Dbl K × List String)
    (w0 : List String) :
    ∀ m, m ≤ N →
      (List.range m).foldl
          (fun (st : List (Dbl K) × List String) i => (st.1.set i (f i).1, st.2 ++ (f i).2))
          (List.replicate N d, w0)
        = ((List.range m).map (fun i => (f i).1) ++ List.replicate (N - m) d,
            w0 ++ ((List.range m).map (fun i => (f i).2)).flatten) := by
  intro m
  induction m with
  | zero => intro _; simp
  | succ m ih =>
    intro hm
    rw [List.range_succ, List.foldl_append, ih (by omega)]
    have hlen : ((List.range m).map (fun i => (f i).1)).length = m := by simp
    have hN : N - m = (N - (m + 1)) + 1 := by omega
    have := set_prefix_replicate ((List.range m).map (fun i => (f i).1)) (N - (m + 1)) d (f m).1
    rw [hlen, ← hN] at this
    simp [this]

/-- Reading a vector of finite values, and its image under `g`, at a recycled index. -/
theorem GETV_map_fin (p : List K) (g : K → K) (i : Nat) :
    (GETV (p.map fin) i = nan ∧ GETV ((p.map g).map fin) i = nan) ∨
    (∃ v, v ∈ p ∧ GETV (p.map fin) i = fin v ∧ GETV ((p.map g).map fin) i = fin (g v)) := by
  by_cases hp : p = []
  · subst hp
    left
    simp [GETV]
  · right
    have hlen : 0 < p.length := List.length_pos.mpr hp
    have hi : i % p.length < p.length := Nat.mod_lt _ hlen
    refine ⟨p.get ⟨i % p.length, hi⟩, List.get_mem _ _ _, ?_, ?_⟩
    · simp [GETV, List.getD_eq_getElem?_getD, List.getElem?_eq_getElem hi]
    · simp [GETV, List.getD_eq_getElem?_getD, List.getElem?_eq_getElem hi]

/-- The kernel of the Tukey lambda quantile at `1 - p`. -/
theorem invcdf_tlambda_reflect (R : RMath K) (lambda : Dbl K) (p : K) (h0 : 0 ≤ p) (h1 : p ≤ 1) :
    invcdf_tlambda R (fin (1 - p)) lambda = (-(invcdf_tlambda R (fin p) lambda).1, []) ∧
    (invcdf_tlambda R (fin p) lambda).2 = [] := by
  have h0' : ¬ (1 - p < 0) := by linarith
  have h1' : ¬ (1 < 1 - p) := by linarith
  have hpp : (1 : K) - (1 - p) = p := by ring
  cases lambda with
  | nan => simp [invcdf_tlambda]; rfl
  | pinf =>
    simp only [invcdf_tlambda, isnan_fin, Dbl.isnan, Bool.or_self, Bool.false_eq_true, if_false,
      lt_fin_fin, gt_fin_fin, h0', h1', not_lt.mpr h0, not_lt.mpr h1, decide_False, Dbl.eq,
      fin_sub_fin, hpp, and_true]
    rw [← neg_sub_dbl]
    cases (R.pow (fin p) pinf - R.pow (fin (1 - p)) pinf) <;> first | rfl | simp [HDiv.hDiv, Div.div, Dbl.div, Neg.neg, Dbl.neg]
  | ninf =>
    simp only [invcdf_tlambda, isnan_fin, Dbl.isnan, Bool.or_self, Bool.false_eq_true, if_false,
      lt_fin_fin, gt_fin_fin, h0', h1', not_lt.mpr h0, not_lt.mpr h1, decide_False, Dbl.eq,
      fin_sub_fin, hpp, and_true]
    rw [← neg_sub_dbl]
    cases (R.pow (fin p) ninf - R.pow (fin (1 - p)) ninf) <;> first | rfl | simp [HDiv.hDiv, Div.div, Dbl.div, Neg.neg, Dbl.neg]
  | fin c =>
    by_cases hc : c = 0
    · subst hc
      simp only [invcdf_tlambda, isnan_fin, Bool.or_self, Bool.false_eq_true, if_false,
        lt_fin_fin, gt_fin_fin, h0', h1', not_lt.mpr h0, not_lt.mpr h1, decide_False, eq_fin_fin,
        decide_True, if_true, fin_sub_fin, hpp, and_true, neg_sub_dbl]
    · simp only [invcdf_tlambda, isnan_fin, Bool.or_self, Bool.false_eq_true, if_false,
        lt_fin_fin, gt_fin_fin, h0', h1', not_lt.mpr h0, not_lt.mpr h1, decide_False, eq_fin_fin,
        hc, fin_sub_fin, hpp, and_true, neg_div_dbl _ _ hc, neg_sub_dbl]

/-- C24 (amended): in exact arithmetic, for every real `lambda` and every `p` in `[0, 1]`,
`invcdf_tlambda(1 - p, lambda) = -invcdf_tlambda(p, lambda)` with no warning; hence for
vectors `p` with entries in `[0, 1]`, `cpp_qtlambda` with `lower_tail = false` returns
the negation of its `lower_tail = true` result, both without warnings. -/
theorem tlambda_antisymmetric (R : RMath K) :
    (∀ lambda p : K, 0 ≤ p → p ≤ 1 →
      invcdf_tlambda R (fin (1 - p)) (fin lambda)
        = (-(invcdf_tlambda R (fin p) (fin lambda)).1, []) ∧
      (invcdf_tlambda R (fin p) (fin lambda)).2 = []) ∧
    (∀ p lambda : List K, (∀ v, v ∈ p → 0 ≤ v ∧ v ≤ 1) →
      cpp_qtlambda R (p.map fin) (lambda.map fin) false false
        = { value := vmap (fun v => -v)
                      (cpp_qtlambda R (p.map fin) (lambda.map fin) true false).value,
            warnings := [] } ∧
      (cpp_qtlambda R (p.map fin) (lambda.map fin) true false).warnings = []) := by
  refine ⟨fun lambda p h0 h1 => invcdf_tlambda_reflect R (fin lambda) p h0 h1, ?_⟩
  intro p lambda hp
  have hvm : vmap (fun v => fin 1 - v) (p.map fin) = (p.map (fun v => 1 - v)).map (fin (K := K)) := by
    simp [vmap, List.map_map, Function.comp_def]
  have key : ∀ i : Nat,
      invcdf_tlambda R (GETV ((p.map (fun v => 1 - v)).map fin) i) (GETV (lambda.map fin) i)
        = (-(invcdf_tlambda R (GETV (p.map fin) i) (GETV (lambda.map fin) i)).1, []) ∧
      (invcdf_tlambda R (GETV (p.map fin) i) (GETV (lambda.map fin) i)).2 = [] := by
    intro i
    rcases GETV_map_fin p (fun v => 1 - v) i with ⟨e1, e2⟩ | ⟨v, hv, e1, e2⟩
    · rw [e1, e2]
      simp [invcdf_tlambda]
      rfl
    · rw [e1, e2]
      exact invcdf_tlambda_reflect R _ v (hp v hv).1 (hp v hv).2
  simp only [cpp_qtlambda, Bool.false_eq_true, if_false, Bool.not_false, Bool.not_true, if_true,
    hvm, List.length_map]
  rw [qtlambda_fold_upto _ _ _ _ _ (le_refl _), qtlambda_fold_upto _ _ _ _ _ (le_refl _)]
  have key1 := fun i => (key i).1
  have key2 := fun i => (key i).2
  simp [vmap, key1, key2, -List.map_map]
  rw [List.map_map]
  rfl
/-- Witness for C24: `p = 1/4`, `lambda = 2`, where the quantile is `-1/4`. -/
theorem tlambda_antisymmetric_witness :
    invcdf_tlambda edgeMath (fin (1 - 1 / 4 : ℚ)) (fin 2)
      = (-(invcdf_tlambda edgeMath (fin (1 / 4 : ℚ)) (fin 2)).1, []) ∧
    (invcdf_tlambda edgeMath (fin (1 / 4 : ℚ)) (fin 2)).1 = fin (-1 / 4) :=
  ⟨((tlambda_antisymmetric edgeMath).1 2 (1 / 4) (by norm_num) (by norm_num)).1, by decide!⟩

/-- C24 (counterexample): in binary64 arithmetic, for `p = 2^-60` and `lambda = -1`, `1 - p`
rounds to `1`, so `invcdf_tlambda(1 - p, lambda) = (pow(1, -1) - pow(0, -1))/lambda` is
`+inf`, while `invcdf_tlambda(p, lambda) = (2^60 - 1)/lambda` is `-2^60`, whose negation
is finite. -/
theorem tlambda_reflection_rounded :
    F64.sub (fin 1) (fin (pow2 (-60))) = fin 1 ∧
    F64.invcdf_tlambda edgeMath (F64.sub (fin 1) (fin (pow2 (-60)))) (fin (-1)) = (pinf, []) ∧
    F64.invcdf_tlambda edgeMath (fin (pow2 (-60))) (fin (-1)) = (fin (-(2 ^ 60)), []) ∧
    (pinf : Dbl ℚ) ≠ -(fin (-(2 ^ 60))) := by
  decide!

/-! ## Beta-binomial CDF: bounds of the table lookup -/

/-- The loop of `cdf_bbinom_table` keeps the length of the table. -/
theorem table_fold_length (R : RMath K) (n alpha beta gxy bab : Dbl K) (l : List Nat) :
    ∀ s : TabState K,
      (l.foldl (cdf_bbinom_table_step R n alpha beta gxy bab) s).p_tab.length
        = s.p_tab.length := by
  induction l with
  | nil => intro s; rfl
  | cons j l ih =>
    intro s
    rw [List.foldl_cons, ih]
    simp [cdf_bbinom_table_step]

/-- A table that `cdf_bbinom_table` returns for `k` has `to_pos_int(k) + 1` entries. -/
theorem cdf_bbinom_table_length (R : RMath K) (k n alpha beta : Dbl K) (tab : List (Dbl K))
    (h : cdf_bbinom_table R k n alpha beta = .ok tab) :
    ∃ ik, to_pos_int k = .ok ik ∧ tab.length = ik + 1 := by
  unfold cdf_bbinom_table at h
  split_ifs at h
  cases hk : to_pos_int k with
  | error e => rw [hk] at h; cases h
  | ok ik =>
    rw [hk] at h
    refine ⟨ik, rfl, ?_⟩
    simp only at h
    split_ifs at h
    · cases h; simp
    · cases h; simp
    · cases h
      rw [table_fold_length]
      simp

/-- The index of a value between `0` and `mx` is a valid index into a table built
with `k = mx`. -/
theorem table_lookup_in_bounds (R : RMath K) (n alpha beta : Dbl K) (a m : K)
    (tab : List (Dbl K)) (h0 : 0 ≤ a) (ham : a ≤ m)
    (h : cdf_bbinom_table R (fin m) n alpha beta = .ok tab) :
    ∃ j v, to_pos_int (fin a) = .ok j ∧ tab.get? j = some v := by
  obtain ⟨ik, hik, hlen⟩ := cdf_bbinom_table_length R _ _ _ _ _ h
  have hm : ¬ ((INT_MAX : K) < m) := by
    intro hlt
    have : to_pos_int (fin m) = .error "value out of integer range" := by
      simp [to_pos_int, is_large_int, hlt, not_lt.mpr (le_trans h0 ham)]
    rw [this] at hik
    cases hik
  have hm0 : ¬ (m < 0) := not_lt.mpr (le_trans h0 ham)
  have ha : ¬ ((INT_MAX : K) < a) := fun hlt => hm (lt_of_lt_of_le hlt ham)
  have hik2 : ik = (Int.floor m).toNat := by
    simp [to_pos_int, is_large_int, hm, hm0] at hik
    exact hik.symm
  have hj : to_pos_int (fin a) = .ok (Int.floor a).toNat := by
    simp [to_pos_int, is_large_int, ha, not_lt.mpr h0]
  have hle : (Int.floor a).toNat ≤ (Int.floor m).toNat :=
    Int.toNat_le_toNat (Int.floor_le_floor ham)
  have hlt : (Int.floor a).toNat < tab.length := by omega
  exact ⟨_, tab.get ⟨_, hlt⟩, hj, List.get?_eq_get hlt⟩
/-- The scan of `finite_max_int` from a finite non-negative start ends at a finite
value that bounds the start and every entry within the integer range. -/
theorem finite_max_int_fold (x : List (Dbl K)) :
    ∀ m0 : K, 0 ≤ m0 →
      ∃ m : K, x.foldl (fun m v => if v.gt m && !is_large_int v then v else m) (fin m0) = fin m ∧
        m0 ≤ m ∧ ∀ a : K, fin a ∈ x → a ≤ (INT_MAX : K) → a ≤ m := by
  induction x with
  | nil => intro m0 _; exact ⟨m0, rfl, le_refl _, by simp⟩
  | cons v x ih =>
    intro m0 h0
    rw [List.foldl_cons]
    by_cases hb : ∃ b : K, v = fin b ∧ m0 < b ∧ ¬ ((INT_MAX : K) < b)
    · obtain ⟨b, rfl, hb1, hb2⟩ := hb
      have hcond : (Dbl.gt (fin b) (fin m0) && !is_large_int (fin b)) = true := by
        simp [is_large_int, hb1, hb2]
      obtain ⟨m, hm, hle, hall⟩ := ih b (le_trans h0 (le_of_lt hb1))
      simp only [hcond, if_true]
      refine ⟨m, hm, le_trans (le_of_lt hb1) hle, ?_⟩
      intro a ha hi
      simp at ha
      rcases ha with rfl | ha
      · exact hle
      · exact hall a ha hi
    · have hcond : (Dbl.gt v (fin m0) && !is_large_int v) = false := by
        cases v with
        | nan => rfl
        | ninf => rfl
        | pinf => rfl
        | fin b =>
          simp only [is_large_int, gt_fin_fin, Bool.and_eq_false_imp, decide_eq_true_eq,
            Bool.not_eq_false', decide_eq_true_eq]
          intro h1
          by_contra h2
          exact hb ⟨b, rfl, h1, h2⟩
      obtain ⟨m, hm, hle, hall⟩ := ih m0 h0
      simp only [hcond, Bool.false_eq_true, if_false]
      refine ⟨m, hm, hle, ?_⟩
      intro a ha hi
      simp at ha
      rcases ha with rfl | ha
      · by_cases h1 : m0 < a
        · exact absurd ⟨a, rfl, h1, not_lt.mpr hi⟩ hb
        · exact le_trans (not_lt.mp h1) hle
      · exact hall a ha hi

/-- `finite_max_int` is a finite non-negative value that bounds every entry within the
integer range. -/
theorem finite_max_int_ge (x : List (Dbl K)) :
    ∃ m : K, finite_max_int x = fin m ∧ 0 ≤ m ∧
      ∀ a : K, fin a ∈ x → a ≤ (INT_MAX : K) → a ≤ m :=
  finite_max_int_fold x 0 (le_refl _)

/-- C25 (failing input): on `x = 5`, `size = 3000000000`, `alpha = beta = 1` the final
branch of `cpp_pbbinom` is reached (`0 <= x < size`, `x` within the integer range), but
`finite_max_int(size) = 0` because the only size is beyond the integer range, so
`mx = min(5, 0) = 0`, the table built with `k = mx` has one entry, and the index
`to_pos_int(x) = 5` is outside it. -/
theorem cpp_pbbinom_index_out_of_bounds (R : RMath K) (lower_tail log_prob : Bool) :
    finite_max_int [fin (5 : K)] = fin 5 ∧
    finite_max_int [fin (3000000000 : K)] = fin 0 ∧
    (∃ v : Dbl K, cdf_bbinom_table R (fin 0) (fin 3000000000) (fin 1) (fin 1) = .ok [v]) ∧
    to_pos_int (fin (5 : K)) = .ok 5 ∧
    cpp_pbbinom R [fin 5] [fin 3000000000] [fin 1] [fin 1] lower_tail log_prob
      = .error "vector index out of range" := by
  have hmx : finite_max_int [fin (5 : K)] = fin 5 := by
    simp [finite_max_int, is_large_int, INT_MAX]; norm_num
  have hms : finite_max_int [fin (3000000000 : K)] = fin 0 := by
    simp [finite_max_int, is_large_int, INT_MAX]; norm_num
  have htab : ∃ v : Dbl K, cdf_bbinom_table R (fin 0) (fin 3000000000) (fin 1) (fin 1) = .ok [v] := by
    have h1 : ¬ ((3000000000 : K) < 0) := by norm_num
    have h2 : ¬ ((1 : K) < 0) := by norm_num
    have h3 : ¬ ((2147483647 : K) < 0) := by norm_num
    simp [cdf_bbinom_table, to_pos_int, is_large_int, INT_MAX, h1, h2, h3]
  have hidx : to_pos_int (fin (5 : K)) = .ok 5 := by
    simp [to_pos_int, is_large_int, INT_MAX]
    norm_num
  refine ⟨hmx, hms, htab, hidx, ?_⟩
  obtain ⟨v, hv⟩ := htab
  simp only [cpp_pbbinom, hmx, hms]
  simp [cpp_pbbinom_loop, cpp_pbbinom_body, GETV, Nat.max, List.range, List.range.loop,
    is_large_int, INT_MAX, hv, hidx]
  norm_num

end ExtraDistr
